import Mathlib

/-!
# LF ordinal encoder: a shallow embedding of `pkg/lf/ordinal.go`

Slices of `uint32` and of bytes are lists of naturals, `uint32` arithmetic is
arithmetic modulo `2^32`, and in-place writes are `List.set`.  The hash and the
block cipher come from the Go standard library and are parameters.
-/

namespace LF

/-! ## Machine words -/

/-- The `uint32` subtraction `x - y`, which wraps around. -/
def sub32 (x y : Nat) : Nat := (x + 4294967296 - y % 4294967296) % 4294967296

/-- The `uint32` addition `x + y`, which wraps around. -/
def add32 (x y : Nat) : Nat := (x + y) % 4294967296

/-- The `uint32` complement `^x`. -/
def not32 (x : Nat) : Nat := 4294967295 - x % 4294967296

/-! ## `ordinalParallelQuicksort` -/

/-- The loop `for i, ai := range a` of `ordinalParallelQuicksort`: `n` iterations
are left, the next index is `i`, and the pivot is read from `a[right]` at every
iteration as in the source. -/
def partitionLoop (right : Nat) : Nat → Nat → Nat → List Nat → List Nat × Nat
  | 0, _, left, a => (a, left)
  | n + 1, i, left, a =>
    let ai := a.getD i 0
    if ai < a.getD right 0 then
      partitionLoop right n (i + 1) (left + 1) ((a.set left ai).set i (a.getD left 0))
    else
      partitionLoop right n (i + 1) left a

/-- The first half of `ordinalParallelQuicksort`: the swap of `a[1]` with
`a[right]`, the partition loop and the swap of `a[left]` with `a[right]`.
Returns the slice and `left`. -/
def quicksortPartition (a : List Nat) : List Nat × Nat :=
  let right := a.length - 1
  let a1 := (a.set 1 (a.getD right 0)).set right (a.getD 1 0)
  let r := partitionLoop right a1.length 0 0 a1
  let a2 := r.1
  let left := r.2
  ((a2.set left (a2.getD right 0)).set right (a2.getD left 0), left)

/-- The function `ordinalParallelQuicksort` on a slice of length at least 2, with
the recursion depth bounded by `fuel`.  A sub-sort works on `a[:left]` or on
`a[left+1:]`, which are disjoint, so whether it runs in its own goroutine or
in line the slice it leaves is the same; the wait group and `par` only tell
the caller when the sub-sorts are done. -/
def quicksortFuel : Nat → List Nat → List Nat
  | 0, a => a
  | fuel + 1, a =>
    let r := quicksortPartition a
    let left := r.2
    let lo := r.1.take left
    let lo := if 2 ≤ left then quicksortFuel fuel lo else lo
    let hi := r.1.drop (left + 1)
    let hi := if 2 ≤ hi.length then quicksortFuel fuel hi else hi
    lo ++ (r.1.drop left).take 1 ++ hi

/-- The slice left by `ordinalParallelQuicksort(a, wg, false)` once the wait
group is done.  Every recursive call is on a strictly shorter slice, so
`a.length` levels of recursion are enough. -/
def ordinalParallelQuicksort (a : List Nat) : List Nat :=
  quicksortFuel a.length a

/-! ## `ordinal16to32` -/

/-- The call `binary.LittleEndian.Uint32(b[off:off+4])`; a byte is read modulo 256. -/
def leUint32 (b : List Nat) (off : Nat) : Nat :=
  b.getD off 0 % 256 + b.getD (off + 1) 0 % 256 * 256 + b.getD (off + 2) 0 % 256 * 65536 +
    b.getD (off + 3) 0 % 256 * 16777216

/-- The call `binary.LittleEndian.PutUint64(b, v)`: it writes `b[0]` to `b[7]` only. -/
def lePutUint64 (b : List Nat) (v : Nat) : List Nat :=
  (((((((b.set 0 (v % 256)).set 1 (v >>> 8 % 256)).set 2 (v >>> 16 % 256)).set 3
    (v >>> 24 % 256)).set 4 (v >>> 32 % 256)).set 5 (v >>> 40 % 256)).set 6
    (v >>> 48 % 256)).set 7 (v >>> 56 % 256)

/-- The call `binary.BigEndian.PutUint32(b[off:off+4], v)`. -/
def bePutUint32 (b : List Nat) (off v : Nat) : List Nat :=
  (((b.set off (v >>> 24 % 256)).set (off + 1) (v >>> 16 % 256)).set (off + 2)
    (v >>> 8 % 256)).set (off + 3) (v % 256)

/-- The fill loop `for i := 0; i < 32768;` of `ordinal16to32`: `n` rounds are left
and the next index is `i`.  A round encrypts the register in place (`enc` is
`c.Encrypt`) and stores its four little-endian words, masked to 31 bits and
offset by `rbase`.  Returns the register and the alphabet. -/
def fillLoop (enc : List Nat → List Nat) (rbase : Nat) :
    Nat → Nat → List Nat → List Nat → List Nat × List Nat
  | 0, _, aesTmp, alphabet => (aesTmp, alphabet)
  | n + 1, i, aesTmp, alphabet =>
    let aesTmp := enc aesTmp
    let alphabet := alphabet.set i (add32 (leUint32 aesTmp 0 &&& 0x7fffffff) rbase)
    let alphabet := alphabet.set (i + 1) (add32 (leUint32 aesTmp 4 &&& 0x7fffffff) rbase)
    let alphabet := alphabet.set (i + 2) (add32 (leUint32 aesTmp 8 &&& 0x7fffffff) rbase)
    let alphabet := alphabet.set (i + 3) (add32 (leUint32 aesTmp 12 &&& 0x7fffffff) rbase)
    fillLoop enc rbase n (i + 4) aesTmp alphabet

/-- The loop `for i := 1; i < 32768; i++` of `ordinal16to32` (the gap repair):
`n` iterations are left and the next index is `i`. -/
def gapRepairLoop : Nat → Nat → List Nat → List Nat
  | 0, _, alphabet => alphabet
  | n + 1, i, alphabet =>
    if sub32 (alphabet.getD i 0) (alphabet.getD (i - 1) 0) < 2 then
      gapRepairLoop n (i + 1) (alphabet.set i (add32 (alphabet.getD i 0) 2))
    else
      gapRepairLoop n (i + 1) alphabet

/-- The gap repair pass over the 32768 entries of the alphabet. -/
def gapRepair (alphabet : List Nat) : List Nat := gapRepairLoop 32767 1 alphabet

/-- The modulus of the interpolation for an odd column value: `^rv` when
`vdiv2 == 32767` and `(alphabet[vdiv2+1] - rv) - 1` otherwise. -/
def interpModulus (alphabet : List Nat) (vdiv2 rv : Nat) : Nat :=
  if vdiv2 = 32767 then not32 rv else sub32 (sub32 (alphabet.getD (vdiv2 + 1) 0) rv) 1

/-- The statements `rv += rn % modulus; rv++` for an odd column value.  The
remainder by zero is a run-time panic in Go: the result is `none`. -/
def interpolate (alphabet : List Nat) (vdiv2 rv rn : Nat) : Option Nat :=
  if interpModulus alphabet vdiv2 rv = 0 then none
  else some (add32 (add32 rv (rn % interpModulus alphabet vdiv2 rv)) 1)

/-- The body of `if alphabet[32767] > alphabet[0] && alphabet[32767] < 0xfffffffe`
in `ordinal16to32`: the code stored in `result[kk]`.  `aesTmp` is the register
as the fill left it. -/
def lookup (enc : List Nat → List Nat) (aesTmp alphabet : List Nat)
    (valueMaskedToColumn columnValue : Nat) : Option Nat :=
  let vdiv2 := columnValue >>> 1
  let rv := alphabet.getD vdiv2 0
  if columnValue &&& 1 ≠ 0 then
    let aesTmp1 := enc (lePutUint64 aesTmp valueMaskedToColumn)
    let rn := leUint32 aesTmp1 0
    interpolate alphabet vdiv2 rv rn
  else
    some rv

/-- The outer `for` loop of `ordinal16to32`, run at most `fuel` times: fill, sort,
gap repair, range check and, when the check passes, the lookup.  `none` when
no code is returned (the check failed `fuel` times, or the lookup panicked). -/
def ordinal16to32Loop (enc : List Nat → List Nat) (rbase valueMaskedToColumn columnValue : Nat) :
    Nat → List Nat → List Nat → Option Nat
  | 0, _, _ => none
  | fuel + 1, aesTmp, alphabet =>
    let f := fillLoop enc rbase 8192 0 aesTmp alphabet
    let alphabet1 := gapRepair (ordinalParallelQuicksort f.2)
    if alphabet1.getD 32767 0 > alphabet1.getD 0 0 ∧ alphabet1.getD 32767 0 < 0xfffffffe then
      lookup enc f.1 alphabet1 valueMaskedToColumn columnValue
    else
      ordinal16to32Loop enc rbase valueMaskedToColumn columnValue fuel f.1 alphabet1

/-- The two primitives of the Go standard library that the encoder calls:
`sha512.Sum512` and, for a 16-byte key, `aes.NewCipher(key)` followed by
`Encrypt` of one 16-byte block. -/
structure Crypto where
  /-- The function `sha512.Sum512`, from the key to 64 bytes. -/
  sum512 : List Nat → List Nat
  /-- The encryption of one 16-byte block under a 16-byte key. -/
  encrypt : List Nat → List Nat → List Nat

/-- The function `ordinal16to32`: the code it stores in `result[kk]`.  `alphabet`
is the buffer that `ordinalAlphabetPool.Get()` hands out, of 32768 entries
with any contents. -/
def ordinal16to32 (c : Crypto) (fuel : Nat) (alphabet : List Nat)
    (valueMaskedToColumn columnValue kk : Nat) (keyHash : List Nat) : Option Nat :=
  let enc := c.encrypt ((keyHash.drop (16 * kk)).take 16)
  let aesTmp := enc (List.replicate 16 0)
  let rbase := leUint32 aesTmp 0 % (0x7fffffff + 2)
  ordinal16to32Loop enc rbase valueMaskedToColumn columnValue fuel aesTmp alphabet

/-- The method `Ordinal.Set`: the 16 bytes of the receiver afterwards.  `b` is
the receiver before the call and `pool k` the buffer that the pool hands to
column `k`.  The four columns write to different entries of `result` and use
different buffers, so their order does not matter. -/
def Ordinal.Set (c : Crypto) (fuel : Nat) (pool : Nat → List Nat) (b : List Nat)
    (value : Nat) (key : List Nat) : Option (List Nat) :=
  let keyHash := c.sum512 key
  match ordinal16to32 c fuel (pool 0) 0 ((value >>> 48) &&& 0xffff) 0 keyHash,
    ordinal16to32 c fuel (pool 1) (value &&& 0xffff000000000000) ((value >>> 32) &&& 0xffff) 1
      keyHash,
    ordinal16to32 c fuel (pool 2) (value &&& 0xffffffff00000000) ((value >>> 16) &&& 0xffff) 2
      keyHash,
    ordinal16to32 c fuel (pool 3) (value &&& 0xffffffffffff0000) (value &&& 0xffff) 3
      keyHash with
  | some r0, some r1, some r2, some r3 =>
    some (bePutUint32 (bePutUint32 (bePutUint32 (bePutUint32 b 0 r0) 4 r1) 8 r2) 12 r3)
  | _, _, _, _ => none

/-- Byte-wise lexicographic order, `bytes.Compare(x, y) < 0`. -/
def bytesLess : List Nat → List Nat → Bool
  | [], [] => false
  | [], _ :: _ => true
  | _ :: _, [] => false
  | x :: xs, y :: ys => decide (x < y) || (x == y && bytesLess xs ys)

/-! ## JSON form of an ordinal -/

/-- The two uses of `json.Unmarshal` in `Ordinal.UnmarshalJSON`: into a string
and into a byte slice.  `none` is a non-nil error. -/
structure Json where
  /-- The call `json.Unmarshal(j, &str)` with `str` empty: the string afterwards. -/
  unmarshalString : List Nat → Option (List Nat)
  /-- The call `json.Unmarshal(j, &bb)` with `bb` nil: the slice afterwards. -/
  unmarshalBytes : List Nat → Option (List Nat)

/-- The method `Ordinal.MarshalJSON`, given `Base62Encode`: a quote, a backslash, the
letter b, the base-62 text and a quote.  It never returns an error. -/
def Ordinal.MarshalJSON (base62Encode : List Nat → List Nat) (b : List Nat) : List Nat :=
  [34, 92, 98] ++ base62Encode b ++ [34]

/-- The loop `for i < len(bb) && i < 16` of `Ordinal.UnmarshalJSON`; returns `i` and
the ordinal. -/
def copyLoop (bb : List Nat) : Nat → Nat → List Nat → Nat × List Nat
  | 0, i, b => (i, b)
  | n + 1, i, b =>
    if i < bb.length ∧ i < 16 then copyLoop bb n (i + 1) (b.set i (bb.getD i 0)) else (i, b)

/-- The loop `for i < 16` of `Ordinal.UnmarshalJSON`. -/
def zeroLoop : Nat → Nat → List Nat → List Nat
  | 0, _, b => b
  | n + 1, i, b => if i < 16 then zeroLoop n (i + 1) (b.set i 0) else b

/-- The method `Ordinal.UnmarshalJSON`, given `Base62Decode`: the receiver afterwards
and whether a non-nil error is returned.  Both loops stop within 16 steps. -/
def Ordinal.UnmarshalJSON (js : Json) (base62Decode : List Nat → List Nat) (b j : List Nat) :
    List Nat × Bool :=
  if j.length = 0 then
    (zeroLoop 16 0 b, false)
  else
    match js.unmarshalString j with
    | some str =>
      let bb := if str.length > 0 ∧ str.getD 0 0 = 8 then base62Decode (str.drop 1) else str
      let r := copyLoop bb 16 0 b
      (zeroLoop 16 r.1 r.2, false)
    | none =>
      match js.unmarshalBytes j with
      | none => (b, true)
      | some bb =>
        let r := copyLoop bb 16 0 b
        (zeroLoop 16 r.1 r.2, false)

/-! ## Notions used to state the properties -/

/-- The four bytes of a `uint32`, most significant first. -/
def bigEndian32 (v : Nat) : List Nat := [v >>> 24 % 256, v >>> 16 % 256, v >>> 8 % 256, v % 256]

/-- The 16-bit lane of `value` for column `k`, column 0 being the high lane. -/
def columnLane (value k : Nat) : Nat := (value >>> (48 - 16 * k)) &&& 0xffff

/-- The part of `value` that keeps only the lanes strictly above column `k`. -/
def columnMask (value k : Nat) : Nat :=
  value &&& [0, 0xffff000000000000, 0xffffffff00000000, 0xffffffffffff0000].getD k 0

/-- The code of column `k` of `value` under `key`: `ordinal16to32` for the lane and
the mask of the column, which takes bytes `16k..16k+16` of the hash as its subkey. -/
def columnCode (c : Crypto) (fuel : Nat) (pool : Nat → List Nat) (value : Nat) (key : List Nat)
    (k : Nat) : Option Nat :=
  ordinal16to32 c fuel (pool k) (columnMask value k) (columnLane value k) k (c.sum512 key)

/-- An alphabet as the lookup expects it: 32-bit entries, adjacent gaps of at least 2. -/
def GoodAlphabet (alphabet : List Nat) : Prop :=
  (∀ i, i < 32768 → alphabet.getD i 0 < 4294967296) ∧
  (∀ i, i < 32767 → alphabet.getD i 0 + 2 ≤ alphabet.getD (i + 1) 0)

/-- An alphabet with gaps of 3, to instantiate statements about the lookup. -/
def tripleAlphabet : List Nat := (List.range 32768).map (fun i => 3 * i)

/-- A block transformation that is a bijection of the 16-byte blocks: it flips
the top bit of the last byte. -/
def flipEnc (block : List Nat) : List Nat := block.set 15 ((block.getD 15 0 + 128) % 256)

/-- A stand-in for the primitives in which every key selects `flipEnc`. -/
def flipCrypto : Crypto := ⟨fun _ => List.replicate 64 0, fun _ block => flipEnc block⟩

/-- A pool whose buffers are fresh, as `ordinalAlphabetPool.New` makes them. -/
def freshPool : Nat → List Nat := fun _ => List.replicate 32768 0

/-- Whether a byte is an ASCII letter or digit. -/
def isAlnum (ch : Nat) : Bool :=
  (48 ≤ ch && ch ≤ 57) || (65 ≤ ch && ch ≤ 90) || (97 ≤ ch && ch ≤ 122)

/-- The byte sequence that an input of `Ordinal.UnmarshalJSON` stands for: the
base-62 decoding of the rest of a string that starts with a backspace, the bytes
of any other string, or the elements of a byte array. -/
def ordinalDecoded (js : Json) (base62Decode : List Nat → List Nat) (j : List Nat) :
    Option (List Nat) :=
  match js.unmarshalString j with
  | some str => some (if str.head? = some 8 then base62Decode str.tail else str)
  | none => js.unmarshalBytes j

/-- The character that follows a backslash in a JSON string, for the escapes of
one letter. -/
def jsonEscape (e : Nat) : Option Nat :=
  if e = 34 then some 34 else if e = 92 then some 92 else if e = 47 then some 47
  else if e = 98 then some 8 else if e = 102 then some 12 else if e = 110 then some 10
  else if e = 114 then some 13 else if e = 116 then some 9 else none

/-- The contents of a JSON string literal after its opening quote, for literals
made of printable ASCII and one-letter escapes. -/
def jsonStringBody : List Nat → Option (List Nat)
  | [] => none
  | ch :: rest =>
    if ch = 34 then (if rest = [] then some [] else none)
    else if ch = 92 then
      match rest with
      | [] => none
      | e :: rest2 =>
        match jsonEscape e, jsonStringBody rest2 with
        | some x, some s => some (x :: s)
        | _, _ => none
    else if ch < 32 ∨ 128 ≤ ch then none
    else (jsonStringBody rest).map (fun s => ch :: s)

/-- A stand-in for `json.Unmarshal` that covers string literals of printable ASCII
with one-letter escapes and nothing else: it reports an error for every other
input, arrays included. -/
def asciiJson : Json :=
  ⟨fun j => if j.head? = some 34 then jsonStringBody j.tail else none, fun _ => none⟩

/-- A stand-in for `Base62Encode`: two letters `a`..`p` for each byte. -/
def nibbleEncode : List Nat → List Nat
  | [] => []
  | x :: rest => (97 + x / 16 % 16) :: (97 + x % 16) :: nibbleEncode rest

/-- A stand-in for `Base62Decode`, the inverse of `nibbleEncode` on bytes. -/
def nibbleDecode : List Nat → List Nat
  | hi :: lo :: rest => ((hi - 97) * 16 + (lo - 97)) :: nibbleDecode rest
  | _ => []

/-! ## Packing, threshold and weight -/

/-- The 16 bytes that `Ordinal.Set` writes into the receiver `b` for the four
column codes: the four `binary.BigEndian.PutUint32` calls at its end. -/
def packCodes (b : List Nat) (r0 r1 r2 r3 : Nat) : List Nat :=
  bePutUint32 (bePutUint32 (bePutUint32 (bePutUint32 b 0 r0) 4 r1) 8 r2) 12 r3

/-- Lexicographic order of two 4-tuples of column codes, the first component
compared first. -/
def tupleLess (r0 r1 r2 r3 s0 s1 s2 s3 : Nat) : Bool :=
  decide (r0 < s0) || (r0 == s0 && (decide (r1 < s1) || (r1 == s1 &&
    (decide (r2 < s2) || (r2 == s2 && decide (r3 < s3))))))

/-- The initialiser of `ordinalParallelQuicksortThreshold`, as a function of the
value `nc` of `runtime.NumCPU()`. -/
def ordinalParallelQuicksortThreshold (nc : Int) : Int :=
  if nc ≤ 2 then 1048576
  else if nc ≥ 16 then 2048
  else 32768 / nc

/-- The number of `go` statements that `ordinalParallelQuicksort` executes, sub-sorts
included, for a given threshold.  It follows `quicksortFuel`: a sub-sort of
length at least 2 is started in a goroutine when its length reaches the
threshold. -/
def quicksortSpawns (threshold : Int) : Nat → List Nat → Nat
  | 0, _ => 0
  | fuel + 1, a =>
    let r := quicksortPartition a
    let left := r.2
    let lo := r.1.take left
    let n1 := if 2 ≤ left then
      (if threshold ≤ (left : Int) then 1 else 0) + quicksortSpawns threshold fuel lo else 0
    let hi := r.1.drop (left + 1)
    let n2 := if 2 ≤ hi.length then
      (if threshold ≤ (hi.length : Int) then 1 else 0) + quicksortSpawns threshold fuel hi else 0
    n1 + n2

/-- The assembly of `weight` in `Query.Execute` from the 64-bit `weightL` and
`weightH`: `uint32(weightH << 32)`, `uint32(weightH)`, `uint32(weightL << 32)`,
`uint32(weightL)`.  The shift is a 64-bit shift and the conversion keeps the
low 32 bits. -/
def executeWeight (weightL weightH : Nat) : List Nat :=
  [weightH <<< 32 % 18446744073709551616 % 4294967296, weightH % 4294967296,
    weightL <<< 32 % 18446744073709551616 % 4294967296, weightL % 4294967296]

/-! ## The cipher stream -/

/-- The value `rbase` of `ordinal16to32` for column `kk`. -/
def ordinalRbase (c : Crypto) (kk : Nat) (keyHash : List Nat) : Nat :=
  leUint32 (c.encrypt ((keyHash.drop (16 * kk)).take 16) (List.replicate 16 0)) 0 %
    (0x7fffffff + 2)

/-- The register after `j + 1` encryptions in place, starting from `aesTmp`: the
block of round `j` of a fill that starts with the register `aesTmp`. -/
def streamBlock (enc : List Nat → List Nat) (aesTmp : List Nat) : Nat → List Nat
  | 0 => enc aesTmp
  | j + 1 => enc (streamBlock enc aesTmp j)

/-- The register and the alphabet with which `ordinal16to32` enters the lookup: those
of the first of at most `fuel` rounds of the outer loop whose alphabet passes
the range check. -/
def lookupState (enc : List Nat → List Nat) (rbase : Nat) :
    Nat → List Nat → List Nat → Option (List Nat × List Nat)
  | 0, _, _ => none
  | fuel + 1, aesTmp, alphabet =>
    let f := fillLoop enc rbase 8192 0 aesTmp alphabet
    let alphabet1 := gapRepair (ordinalParallelQuicksort f.2)
    if alphabet1.getD 32767 0 > alphabet1.getD 0 0 ∧ alphabet1.getD 32767 0 < 0xfffffffe then
      some (f.1, alphabet1)
    else
      lookupState enc rbase fuel f.1 alphabet1

/-- The 16-byte block that the lookup encrypts to obtain `rn` for an odd column value:
the register after `binary.LittleEndian.PutUint64(aesTmp[:], valueMaskedToColumn)`. -/
def interpolationBlock (enc : List Nat → List Nat) (rbase valueMaskedToColumn fuel : Nat)
    (aesTmp alphabet : List Nat) : Option (List Nat) :=
  (lookupState enc rbase fuel aesTmp alphabet).map
    (fun s => lePutUint64 s.1 valueMaskedToColumn)

/-- The eight bytes of a `uint64`, least significant first. -/
def littleEndian64 (v : Nat) : List Nat :=
  [v % 256, v >>> 8 % 256, v >>> 16 % 256, v >>> 24 % 256, v >>> 32 % 256, v >>> 40 % 256,
    v >>> 48 % 256, v >>> 56 % 256]

/-- A stand-in cipher whose stream drives the alphabet to the top of the 32-bit
range: the zero block goes to a block whose first word is `0x80000000`, every
other block to the block whose four words are `0x7FFFFFFE`. -/
def wrapEnc (block : List Nat) : List Nat :=
  if block = List.replicate 16 0 then [0, 0, 0, 128, 0, 0, 0, 0, 0, 0, 0, 0, 0, 0, 0, 0]
  else [254, 255, 255, 127, 254, 255, 255, 127, 254, 255, 255, 127, 254, 255, 255, 127]

/-- A stand-in for the primitives in which every key selects `wrapEnc`. -/
def wrapCrypto : Crypto := ⟨fun _ => List.replicate 64 0, fun _ block => wrapEnc block⟩

/-! ## `Blob.UnmarshalJSON` -/

/-- The method `Blob.UnmarshalJSON`, given `base64.StdEncoding.DecodeString` (the bytes
and whether an error is returned): the blob afterwards and whether a non-nil
error is returned.  The error of `json.Unmarshal` is dropped and `str` is then
still empty.  `none` is the run-time panic of `str[0]` on an empty string. -/
def Blob.UnmarshalJSON (js : Json) (base64Decode : List Nat → List Nat × Bool) (j : List Nat) :
    Option (List Nat × Bool) :=
  if j.length = 0 then
    some ([], false)
  else
    let str := (js.unmarshalString j).getD []
    match str with
    | [] => none
    | ch :: _ =>
      if ch = 8 ∧ str.length > 1 then some (base64Decode (str.drop 1))
      else some (str, false)

/-! ## `ClientConfig.Save` -/

/-- The assignment `o.Default = v` through the pointer `p`; a store gives the field
`Default` of the `ClientConfigOwner` at each address. -/
def setDefault (heap : Nat → Bool) (p : Nat) (v : Bool) : Nat → Bool :=
  fun q => if q = p then v else heap q

/-- The loop `for n, o := range c.Owners` of `ClientConfig.Save` over the entries of the
map in the order of the iteration, an entry being a name and a pointer to a
`ClientConfigOwner` (`none` is the nil pointer; two entries may hold the same
pointer): the store, `haveDfl` and `names` afterwards.  The result `none` is the
run-time panic of `o.Default` on a nil pointer. -/
def saveLoop : (Nat → Bool) → Bool → List (List Nat) → List (List Nat × Option Nat) →
    Option ((Nat → Bool) × Bool × List (List Nat))
  | heap, haveDfl, names, [] => some (heap, haveDfl, names)
  | _, _, _, (_, none) :: _ => none
  | heap, haveDfl, names, (n, some p) :: rest =>
    if haveDfl then
      if heap p then saveLoop (setDefault heap p false) haveDfl (names ++ [n]) rest
      else saveLoop heap haveDfl (names ++ [n]) rest
    else if heap p then saveLoop heap true (names ++ [n]) rest
    else saveLoop heap haveDfl (names ++ [n]) rest

/-- The first name after `sort.Strings(names)`: the least name in byte order. -/
def leastName : List (List Nat) → List Nat
  | [] => []
  | n :: rest => rest.foldl (fun m x => if bytesLess x m then x else m) n

/-- The map access `c.Owners[name]`: the pointer of the entry of that name, the nil
pointer when there is none. -/
def ownerAt (owners : List (List Nat × Option Nat)) (name : List Nat) : Option Nat :=
  match owners.find? (fun e => decide (e.1 = name)) with
  | some e => e.2
  | none => none

/-- The normalisation of the default owner at the start of `ClientConfig.Save`, for the
entries of `c.Owners` in the order in which the map is iterated: the store
afterwards, `none` when the code panics on a nil pointer. -/
def saveNormalise (heap : Nat → Bool) (owners : List (List Nat × Option Nat)) :
    Option (Nat → Bool) :=
  if owners.length > 0 then
    match saveLoop heap false [] owners with
    | none => none
    | some (heap1, haveDfl, names) =>
      if !haveDfl then
        match ownerAt owners (leastName names) with
        | some p => some (setDefault heap1 p true)
        | none => none
      else some heap1
  else some heap

/-- Whether the owner behind a pointer has `Default` set. -/
def isDefault (heap : Nat → Bool) : Option Nat → Bool
  | none => false
  | some p => heap p

/-- The number of entries of `c.Owners` whose owner has `Default` set. -/
def defaultCount (heap : Nat → Bool) (owners : List (List Nat × Option Nat)) : Nat :=
  owners.countP (fun e => isDefault heap e.2)

/-! ## `Query.Execute` -/

/-- The function `sliceU32Less`, its loop with `n` iterations left at index `i`. -/
def sliceU32LessLoop (a b : List Nat) : Nat → Nat → Bool
  | 0, _ => false
  | n + 1, i =>
    if a.getD i 0 < b.getD i 0 then true
    else if a.getD i 0 > b.getD i 0 then false
    else sliceU32LessLoop a b n (i + 1)

/-- The function `sliceU32Less`. -/
def sliceU32Less (a b : List Nat) : Bool :=
  if a.length = b.length then sliceU32LessLoop a b a.length 0
  else decide (a.length < b.length)

/-- The type `QueryRange`. -/
structure QueryRange where
  /-- Name of the selector. -/
  name : List Nat
  /-- Ordinal value or range. -/
  range : List Nat
  /-- Selector key or key range. -/
  keyRange : List (List Nat)

/-- The type `Query`; `limit` is `none` for a nil pointer. -/
structure Query where
  /-- Selector ranges. -/
  range : List QueryRange
  /-- Time range. -/
  timeRange : List Nat
  /-- Masking key. -/
  maskingKey : List Nat
  /-- Sort order. -/
  sortOrder : String
  /-- Limit of records per result. -/
  limit : Option Int

/-- What `Query.Execute` reads of a `Record`: its timestamp and the ordinals of its
selectors. -/
structure Record where
  /-- Timestamp of the record. -/
  timestamp : Nat
  /-- Ordinals of the selectors. -/
  selectors : List (List Nat)

/-- The type `QueryResult`; `trust` is 1 for `1.0` and 0 for `0.0`, the two values
that `Query.Execute` assigns. -/
structure QueryResult where
  /-- Hash of the record. -/
  hash : List Nat
  /-- Size of the record. -/
  size : Nat
  /-- The record. -/
  record : Record
  /-- The unmasked value, `none` for nil. -/
  value : Option (List Nat)
  /-- Trust metric. -/
  trust : Nat
  /-- Weight in four 32-bit words. -/
  weight : List Nat

/-- The type `apiQueryResultTmp`. -/
structure apiQueryResultTmp where
  /-- Low 64 bits of the weight. -/
  weightL : Nat
  /-- High 64 bits of the weight. -/
  weightH : Nat
  /-- Offset of the record data. -/
  doff : Nat
  /-- Length of the record data. -/
  dlen : Nat
  /-- Reputation of the record. -/
  localReputation : Int

/-- What `Query.Execute` uses of the node and of the library, none of it under
`pkg/lf` here: the selector keys, the rows that `n.db.query` hands to the
callback in order (each with its selector key), the record store, the order in
which `range` visits a map, and `sort.Slice`. -/
structure Node where
  /-- The function `MakeSelectorKey`. -/
  makeSelectorKey : List Nat → Nat → List Nat
  /-- The rows of `n.db.query`, each as the key and the fields of the callback. -/
  query : Int → Int → List (List Nat × List Nat) → List (Nat × apiQueryResultTmp)
  /-- The method `n.db.getDataByOffset`, `none` for an error. -/
  getDataByOffset : Nat → Nat → Option (List Nat)
  /-- The function `NewRecordFromBytes`, `none` for an error. -/
  newRecordFromBytes : List Nat → Option Record
  /-- The method `Record.Hash`. -/
  recordHash : Record → List Nat
  /-- The method `Record.GetValue`, `none` for an error. -/
  getValue : Record → List Nat → Option (List Nat)
  /-- The constant `dbReputationDefault`. -/
  dbReputationDefault : Int
  /-- The order in which `range` visits the entries of a map. -/
  mapOrder : List (Nat × List apiQueryResultTmp) → List (Nat × List apiQueryResultTmp)
  /-- The function `sort.Slice` with the less function on elements. -/
  sortSlice : {α : Type} → (α → α → Bool) → List α → List α

/-- The loop over `m.Range` of `Query.Execute` from index `i`: the masking key and the
selector ranges. -/
def selectorLoop (n : Node) : List QueryRange → Nat → List Nat → List (List Nat × List Nat) →
    List Nat × List (List Nat × List Nat)
  | [], _, maskingKey, selectorRanges => (maskingKey, selectorRanges)
  | r :: rest, i, maskingKey, selectorRanges =>
    if r.keyRange.length = 0 then
      let maskingKey1 := if maskingKey.length = 0 ∧ i = 0 then r.name else maskingKey
      if r.range.length = 0 then
        selectorLoop n rest (i + 1) maskingKey1
          (selectorRanges ++ [(n.makeSelectorKey r.name 0, n.makeSelectorKey r.name 0)])
      else if r.range.length = 1 then
        selectorLoop n rest (i + 1) maskingKey1
          (selectorRanges ++ [(n.makeSelectorKey r.name (r.range.getD 0 0),
            n.makeSelectorKey r.name (r.range.getD 0 0))])
      else if r.range.length = 2 then
        selectorLoop n rest (i + 1) maskingKey1
          (selectorRanges ++ [(n.makeSelectorKey r.name (r.range.getD 0 0),
            n.makeSelectorKey r.name (r.range.getD 1 0))])
      else selectorLoop n rest (i + 1) maskingKey1 selectorRanges
    else if r.keyRange.length = 1 then
      selectorLoop n rest (i + 1) maskingKey
        (selectorRanges ++ [(r.keyRange.getD 0 [], r.keyRange.getD 0 [])])
    else if r.keyRange.length = 2 then
      selectorLoop n rest (i + 1) maskingKey
        (selectorRanges ++ [(r.keyRange.getD 0 [], r.keyRange.getD 1 [])])
    else selectorLoop n rest (i + 1) maskingKey selectorRanges

/-- The conversion `int64(x)` of a `uint64`. -/
def toInt64 (x : Nat) : Int :=
  if x % 18446744073709551616 < 9223372036854775808 then (x % 18446744073709551616 : Nat)
  else ((x % 18446744073709551616 : Nat) : Int) - 18446744073709551616

/-- The callback of `n.db.query`: the row is appended to the slice of its key in the
map `bySelectorKey`, kept as a list of entries. -/
def groupInsert (key : Nat) (t : apiQueryResultTmp) :
    List (Nat × List apiQueryResultTmp) → List (Nat × List apiQueryResultTmp)
  | [] => [(key, [t])]
  | (k, ts) :: rest =>
    if k = key then (k, ts ++ [t]) :: rest else (k, ts) :: groupInsert key t rest

/-- The map `bySelectorKey` after `n.db.query` has run the callback on the rows. -/
def groupRows (rows : List (Nat × apiQueryResultTmp)) : List (Nat × List apiQueryResultTmp) :=
  rows.foldl (fun m r => groupInsert r.1 r.2 m) []

/-- The body of the loop over `rn` of `Query.Execute` up to the construction of the
`QueryResult`, `none` when the record cannot be retrieved. -/
def buildResult (n : Node) (maskingKey : List Nat) (t : apiQueryResultTmp) : Option QueryResult :=
  match n.getDataByOffset t.doff t.dlen with
  | none => none
  | some rdata =>
    match n.newRecordFromBytes rdata with
    | none => none
    | some rec =>
      some ⟨n.recordHash rec, t.dlen, rec, n.getValue rec maskingKey,
        if t.localReputation ≥ n.dbReputationDefault then 1 else 0,
        executeWeight t.weightL t.weightH⟩

/-- The loop `for rn := 0; rn < len(*rptr); rn++` of `Query.Execute` from index `rn` on the
rest of the slice: `qr` afterwards, `none` when an error is returned. -/
def collateGroup (n : Node) (maskingKey : List Nat) :
    List apiQueryResultTmp → Nat → List (List QueryResult) → Option (List (List QueryResult))
  | [], _, qr => some qr
  | t :: rest, rn, qr =>
    match buildResult n maskingKey t with
    | none => none
    | some res =>
      if rn = 0 then collateGroup n maskingKey rest (rn + 1) (qr ++ [[res]])
      else collateGroup n maskingKey rest (rn + 1)
        (qr.set (qr.length - 1) (qr.getD (qr.length - 1) [] ++ [res]))

/-- The loop `for _, rptr := range bySelectorKey` of `Query.Execute` over the entries in
the order of the iteration. -/
def collateAll (n : Node) (maskingKey : List Nat) :
    List (Nat × List apiQueryResultTmp) → List (List QueryResult) →
      Option (List (List QueryResult))
  | [], qr => some qr
  | g :: rest, qr =>
    match collateGroup n maskingKey g.2 0 qr with
    | none => none
    | some qr1 => collateAll n maskingKey rest qr1

/-- The less function of the sort by trust, on the elements at `b` and `a`. -/
def lessTrust (b a : QueryResult) : Bool :=
  if a.trust < b.trust then true
  else if a.trust * 10000000000 = b.trust * 10000000000 then sliceU32Less a.weight b.weight
  else false

/-- The less function of the sort by weight, on the elements at `b` and `a`. -/
def lessWeight (b a : QueryResult) : Bool := sliceU32Less a.weight b.weight

/-- The less function of the sort by timestamp, on the elements at `b` and `a`. -/
def lessTimestamp (b a : QueryResult) : Bool :=
  decide (a.record.timestamp < b.record.timestamp)

/-- The loop over the ordinals in the less function of the overall sort. -/
def lessOrdinalsLoop : List (List Nat) → List (List Nat) → Bool
  | x :: xs, y :: ys =>
    if bytesLess x y then true else if bytesLess y x then false else lessOrdinalsLoop xs ys
  | _, _ => false

/-- The less function of the overall sort, on the members at `a` and `b`; it reads
element 0 of both, which a member never lacks. -/
def lessSelectors (a b : List QueryResult) : Bool :=
  let sa := (a.head?.map (fun r => r.record.selectors)).getD []
  let sb := (b.head?.map (fun r => r.record.selectors)).getD []
  if sa.length < sb.length then true
  else if sa.length > sb.length then false
  else lessOrdinalsLoop sa sb

/-- The body of the loop `for qri, qrr := range qr` of `Query.Execute`: the member
afterwards, `none` when the sort order is not valid. -/
def sortMember (n : Node) (m : Query) (qrr : List QueryResult) : Option (List QueryResult) :=
  let sorted : Option (List QueryResult) :=
    if m.sortOrder.length = 0 ∨ m.sortOrder = "trust" then some (n.sortSlice lessTrust qrr)
    else if m.sortOrder = "weight" then some (n.sortSlice lessWeight qrr)
    else if m.sortOrder = "timestamp" then some (n.sortSlice lessTimestamp qrr)
    else none
  match sorted with
  | none => none
  | some s =>
    match m.limit with
    | none => some s
    | some l => if l > 0 ∧ (s.length : Int) > l then some (s.take l.toNat) else some s

/-- The loop `for qri, qrr := range qr` of `Query.Execute`. -/
def sortMembers (n : Node) (m : Query) : List (List QueryResult) →
    Option (List (List QueryResult))
  | [] => some []
  | qrr :: rest =>
    match sortMember n m qrr with
    | none => none
    | some s =>
      match sortMembers n m rest with
      | none => none
      | some r => some (s :: r)

/-- The method `Query.Execute`: the results, `none` when an error is returned. -/
def Query.Execute (m : Query) (n : Node) : Option (List (List QueryResult)) :=
  if m.range.length = 0 then none
  else
    let sel := selectorLoop n m.range 0 m.maskingKey []
    let tsMin : Int :=
      if m.timeRange.length = 1 then toInt64 (m.timeRange.getD 0 0)
      else if m.timeRange.length = 2 then toInt64 (m.timeRange.getD 0 0) else 0
    let tsMax : Int :=
      if m.timeRange.length = 1 then 9223372036854775807
      else if m.timeRange.length = 2 then toInt64 (m.timeRange.getD 1 0)
      else 9223372036854775807
    let bySelectorKey := groupRows (n.query tsMin tsMax sel.2)
    match collateAll n sel.1 (n.mapOrder bySelectorKey) [] with
    | none => none
    | some qr =>
      match sortMembers n m qr with
      | none => none
      | some qr1 => some (n.sortSlice lessSelectors qr1)

/-- A node for instantiating statements about `Query.Execute`: three rows under two
selector keys, a record store that always answers, maps visited in the order of
insertion and a `sort.Slice` that leaves its slice as it is. -/
def demoNode : Node :=
  ⟨fun name ordinal => name ++ [ordinal],
    fun _ _ _ => [(1, ⟨5, 0, 0, 10, 0⟩), (2, ⟨6, 0, 10, 20, 0⟩), (1, ⟨7, 0, 30, 40, 0⟩)],
    fun doff dlen => some [doff, dlen],
    fun rdata => some ⟨rdata.getD 0 0, []⟩,
    fun rec => [rec.timestamp],
    fun _ _ => none,
    0,
    fun m => m,
    fun _ l => l⟩

/-- A query with one selector range, the default sort order and the limit 1. -/
def demoQuery : Query := ⟨[⟨[97], [], []⟩], [], [], "", some 1⟩

/-- The results of `demoQuery` on `demoNode`. -/
def demoResults : List (List QueryResult) :=
  [[⟨[0], 10, ⟨0, []⟩, none, 1, [0, 0, 0, 5]⟩], [⟨[10], 20, ⟨10, []⟩, none, 1, [0, 0, 0, 6]⟩]]

/-! ## The state at the lookup, and `Blob.MarshalJSON` -/

/-- The register and the alphabet with which `ordinal16to32` enters the lookup for
column `kk`, from the buffer `alphabet` of the pool; neither the column value nor
`valueMaskedToColumn` is an argument. -/
def columnState (c : Crypto) (fuel : Nat) (alphabet : List Nat) (kk : Nat) (keyHash : List Nat) :
    Option (List Nat × List Nat) :=
  lookupState (c.encrypt ((keyHash.drop (16 * kk)).take 16)) (ordinalRbase c kk keyHash) fuel
    (c.encrypt ((keyHash.drop (16 * kk)).take 16) (List.replicate 16 0)) alphabet

/-- The loop `for _, c := range b` of `Blob.MarshalJSON` on the rest of the blob `b`,
with the contents `s` of the string builder; `base64Encode` is
`base64.StdEncoding.EncodeToString`. -/
def blobMarshalLoop (base64Encode : List Nat → List Nat) (b : List Nat) :
    List Nat → List Nat → List Nat
  | [], s => s ++ [34]
  | ch :: rest, s =>
    if (ch ≤ 31 ∧ ch ≠ 9 ∧ ch ≠ 10 ∧ ch ≠ 13) ∨ ch ≥ 127 then
      [34, 92, 98] ++ base64Encode b ++ [34]
    else if ch = 9 then blobMarshalLoop base64Encode b rest (s ++ [92, 116])
    else if ch = 10 then blobMarshalLoop base64Encode b rest (s ++ [92, 110])
    else if ch = 13 then blobMarshalLoop base64Encode b rest (s ++ [92, 116])
    else if ch = 34 then blobMarshalLoop base64Encode b rest (s ++ [92, 34])
    else if ch = 92 then blobMarshalLoop base64Encode b rest (s ++ [92, 92])
    else blobMarshalLoop base64Encode b rest (s ++ [ch])

/-- The method `Blob.MarshalJSON`; it never returns an error. -/
def Blob.MarshalJSON (base64Encode : List Nat → List Nat) (b : List Nat) : List Nat :=
  if b.length = 0 then [34, 34] else blobMarshalLoop base64Encode b b [34]

/-! ## Lists as slices -/

theorem getD_set_eq (a : List Nat) (i k x d : Nat) :
    (a.set i x).getD k d = if i = k ∧ i < a.length then x else a.getD k d := by
  simp only [List.getD_eq_getElem?_getD, List.getElem?_set]
  by_cases h : i = k
  · subst h
    by_cases h2 : i < a.length
    · simp [h2]
    · have h3 : a[i]? = none := List.getElem?_eq_none (Nat.le_of_not_lt h2)
      simp [h2, h3]
  · simp [h]

theorem cons_set_perm (y x : Nat) : ∀ (xs : List Nat) (k : Nat), k < xs.length → xs.getD k 0 = y →
    (y :: xs.set k x).Perm (x :: xs)
  | [], _, h, _ => by simp at h
  | z :: zs, 0, _, hy => by
    simp at hy
    subst hy
    simpa using List.Perm.swap x z zs
  | z :: zs, k + 1, h, hy => by
    have ih := cons_set_perm y x zs k (by simpa using h) (by simpa using hy)
    simp only [List.set_cons_succ]
    exact ((List.Perm.swap z y _).trans (ih.cons z)).trans (List.Perm.swap x z zs)

theorem swap_perm : ∀ (a : List Nat) (i j : Nat), i < a.length → j < a.length →
    ((a.set i (a.getD j 0)).set j (a.getD i 0)).Perm a
  | [], _, _, h, _ => by simp at h
  | x :: xs, 0, 0, _, _ => by simp
  | x :: xs, 0, j + 1, _, hj => by
    simp only [List.set_cons_zero, List.set_cons_succ]
    have := cons_set_perm (xs.getD j 0) x xs j (by simpa using hj) rfl
    simpa using this
  | x :: xs, i + 1, 0, hi, _ => by
    simp only [List.set_cons_zero, List.set_cons_succ]
    have := cons_set_perm (xs.getD i 0) x xs i (by simpa using hi) rfl
    simpa using this
  | x :: xs, i + 1, j + 1, hi, hj => by
    have ih := swap_perm xs i j (by simpa using hi) (by simpa using hj)
    simpa using ih

theorem getD_of_lt (a : List Nat) (i : Nat) (h : i < a.length) : a.getD i 0 = a[i] := by
  simp [List.getElem?_eq_getElem h]

/-! ## The sort -/

theorem partitionLoop_spec (right p : Nat) :
    ∀ (n i left : Nat) (a : List Nat),
      i + n = a.length → a.length = right + 1 → left ≤ i → a.getD right 0 = p →
      (∀ k, k < left → a.getD k 0 < p) →
      (∀ k, left ≤ k → k < i → p ≤ a.getD k 0) →
      (partitionLoop right n i left a).1.Perm a ∧
      (partitionLoop right n i left a).2 ≤ right ∧
      (partitionLoop right n i left a).1.getD right 0 = p ∧
      (∀ k, k < (partitionLoop right n i left a).2 →
        (partitionLoop right n i left a).1.getD k 0 < p) ∧
      (∀ k, (partitionLoop right n i left a).2 ≤ k → k < a.length →
        p ≤ (partitionLoop right n i left a).1.getD k 0) := by
  intro n
  induction n with
  | zero =>
    intro i left a hn hlen hle hp hlt hge
    simp only [partitionLoop]
    refine ⟨List.Perm.refl _, ?_, hp, hlt, ?_⟩
    · by_contra hc
      have := hlt right (by omega)
      omega
    · intro k hk1 hk2
      exact hge k hk1 (by omega)
  | succ n ih =>
    intro i left a hn hlen hle hp hlt hge
    simp only [partitionLoop]
    split
    · rename_i hai
      rw [hp] at hai
      have hir : i < right := by
        rcases Nat.lt_or_ge i right with h | h
        · exact h
        · have : i = right := by omega
          rw [this, hp] at hai
          omega
      have hlenA : ((a.set left (a.getD i 0)).set i (a.getD left 0)).length = a.length := by
        simp
      have hperm : ((a.set left (a.getD i 0)).set i (a.getD left 0)).Perm a :=
        swap_perm a left i (by omega) (by omega)
      have hstep := ih (i + 1) (left + 1) ((a.set left (a.getD i 0)).set i (a.getD left 0))
        (by rw [hlenA]; omega) (by rw [hlenA]; exact hlen) (by omega)
        (by
          rw [getD_set_eq, getD_set_eq]
          simp only [List.length_set]
          rw [if_neg (by omega), if_neg (by omega)]
          exact hp)
        (by
          intro k hk
          rw [getD_set_eq, getD_set_eq]
          simp only [List.length_set]
          by_cases h1 : i = k
          · rw [if_pos ⟨h1, by omega⟩]
            have : left = i := by omega
            rw [this]; exact hai
          · rw [if_neg (by omega)]
            by_cases h2 : left = k
            · rw [if_pos ⟨h2, by omega⟩]; exact hai
            · rw [if_neg (by omega)]
              exact hlt k (by omega))
        (by
          intro k hk1 hk2
          rw [getD_set_eq, getD_set_eq]
          simp only [List.length_set]
          by_cases h1 : i = k
          · rw [if_pos ⟨h1, by omega⟩]
            exact hge left (Nat.le_refl _) (by omega)
          · rw [if_neg (by omega), if_neg (by omega)]
            exact hge k (by omega) (by omega))
      rw [hlenA] at hstep
      exact ⟨hstep.1.trans hperm, hstep.2⟩
    · rename_i hai
      rw [hp] at hai
      exact ih (i + 1) left a (by omega) hlen (by omega) hp hlt (by
        intro k hk1 hk2
        by_cases h1 : k = i
        · rw [h1]; omega
        · exact hge k hk1 (by omega))

theorem quicksortPartition_spec (a : List Nat) (h2 : 2 ≤ a.length) :
    (quicksortPartition a).1.Perm a ∧ (quicksortPartition a).2 < a.length ∧
    (∀ x ∈ (quicksortPartition a).1.take (quicksortPartition a).2,
      x < (quicksortPartition a).1.getD (quicksortPartition a).2 0) ∧
    (∀ x ∈ (quicksortPartition a).1.drop ((quicksortPartition a).2 + 1),
      (quicksortPartition a).1.getD (quicksortPartition a).2 0 ≤ x) := by
  have hlen1 : ((a.set 1 (a.getD (a.length - 1) 0)).set (a.length - 1) (a.getD 1 0)).length
      = a.length := by simp
  have hperm1 : ((a.set 1 (a.getD (a.length - 1) 0)).set (a.length - 1) (a.getD 1 0)).Perm a :=
    swap_perm a 1 (a.length - 1) (by omega) (by omega)
  obtain ⟨hp2, hle, hpiv, hlt, hge⟩ := partitionLoop_spec (a.length - 1)
    (((a.set 1 (a.getD (a.length - 1) 0)).set (a.length - 1) (a.getD 1 0)).getD (a.length - 1) 0)
    ((a.set 1 (a.getD (a.length - 1) 0)).set (a.length - 1) (a.getD 1 0)).length 0 0
    ((a.set 1 (a.getD (a.length - 1) 0)).set (a.length - 1) (a.getD 1 0))
    (by omega) (by rw [hlen1]; omega) (Nat.le_refl _) rfl
    (by intro k hk; omega) (by intro k _ hk; omega)
  simp only [quicksortPartition]
  generalize hr : partitionLoop (a.length - 1)
    ((a.set 1 (a.getD (a.length - 1) 0)).set (a.length - 1) (a.getD 1 0)).length 0 0
    ((a.set 1 (a.getD (a.length - 1) 0)).set (a.length - 1) (a.getD 1 0)) = r at hp2 hle hpiv hlt hge
  generalize ((a.set 1 (a.getD (a.length - 1) 0)).set (a.length - 1) (a.getD 1 0)).getD
    (a.length - 1) 0 = p at hpiv hlt hge
  rw [hlen1] at hge
  have hlen2 : r.1.length = a.length := by rw [hp2.length_eq, hlen1]
  have hperm3 : ((r.1.set r.2 (r.1.getD (a.length - 1) 0)).set (a.length - 1)
      (r.1.getD r.2 0)).Perm r.1 := swap_perm r.1 r.2 (a.length - 1) (by omega) (by omega)
  have hlen3 : ((r.1.set r.2 (r.1.getD (a.length - 1) 0)).set (a.length - 1)
      (r.1.getD r.2 0)).length = a.length := by simp [hlen2]
  have hpl : ((r.1.set r.2 (r.1.getD (a.length - 1) 0)).set (a.length - 1)
      (r.1.getD r.2 0)).getD r.2 0 = p := by
    rw [getD_set_eq, getD_set_eq]
    simp only [List.length_set]
    by_cases h1 : a.length - 1 = r.2
    · rw [if_pos ⟨h1, by omega⟩, ← h1]; exact hpiv
    · rw [if_neg (by omega), if_pos ⟨trivial, by omega⟩]; exact hpiv
  refine ⟨(hperm3.trans hp2).trans hperm1, by omega, ?_, ?_⟩
  · intro x hx
    rw [hpl]
    rw [List.mem_take_iff_getElem] at hx
    obtain ⟨i, hi, hxe⟩ := hx
    rw [hlen3] at hi
    have hi2 : i < r.2 := by omega
    rw [← hxe, ← getD_of_lt _ i (by rw [hlen3]; omega), getD_set_eq, getD_set_eq]
    simp only [List.length_set]
    rw [if_neg (by omega), if_neg (by omega)]
    exact hlt i hi2
  · intro x hx
    rw [hpl]
    rw [List.mem_drop_iff_getElem] at hx
    obtain ⟨i, hi, hxe⟩ := hx
    rw [hlen3] at hi
    rw [← hxe, ← getD_of_lt _ (r.2 + 1 + i) (by rw [hlen3]; omega), getD_set_eq, getD_set_eq]
    simp only [List.length_set]
    by_cases h1 : a.length - 1 = r.2 + 1 + i
    · rw [if_pos ⟨h1, by omega⟩]
      exact hge r.2 (Nat.le_refl _) (by omega)
    · rw [if_neg (by omega), if_neg (by omega)]
      exact hge _ (by omega) (by omega)

theorem quicksortFuel_spec : ∀ (fuel : Nat) (a : List Nat), a.length ≤ fuel → 2 ≤ a.length →
    (quicksortFuel fuel a).Sorted (· ≤ ·) ∧ (quicksortFuel fuel a).Perm a := by
  intro fuel
  induction fuel with
  | zero => intro a h1 h2; omega
  | succ fuel ih =>
    intro a h1 h2
    obtain ⟨hperm, hleft, hlt, hge⟩ := quicksortPartition_spec a h2
    simp only [quicksortFuel]
    generalize quicksortPartition a = r at hperm hleft hlt hge
    have hlen : r.1.length = a.length := hperm.length_eq
    have hmid : (r.1.drop r.2).take 1 = [r.1.getD r.2 0] := by
      have hlt2 : r.2 < r.1.length := by omega
      simp [List.take_one, List.getElem?_eq_getElem hlt2]
    have hsplit : r.1 = r.1.take r.2 ++ [r.1.getD r.2 0] ++ r.1.drop (r.2 + 1) := by
      have hlt2 : r.2 < r.1.length := by omega
      conv_lhs => rw [← List.take_append_drop r.2 r.1, List.drop_eq_getElem_cons hlt2]
      rw [getD_of_lt _ _ hlt2]
      simp
    have hlo : (if 2 ≤ r.2 then quicksortFuel fuel (r.1.take r.2) else r.1.take r.2).Sorted (· ≤ ·) ∧
        (if 2 ≤ r.2 then quicksortFuel fuel (r.1.take r.2) else r.1.take r.2).Perm (r.1.take r.2) := by
      have hl : (r.1.take r.2).length = r.2 := by simp; omega
      split
      · exact ih _ (by omega) (by omega)
      · refine ⟨?_, List.Perm.refl _⟩
        match hm : r.1.take r.2, hl with
        | [], _ => exact List.sorted_nil
        | [x], _ => exact List.sorted_singleton x
        | x :: y :: t, hl => simp at hl; omega
    have hhi : (if 2 ≤ (r.1.drop (r.2 + 1)).length then quicksortFuel fuel (r.1.drop (r.2 + 1))
        else r.1.drop (r.2 + 1)).Sorted (· ≤ ·) ∧
        (if 2 ≤ (r.1.drop (r.2 + 1)).length then quicksortFuel fuel (r.1.drop (r.2 + 1))
        else r.1.drop (r.2 + 1)).Perm (r.1.drop (r.2 + 1)) := by
      have hl : (r.1.drop (r.2 + 1)).length = a.length - (r.2 + 1) := by simp; omega
      split
      · exact ih _ (by omega) (by omega)
      · rename_i hn
        refine ⟨?_, List.Perm.refl _⟩
        match hm : r.1.drop (r.2 + 1), hn with
        | [], _ => exact List.sorted_nil
        | [x], _ => exact List.sorted_singleton x
        | x :: y :: t, hn => simp at hn
    rw [hmid]
    generalize (if 2 ≤ r.2 then quicksortFuel fuel (r.1.take r.2) else r.1.take r.2) = lo at hlo
    generalize (if 2 ≤ (r.1.drop (r.2 + 1)).length then quicksortFuel fuel (r.1.drop (r.2 + 1))
        else r.1.drop (r.2 + 1)) = hi at hhi
    constructor
    · have hlo2 : ∀ x ∈ lo, x < r.1.getD r.2 0 := fun x hx => hlt x (hlo.2.mem_iff.mp hx)
      have hhi2 : ∀ x ∈ hi, r.1.getD r.2 0 ≤ x := fun x hx => hge x (hhi.2.mem_iff.mp hx)
      simp only [List.Sorted, List.append_assoc, List.singleton_append]
      rw [List.pairwise_append]
      refine ⟨hlo.1, List.pairwise_cons.mpr ⟨hhi2, hhi.1⟩, ?_⟩
      intro x hx y hy
      have := hlo2 x hx
      rcases List.mem_cons.mp hy with h | h
      · omega
      · have := hhi2 y h
        omega
    · refine List.Perm.trans ?_ hperm
      conv_rhs => rw [hsplit]
      exact (hlo.2.append_right _).append hhi.2

/-! ## The lookup -/

theorem goodAlphabet_mono (alphabet : List Nat) (hg : GoodAlphabet alphabet) :
    ∀ (d i : Nat), i + d ≤ 32767 → alphabet.getD i 0 ≤ alphabet.getD (i + d) 0 := by
  intro d
  induction d with
  | zero => intro i _; exact Nat.le_refl _
  | succ d ih =>
    intro i hi
    have h1 := ih i (by omega)
    have h2 := hg.2 (i + d) (by omega)
    have : i + (d + 1) = i + d + 1 := by omega
    rw [this]
    omega

theorem interpModulus_inner (alphabet : List Nat) (hg : GoodAlphabet alphabet) (h : Nat)
    (hh : h < 32767) :
    interpModulus alphabet h (alphabet.getD h 0) + alphabet.getD h 0 + 1 =
      alphabet.getD (h + 1) 0 := by
  have h1 := hg.1 h (by omega)
  have h2 := hg.1 (h + 1) (by omega)
  have h3 := hg.2 h hh
  unfold interpModulus sub32
  rw [if_neg (by omega)]
  omega

theorem interpolate_inner (alphabet : List Nat) (hg : GoodAlphabet alphabet) (h : Nat)
    (hh : h < 32767) (rn : Nat) :
    ∃ c, interpolate alphabet h (alphabet.getD h 0) rn = some c ∧
      alphabet.getD h 0 < c ∧ c < alphabet.getD (h + 1) 0 := by
  have hm := interpModulus_inner alphabet hg h hh
  have h2 := hg.1 (h + 1) (by omega)
  have h3 := hg.2 h hh
  have hpos : 0 < interpModulus alphabet h (alphabet.getD h 0) := by omega
  have hlt := Nat.mod_lt rn hpos
  unfold interpolate
  rw [if_neg (by omega)]
  refine ⟨_, rfl, ?_, ?_⟩ <;> unfold add32 <;> omega

theorem interpolate_last (alphabet : List Nat) (hlast : alphabet.getD 32767 0 < 4294967294)
    (rn : Nat) :
    ∃ c, interpolate alphabet 32767 (alphabet.getD 32767 0) rn = some c ∧
      alphabet.getD 32767 0 < c ∧ c ≤ 4294967295 := by
  have hm : interpModulus alphabet 32767 (alphabet.getD 32767 0) =
      4294967295 - alphabet.getD 32767 0 := by
    unfold interpModulus not32
    rw [if_pos rfl]
    omega
  have hpos : 0 < interpModulus alphabet 32767 (alphabet.getD 32767 0) := by omega
  have hlt := Nat.mod_lt rn hpos
  unfold interpolate
  rw [if_neg (by omega)]
  refine ⟨_, rfl, ?_, ?_⟩ <;> unfold add32 <;> omega

/-- The code of a column value lies in the half-open slot of its alphabet entry. -/
theorem lookup_bounds (enc : List Nat → List Nat) (aesTmp alphabet : List Nat)
    (hg : GoodAlphabet alphabet) (hlast : alphabet.getD 32767 0 < 4294967294)
    (vm cv : Nat) (hcv : cv ≤ 65535) :
    ∃ c, lookup enc aesTmp alphabet vm cv = some c ∧
      alphabet.getD (cv / 2) 0 ≤ c ∧ c ≤ 4294967295 ∧
      (cv % 2 = 0 → c = alphabet.getD (cv / 2) 0) ∧
      (cv % 2 = 1 → alphabet.getD (cv / 2) 0 < c) ∧
      (cv / 2 < 32767 → c < alphabet.getD (cv / 2 + 1) 0) := by
  have hs : cv >>> 1 = cv / 2 := by simp [Nat.shiftRight_eq_div_pow]
  have ha : cv &&& 1 = cv % 2 := Nat.and_one_is_mod cv
  unfold lookup
  simp only [hs, ha]
  have hu := hg.1 (cv / 2) (by omega)
  by_cases hodd : cv % 2 = 1
  · rw [if_pos (by omega)]
    by_cases hl : cv / 2 = 32767
    · rw [hl]
      obtain ⟨c, hc, h1, h2⟩ := interpolate_last alphabet hlast
        (leUint32 (enc (lePutUint64 aesTmp vm)) 0)
      exact ⟨c, hc, by omega, h2, by omega, fun _ => h1, by omega⟩
    · obtain ⟨c, hc, h1, h2⟩ := interpolate_inner alphabet hg (cv / 2) (by omega)
        (leUint32 (enc (lePutUint64 aesTmp vm)) 0)
      have h3 := hg.1 (cv / 2 + 1) (by omega)
      exact ⟨c, hc, by omega, by omega, by omega, fun _ => h1, fun _ => h2⟩
  · rw [if_neg (by omega)]
    refine ⟨_, rfl, Nat.le_refl _, by omega, fun _ => rfl, by omega, ?_⟩
    intro hl
    have := hg.2 (cv / 2) hl
    omega

theorem lookup_strictMono (enc : List Nat → List Nat) (aesTmp alphabet : List Nat)
    (hg : GoodAlphabet alphabet) (hlast : alphabet.getD 32767 0 < 4294967294)
    (vm c1 c2 : Nat) (h12 : c1 < c2) (hc2 : c2 ≤ 65535) :
    ∃ r1 r2, lookup enc aesTmp alphabet vm c1 = some r1 ∧
      lookup enc aesTmp alphabet vm c2 = some r2 ∧ r1 < r2 := by
  obtain ⟨r1, hr1, _, _, he1, _, hu1⟩ :=
    lookup_bounds enc aesTmp alphabet hg hlast vm c1 (by omega)
  obtain ⟨r2, hr2, hl2, _, _, ho2, _⟩ := lookup_bounds enc aesTmp alphabet hg hlast vm c2 hc2
  refine ⟨r1, r2, hr1, hr2, ?_⟩
  rcases Nat.lt_or_ge (c1 / 2) (c2 / 2) with h | h
  · have hm := goodAlphabet_mono alphabet hg (c2 / 2 - (c1 / 2 + 1)) (c1 / 2 + 1) (by omega)
    have hu := hu1 (by omega)
    have : c1 / 2 + 1 + (c2 / 2 - (c1 / 2 + 1)) = c2 / 2 := by omega
    rw [this] at hm
    omega
  · have heq : c1 / 2 = c2 / 2 := by omega
    have h1 := he1 (by omega)
    have h2 := ho2 (by omega)
    rw [heq] at h1
    omega

/-! ### The fill loop -/

theorem fillLoop_length (enc : List Nat → List Nat) (rbase : Nat) :
    ∀ (n i : Nat) (aesTmp alphabet : List Nat),
      (fillLoop enc rbase n i aesTmp alphabet).2.length = alphabet.length := by
  intro n
  induction n with
  | zero => intro i aesTmp alphabet; rfl
  | succ n ih =>
    intro i aesTmp alphabet
    simp only [fillLoop]
    rw [ih]
    simp

theorem agree_set (a1 a2 : List Nat) (hlen : a1.length = a2.length) (i x : Nat)
    (h : ∀ k, k < i → a1[k]? = a2[k]?) :
    ∀ k, k < i + 1 → (a1.set i x)[k]? = (a2.set i x)[k]? := by
  intro k hk
  rw [List.getElem?_set, List.getElem?_set, hlen]
  by_cases hik : i = k
  · rw [if_pos hik, if_pos hik]
  · rw [if_neg hik, if_neg hik]
    exact h k (by omega)

/-- The fill overwrites the whole buffer: what it leaves does not depend on
what the buffer held. -/
theorem fillLoop_congr (enc : List Nat → List Nat) (rbase : Nat) :
    ∀ (n i : Nat) (aesTmp a1 a2 : List Nat), a1.length = a2.length →
      (∀ k, k < i → a1[k]? = a2[k]?) → a1.length ≤ i + 4 * n →
      fillLoop enc rbase n i aesTmp a1 = fillLoop enc rbase n i aesTmp a2 := by
  intro n
  induction n with
  | zero =>
    intro i aesTmp a1 a2 hlen h hle
    simp only [fillLoop]
    have : a1 = a2 := by
      apply List.ext_getElem?
      intro k
      rcases Nat.lt_or_ge k i with hk | hk
      · exact h k hk
      · rw [List.getElem?_eq_none (by omega), List.getElem?_eq_none (by omega)]
    rw [this]
  | succ n ih =>
    intro i aesTmp a1 a2 hlen h hle
    simp only [fillLoop]
    apply ih
    · simp [hlen]
    · apply agree_set _ _ (by simp [hlen])
      apply agree_set _ _ (by simp [hlen])
      apply agree_set _ _ (by simp [hlen])
      exact agree_set _ _ hlen _ _ h
    · simp only [List.length_set]
      omega

/-! ### The gap repair -/

theorem gapRepairLoop_length : ∀ (n i : Nat) (a : List Nat),
    (gapRepairLoop n i a).length = a.length := by
  intro n
  induction n with
  | zero => intro i a; rfl
  | succ n ih =>
    intro i a
    simp only [gapRepairLoop]
    split
    · rw [ih]; simp
    · rw [ih]

theorem gapRepairLoop_below : ∀ (n i : Nat) (a : List Nat) (k : Nat), k < i →
    (gapRepairLoop n i a).getD k 0 = a.getD k 0 := by
  intro n
  induction n with
  | zero => intro i a k _; rfl
  | succ n ih =>
    intro i a k hk
    simp only [gapRepairLoop]
    split
    · rw [ih _ _ _ (by omega), getD_set_eq, if_neg (by omega)]
    · rw [ih _ _ _ (by omega)]

/-- After the gap repair the wrapping difference of adjacent entries is at least 2,
whatever the array held. -/
theorem gapRepairLoop_diff : ∀ (n i : Nat) (a : List Nat), 1 ≤ i → i + n ≤ a.length →
    ∀ k, i ≤ k → k < i + n →
      2 ≤ sub32 ((gapRepairLoop n i a).getD k 0) ((gapRepairLoop n i a).getD (k - 1) 0) := by
  intro n
  induction n with
  | zero => intro i a _ _ k h1 h2; omega
  | succ n ih =>
    intro i a hi hlen k hk1 hk2
    simp only [gapRepairLoop]
    split
    · rename_i hlt
      rcases Nat.lt_or_ge i k with h | h
      · exact ih (i + 1) _ (by omega) (by simp; omega) k (by omega) (by omega)
      · have hki : k = i := by omega
        subst hki
        rw [gapRepairLoop_below _ _ _ k (by omega), gapRepairLoop_below _ _ _ (k - 1) (by omega),
          getD_set_eq, getD_set_eq, if_pos ⟨rfl, by omega⟩, if_neg (by omega)]
        unfold sub32 add32 at *
        omega
    · rename_i hlt
      rcases Nat.lt_or_ge i k with h | h
      · exact ih (i + 1) _ (by omega) (by omega) k (by omega) (by omega)
      · have hki : k = i := by omega
        subst hki
        rw [gapRepairLoop_below _ _ _ k (by omega), gapRepairLoop_below _ _ _ (k - 1) (by omega)]
        omega

theorem gapRepair_length (a : List Nat) : (gapRepair a).length = a.length :=
  gapRepairLoop_length 32767 1 a

theorem gapRepair_diff (a : List Nat) (hlen : a.length = 32768) (k : Nat) (h1 : 1 ≤ k)
    (h2 : k ≤ 32767) : 2 ≤ sub32 ((gapRepair a).getD k 0) ((gapRepair a).getD (k - 1) 0) :=
  gapRepairLoop_diff 32767 1 a (Nat.le_refl _) (by omega) k h1 (by omega)

/-- The lookup does not panic on a repaired alphabet that passed the range check. -/
theorem lookup_isSome (enc : List Nat → List Nat) (aesTmp a : List Nat) (hlen : a.length = 32768)
    (hlast : (gapRepair a).getD 32767 0 < 4294967294) (vm cv : Nat) (hcv : cv ≤ 65535) :
    (lookup enc aesTmp (gapRepair a) vm cv).isSome = true := by
  have hs : cv >>> 1 = cv / 2 := by simp [Nat.shiftRight_eq_div_pow]
  unfold lookup
  simp only [hs]
  split
  · unfold interpolate
    have hne : interpModulus (gapRepair a) (cv / 2) ((gapRepair a).getD (cv / 2) 0) ≠ 0 := by
      unfold interpModulus
      split
      · rename_i h
        rw [h]
        unfold not32
        omega
      · have hd := gapRepair_diff a hlen (cv / 2 + 1) (by omega) (by omega)
        simp only [Nat.add_sub_cancel] at hd
        unfold sub32 at *
        omega
    rw [if_neg hne]
    rfl
  · rfl

/-! ### The retry loop -/

theorem ordinalParallelQuicksort_length (a : List Nat) (h : 2 ≤ a.length) :
    (ordinalParallelQuicksort a).length = a.length :=
  (quicksortFuel_spec a.length a (Nat.le_refl _) h).2.length_eq

/-- The buffer taken from the pool does not matter. -/
theorem ordinal16to32Loop_pool (enc : List Nat → List Nat) (rbase vm cv fuel : Nat)
    (aesTmp a1 a2 : List Nat) (h1 : a1.length = 32768) (h2 : a2.length = 32768) :
    ordinal16to32Loop enc rbase vm cv fuel aesTmp a1 =
      ordinal16to32Loop enc rbase vm cv fuel aesTmp a2 := by
  cases fuel with
  | zero => rfl
  | succ fuel =>
    simp only [ordinal16to32Loop]
    rw [fillLoop_congr enc rbase 8192 0 aesTmp a1 a2 (h1.trans h2.symm)
      (fun k hk => absurd hk (Nat.not_lt_zero k)) (by omega)]

/-- Whether a code is returned depends neither on the column value nor on the mask. -/
theorem ordinal16to32Loop_isSome (enc : List Nat → List Nat) (rbase vm cv vm1 cv1 : Nat)
    (hcv : cv ≤ 65535) (hcv1 : cv1 ≤ 65535) :
    ∀ (fuel : Nat) (aesTmp a : List Nat), a.length = 32768 →
      (ordinal16to32Loop enc rbase vm cv fuel aesTmp a).isSome =
        (ordinal16to32Loop enc rbase vm1 cv1 fuel aesTmp a).isSome := by
  intro fuel
  induction fuel with
  | zero => intro aesTmp a _; rfl
  | succ fuel ih =>
    intro aesTmp a ha
    have hf : (fillLoop enc rbase 8192 0 aesTmp a).2.length = 32768 := by
      rw [fillLoop_length, ha]
    have hs : (ordinalParallelQuicksort (fillLoop enc rbase 8192 0 aesTmp a).2).length = 32768 := by
      rw [ordinalParallelQuicksort_length _ (by omega), hf]
    simp only [ordinal16to32Loop]
    split
    · rename_i hc
      rw [lookup_isSome enc _ _ hs hc.2 vm cv hcv, lookup_isSome enc _ _ hs hc.2 vm1 cv1 hcv1]
    · exact ih _ _ (by rw [gapRepair_length, hs])

theorem ordinal16to32_pool (c : Crypto) (fuel : Nat) (a1 a2 : List Nat) (vm cv kk : Nat)
    (keyHash : List Nat) (h1 : a1.length = 32768) (h2 : a2.length = 32768) :
    ordinal16to32 c fuel a1 vm cv kk keyHash = ordinal16to32 c fuel a2 vm cv kk keyHash := by
  unfold ordinal16to32
  exact ordinal16to32Loop_pool _ _ _ _ _ _ _ _ h1 h2

theorem ordinal16to32_isSome (c : Crypto) (fuel : Nat) (a1 a2 : List Nat) (vm cv vm1 cv1 kk : Nat)
    (keyHash : List Nat) (h1 : a1.length = 32768) (h2 : a2.length = 32768) (hcv : cv ≤ 65535)
    (hcv1 : cv1 ≤ 65535) :
    (ordinal16to32 c fuel a1 vm cv kk keyHash).isSome =
      (ordinal16to32 c fuel a2 vm1 cv1 kk keyHash).isSome := by
  rw [ordinal16to32_pool c fuel a1 a2 vm cv kk keyHash h1 h2]
  unfold ordinal16to32
  exact ordinal16to32Loop_isSome _ _ _ _ _ _ hcv hcv1 _ _ _ h2

/-- The subkey is all that `ordinal16to32` reads of the hash. -/
theorem ordinal16to32_subkey (c : Crypto) (fuel : Nat) (a : List Nat) (vm cv kk : Nat)
    (kh1 kh2 : List Nat) (h : (kh1.drop (16 * kk)).take 16 = (kh2.drop (16 * kk)).take 16) :
    ordinal16to32 c fuel a vm cv kk kh1 = ordinal16to32 c fuel a vm cv kk kh2 := by
  unfold ordinal16to32
  rw [h]

/-! ### The assembly of the ordinal -/

theorem length_sixteen (b : List Nat) (h : b.length = 16) :
    ∃ x0 x1 x2 x3 x4 x5 x6 x7 x8 x9 x10 x11 x12 x13 x14 x15 : Nat,
      b = [x0, x1, x2, x3, x4, x5, x6, x7, x8, x9, x10, x11, x12, x13, x14, x15] := by
  match b, h with
  | [x0, x1, x2, x3, x4, x5, x6, x7, x8, x9, x10, x11, x12, x13, x14, x15], _ =>
    exact ⟨x0, x1, x2, x3, x4, x5, x6, x7, x8, x9, x10, x11, x12, x13, x14, x15, rfl⟩

theorem bePutUint32_chain (b : List Nat) (hb : b.length = 16) (r0 r1 r2 r3 : Nat) :
    bePutUint32 (bePutUint32 (bePutUint32 (bePutUint32 b 0 r0) 4 r1) 8 r2) 12 r3 =
      bigEndian32 r0 ++ bigEndian32 r1 ++ bigEndian32 r2 ++ bigEndian32 r3 := by
  obtain ⟨x0, x1, x2, x3, x4, x5, x6, x7, x8, x9, x10, x11, x12, x13, x14, x15, rfl⟩ :=
    length_sixteen b hb
  rfl

/-- The four calls of `Ordinal.Set` are the four column codes. -/
theorem Set_eq (c : Crypto) (fuel : Nat) (pool : Nat → List Nat) (b : List Nat) (value : Nat)
    (key : List Nat) (hb : b.length = 16) :
    Ordinal.Set c fuel pool b value key =
      match columnCode c fuel pool value key 0, columnCode c fuel pool value key 1,
        columnCode c fuel pool value key 2, columnCode c fuel pool value key 3 with
      | some r0, some r1, some r2, some r3 =>
        some (bigEndian32 r0 ++ bigEndian32 r1 ++ bigEndian32 r2 ++ bigEndian32 r3)
      | _, _, _, _ => none := by
  have e0 : columnCode c fuel pool value key 0 =
      ordinal16to32 c fuel (pool 0) 0 ((value >>> 48) &&& 0xffff) 0 (c.sum512 key) := by
    simp [columnCode, columnMask, columnLane]
  have e1 : columnCode c fuel pool value key 1 =
      ordinal16to32 c fuel (pool 1) (value &&& 0xffff000000000000) ((value >>> 32) &&& 0xffff) 1
        (c.sum512 key) := by
    simp [columnCode, columnMask, columnLane]
  have e2 : columnCode c fuel pool value key 2 =
      ordinal16to32 c fuel (pool 2) (value &&& 0xffffffff00000000) ((value >>> 16) &&& 0xffff) 2
        (c.sum512 key) := by
    simp [columnCode, columnMask, columnLane]
  have e3 : columnCode c fuel pool value key 3 =
      ordinal16to32 c fuel (pool 3) (value &&& 0xffffffffffff0000) (value &&& 0xffff) 3
        (c.sum512 key) := by
    simp [columnCode, columnMask, columnLane]
  rw [e0, e1, e2, e3]
  unfold Ordinal.Set
  simp only
  split <;> simp_all [bePutUint32_chain]

/-! ### Lanes and masks -/

theorem and_shiftLeft_eq (a m s : Nat) : a &&& (m <<< s) = ((a >>> s) &&& m) <<< s := by
  apply Nat.eq_of_testBit_eq
  intro i
  simp only [Nat.testBit_and, Nat.testBit_shiftLeft, Nat.testBit_shiftRight]
  by_cases h : s ≤ i
  · have : s + (i - s) = i := by omega
    simp [h, this]
  · simp [h]

theorem mask_of_shift (a b m s : Nat) (h : a >>> s = b >>> s) :
    a &&& (m <<< s) = b &&& (m <<< s) := by
  rw [and_shiftLeft_eq, and_shiftLeft_eq, h]

theorem shift_more (a b s t : Nat) (h : a >>> s = b >>> s) : a >>> (s + t) = b >>> (s + t) := by
  rw [Nat.shiftRight_add, Nat.shiftRight_add, h]

theorem columnLane_le (value k : Nat) : columnLane value k ≤ 65535 := Nat.and_le_right

theorem column0_eq (a b : Nat) (h : a >>> 48 = b >>> 48) :
    columnMask a 0 = columnMask b 0 ∧ columnLane a 0 = columnLane b 0 := by
  constructor
  · simp [columnMask]
  · simp only [columnLane]
    rw [h]

theorem column1_eq (a b : Nat) (h : a >>> 32 = b >>> 32) :
    columnMask a 1 = columnMask b 1 ∧ columnLane a 1 = columnLane b 1 := by
  constructor
  · have hm : (0xffff000000000000 : Nat) = 0xffff <<< 48 := by decide
    have := mask_of_shift a b 0xffff 48 (shift_more a b 32 16 h)
    simpa [columnMask, hm] using this
  · simp only [columnLane]
    rw [h]

theorem column2_eq (a b : Nat) (h : a >>> 16 = b >>> 16) :
    columnMask a 2 = columnMask b 2 ∧ columnLane a 2 = columnLane b 2 := by
  constructor
  · have hm : (0xffffffff00000000 : Nat) = 0xffffffff <<< 32 := by decide
    have := mask_of_shift a b 0xffffffff 32 (shift_more a b 16 16 h)
    simpa [columnMask, hm] using this
  · simp only [columnLane]
    rw [h]

theorem columnCode_isSome (c : Crypto) (fuel : Nat) (pool1 pool2 : Nat → List Nat) (a b : Nat)
    (key : List Nat) (k : Nat) (h1 : (pool1 k).length = 32768) (h2 : (pool2 k).length = 32768) :
    (columnCode c fuel pool1 a key k).isSome = (columnCode c fuel pool2 b key k).isSome :=
  ordinal16to32_isSome c fuel _ _ _ _ _ _ k _ h1 h2 (columnLane_le a k) (columnLane_le b k)

theorem columnCode_eq (c : Crypto) (fuel : Nat) (pool1 pool2 : Nat → List Nat) (a b : Nat)
    (key : List Nat) (k : Nat) (h1 : (pool1 k).length = 32768) (h2 : (pool2 k).length = 32768)
    (h : columnMask a k = columnMask b k ∧ columnLane a k = columnLane b k) :
    columnCode c fuel pool1 a key k = columnCode c fuel pool2 b key k := by
  unfold columnCode
  rw [h.1, h.2]
  exact ordinal16to32_pool c fuel _ _ _ _ k _ h1 h2

theorem tripleAlphabet_getD (i : Nat) (hi : i < 32768) : tripleAlphabet.getD i 0 = 3 * i := by
  simp [tripleAlphabet, List.getElem?_range hi]

theorem tripleAlphabet_good : GoodAlphabet tripleAlphabet := by
  constructor
  · intro i hi
    rw [tripleAlphabet_getD i hi]
    omega
  · intro i hi
    rw [tripleAlphabet_getD i (by omega), tripleAlphabet_getD (i + 1) (by omega)]
    omega

/-! ## The properties -/

/-- C3: for every slice of length at least 2, the slice left by
`ordinalParallelQuicksort` once all the sub-sorts are done is sorted in ascending
order and is a permutation of the original contents. -/
theorem ordinalParallelQuicksort_sorted_perm (a : List Nat) (h : 2 ≤ a.length) :
    (ordinalParallelQuicksort a).Sorted (· ≤ ·) ∧ (ordinalParallelQuicksort a).Perm a :=
  quicksortFuel_spec a.length a (Nat.le_refl _) h

theorem ordinalParallelQuicksort_sorted_perm_witness :
    (ordinalParallelQuicksort [7, 3, 9, 3, 1]).Sorted (· ≤ ·) ∧
      (ordinalParallelQuicksort [7, 3, 9, 3, 1]).Perm [7, 3, 9, 3, 1] :=
  ordinalParallelQuicksort_sorted_perm [7, 3, 9, 3, 1] (by decide)

/-- C5: if the alphabet is strictly increasing with every adjacent gap at least 2,
then for every odd column value `2h+1` with `h < 32767` the modulus
`(alphabet[h+1] - alphabet[h]) - 1` is at least 1, and for every interpolation
word `rn`, so for every cipher, register and mask, the code returned lies
strictly between `alphabet[h]` and `alphabet[h+1]`. -/
theorem interpolation_inside_gap (alphabet : List Nat)
    (hu : ∀ i, i < 32768 → alphabet.getD i 0 < 4294967296)
    (hgap : ∀ i, i < 32767 → alphabet.getD i 0 + 2 ≤ alphabet.getD (i + 1) 0)
    (h : Nat) (hh : h < 32767) :
    1 ≤ interpModulus alphabet h (alphabet.getD h 0) ∧
    interpModulus alphabet h (alphabet.getD h 0) =
      alphabet.getD (h + 1) 0 - alphabet.getD h 0 - 1 ∧
    (∀ rn, ∃ c, interpolate alphabet h (alphabet.getD h 0) rn = some c ∧
      alphabet.getD h 0 < c ∧ c < alphabet.getD (h + 1) 0) ∧
    (∀ (enc : List Nat → List Nat) (aesTmp : List Nat) (vm : Nat),
      ∃ c, lookup enc aesTmp alphabet vm (2 * h + 1) = some c ∧
        alphabet.getD h 0 < c ∧ c < alphabet.getD (h + 1) 0) := by
  have hg : GoodAlphabet alphabet := ⟨hu, hgap⟩
  have hm := interpModulus_inner alphabet hg h hh
  have h3 := hgap h hh
  refine ⟨by omega, by omega, fun rn => interpolate_inner alphabet hg h hh rn, ?_⟩
  intro enc aesTmp vm
  have hs : (2 * h + 1) >>> 1 = h := by
    rw [Nat.shiftRight_eq_div_pow]
    omega
  have ha : (2 * h + 1) &&& 1 = 1 := by
    rw [Nat.and_one_is_mod]
    omega
  unfold lookup
  simp only [hs, ha]
  exact interpolate_inner alphabet hg h hh _

theorem interpolation_inside_gap_witness :
    1 ≤ interpModulus tripleAlphabet 5 (tripleAlphabet.getD 5 0) ∧
    interpModulus tripleAlphabet 5 (tripleAlphabet.getD 5 0) =
      tripleAlphabet.getD (5 + 1) 0 - tripleAlphabet.getD 5 0 - 1 ∧
    (∀ rn, ∃ c, interpolate tripleAlphabet 5 (tripleAlphabet.getD 5 0) rn = some c ∧
      tripleAlphabet.getD 5 0 < c ∧ c < tripleAlphabet.getD (5 + 1) 0) ∧
    (∀ (enc : List Nat → List Nat) (aesTmp : List Nat) (vm : Nat),
      ∃ c, lookup enc aesTmp tripleAlphabet vm (2 * 5 + 1) = some c ∧
        tripleAlphabet.getD 5 0 < c ∧ c < tripleAlphabet.getD (5 + 1) 0) :=
  interpolation_inside_gap tripleAlphabet tripleAlphabet_good.1 tripleAlphabet_good.2 5
    (by decide)

/-- C6: for a fixed alphabet that is strictly increasing with adjacent gaps of at
least 2 and last entry below `0xFFFFFFFE`, a fixed cipher, register and mask, the
lookup step of `ordinal16to32` returns a code for every column value and is
strictly increasing in it: `c1 < c2 ≤ 0xFFFF` gives `code(c1) < code(c2)`. -/
theorem lookup_strictly_increasing (enc : List Nat → List Nat) (aesTmp alphabet : List Nat)
    (hu : ∀ i, i < 32768 → alphabet.getD i 0 < 4294967296)
    (hgap : ∀ i, i < 32767 → alphabet.getD i 0 + 2 ≤ alphabet.getD (i + 1) 0)
    (hlast : alphabet.getD 32767 0 < 0xfffffffe)
    (vm c1 c2 : Nat) (h12 : c1 < c2) (hc2 : c2 ≤ 0xffff) :
    ∃ r1 r2, lookup enc aesTmp alphabet vm c1 = some r1 ∧
      lookup enc aesTmp alphabet vm c2 = some r2 ∧ r1 < r2 :=
  lookup_strictMono enc aesTmp alphabet ⟨hu, hgap⟩ hlast vm c1 c2 h12 hc2

theorem lookup_strictly_increasing_witness :
    ∃ r1 r2, lookup flipEnc (List.replicate 16 0) tripleAlphabet 0 6 = some r1 ∧
      lookup flipEnc (List.replicate 16 0) tripleAlphabet 0 7 = some r2 ∧ r1 < r2 :=
  lookup_strictly_increasing flipEnc (List.replicate 16 0) tripleAlphabet
    tripleAlphabet_good.1 tripleAlphabet_good.2
    (by rw [tripleAlphabet_getD 32767 (by decide)]; decide) 0 6 7 (by decide) (by decide)

theorem freshPool_length (k : Nat) : (freshPool k).length = 32768 := List.length_replicate _ _

/-- C7: for every value and key, `Ordinal.Set` returns exactly when the four column
codes exist, and it then writes, for each `k` in 0..3, the big-endian 4-byte
form of column code `k` at byte offset `4k`, where column code `k` is
`ordinal16to32` for the lane `(value >> (48 - 16k)) & 0xFFFF` and the mask that
keeps the lanes strictly above column `k`, and depends on the hash of the key
only through its bytes `16k..16k+16`. -/
theorem Set_layout (c : Crypto) (fuel : Nat) (pool : Nat → List Nat) (b : List Nat) (value : Nat)
    (key : List Nat) (hb : b.length = 16) :
    (∀ o, Ordinal.Set c fuel pool b value key = some o ↔
      ∃ r0 r1 r2 r3, columnCode c fuel pool value key 0 = some r0 ∧
        columnCode c fuel pool value key 1 = some r1 ∧
        columnCode c fuel pool value key 2 = some r2 ∧
        columnCode c fuel pool value key 3 = some r3 ∧
        o = bigEndian32 r0 ++ bigEndian32 r1 ++ bigEndian32 r2 ++ bigEndian32 r3) ∧
    (∀ k, columnCode c fuel pool value key k =
      ordinal16to32 c fuel (pool k) (columnMask value k) ((value >>> (48 - 16 * k)) &&& 0xffff) k
        (c.sum512 key)) ∧
    columnMask value 0 = 0 ∧ columnMask value 1 = value &&& 0xffff000000000000 ∧
    columnMask value 2 = value &&& 0xffffffff00000000 ∧
    columnMask value 3 = value &&& 0xffffffffffff0000 ∧
    (∀ k keyHash, (keyHash.drop (16 * k)).take 16 = ((c.sum512 key).drop (16 * k)).take 16 →
      ordinal16to32 c fuel (pool k) (columnMask value k) (columnLane value k) k keyHash =
        columnCode c fuel pool value key k) := by
  refine ⟨?_, fun k => rfl, by simp [columnMask], by simp [columnMask], by simp [columnMask],
    by simp [columnMask], ?_⟩
  · intro o
    rw [Set_eq c fuel pool b value key hb]
    constructor
    · intro h
      split at h
      · rename_i r0 r1 r2 r3 h0 h1 h2 h3
        exact ⟨r0, r1, r2, r3, h0, h1, h2, h3, (Option.some.inj h).symm⟩
      · exact absurd h (by simp)
    · rintro ⟨r0, r1, r2, r3, h0, h1, h2, h3, rfl⟩
      rw [h0, h1, h2, h3]
  · intro k keyHash h
    exact ordinal16to32_subkey c fuel _ _ _ k _ _ h

theorem Set_layout_witness :
    Ordinal.Set flipCrypto 1 freshPool (List.replicate 16 7) 4 [] =
        some [0, 0, 0, 0, 0, 0, 0, 0, 0, 0, 0, 0, 0, 0, 0, 0] ↔
      ∃ r0 r1 r2 r3, columnCode flipCrypto 1 freshPool 4 [] 0 = some r0 ∧
        columnCode flipCrypto 1 freshPool 4 [] 1 = some r1 ∧
        columnCode flipCrypto 1 freshPool 4 [] 2 = some r2 ∧
        columnCode flipCrypto 1 freshPool 4 [] 3 = some r3 ∧
        [0, 0, 0, 0, 0, 0, 0, 0, 0, 0, 0, 0, 0, 0, 0, 0] =
          bigEndian32 r0 ++ bigEndian32 r1 ++ bigEndian32 r2 ++ bigEndian32 r3 :=
  (Set_layout flipCrypto 1 freshPool (List.replicate 16 7) 4 []
    (List.length_replicate _ _)).1 [0, 0, 0, 0, 0, 0, 0, 0, 0, 0, 0, 0, 0, 0, 0, 0]

/-- C2: for every key and 64-bit values `a` and `b`, run with any pool buffers and
any previous contents of the receivers: if `a` and `b` agree on their top 16 bits
then `Set` returns for both or for neither and bytes 0..4 of the two ordinals are
equal; if they agree on their top 32 bits the same holds of bytes 0..8; if they
agree on their top 48 bits, of bytes 0..12. -/
theorem Set_column_cascade (c : Crypto) (fuel : Nat) (pool1 pool2 : Nat → List Nat)
    (b1 b2 : List Nat) (key : List Nat) (a b : Nat)
    (hp1 : ∀ k, k < 4 → (pool1 k).length = 32768) (hp2 : ∀ k, k < 4 → (pool2 k).length = 32768)
    (hb1 : b1.length = 16) (hb2 : b2.length = 16) (_ha : a < 2 ^ 64) (_hb : b < 2 ^ 64) :
    (a >>> 48 = b >>> 48 →
      (Ordinal.Set c fuel pool1 b1 a key).map (List.take 4) =
        (Ordinal.Set c fuel pool2 b2 b key).map (List.take 4)) ∧
    (a >>> 32 = b >>> 32 →
      (Ordinal.Set c fuel pool1 b1 a key).map (List.take 8) =
        (Ordinal.Set c fuel pool2 b2 b key).map (List.take 8)) ∧
    (a >>> 16 = b >>> 16 →
      (Ordinal.Set c fuel pool1 b1 a key).map (List.take 12) =
        (Ordinal.Set c fuel pool2 b2 b key).map (List.take 12)) := by
  have s0 := columnCode_isSome c fuel pool1 pool2 a b key 0 (hp1 0 (by omega)) (hp2 0 (by omega))
  have s1 := columnCode_isSome c fuel pool1 pool2 a b key 1 (hp1 1 (by omega)) (hp2 1 (by omega))
  have s2 := columnCode_isSome c fuel pool1 pool2 a b key 2 (hp1 2 (by omega)) (hp2 2 (by omega))
  have s3 := columnCode_isSome c fuel pool1 pool2 a b key 3 (hp1 3 (by omega)) (hp2 3 (by omega))
  have e0 := fun h => columnCode_eq c fuel pool1 pool2 a b key 0 (hp1 0 (by omega))
    (hp2 0 (by omega)) (column0_eq a b h)
  have e1 := fun h => columnCode_eq c fuel pool1 pool2 a b key 1 (hp1 1 (by omega))
    (hp2 1 (by omega)) (column1_eq a b h)
  have e2 := fun h => columnCode_eq c fuel pool1 pool2 a b key 2 (hp1 2 (by omega))
    (hp2 2 (by omega)) (column2_eq a b h)
  rw [Set_eq c fuel pool1 b1 a key hb1, Set_eq c fuel pool2 b2 b key hb2]
  refine ⟨fun h => ?_, fun h => ?_, fun h => ?_⟩
  · have k0 := e0 h
    revert s1 s2 s3 k0
    generalize columnCode c fuel pool1 a key 0 = x0
    generalize columnCode c fuel pool1 a key 1 = x1
    generalize columnCode c fuel pool1 a key 2 = x2
    generalize columnCode c fuel pool1 a key 3 = x3
    generalize columnCode c fuel pool2 b key 0 = y0
    generalize columnCode c fuel pool2 b key 1 = y1
    generalize columnCode c fuel pool2 b key 2 = y2
    generalize columnCode c fuel pool2 b key 3 = y3
    intro s1 s2 s3 k0
    subst k0
    cases x0 <;> cases x1 <;> cases y1 <;> cases x2 <;> cases y2 <;> cases x3 <;> cases y3 <;>
      simp_all [bigEndian32]
  · have k0 := e0 (shift_more a b 32 16 h)
    have k1 := e1 h
    revert s2 s3 k0 k1
    generalize columnCode c fuel pool1 a key 0 = x0
    generalize columnCode c fuel pool1 a key 1 = x1
    generalize columnCode c fuel pool1 a key 2 = x2
    generalize columnCode c fuel pool1 a key 3 = x3
    generalize columnCode c fuel pool2 b key 0 = y0
    generalize columnCode c fuel pool2 b key 1 = y1
    generalize columnCode c fuel pool2 b key 2 = y2
    generalize columnCode c fuel pool2 b key 3 = y3
    intro s2 s3 k0 k1
    subst k0 k1
    cases x0 <;> cases x1 <;> cases x2 <;> cases y2 <;> cases x3 <;> cases y3 <;>
      simp_all [bigEndian32]
  · have k0 := e0 (shift_more a b 16 32 h)
    have k1 := e1 (shift_more a b 16 16 h)
    have k2 := e2 h
    revert s3 k0 k1 k2
    generalize columnCode c fuel pool1 a key 0 = x0
    generalize columnCode c fuel pool1 a key 1 = x1
    generalize columnCode c fuel pool1 a key 2 = x2
    generalize columnCode c fuel pool1 a key 3 = x3
    generalize columnCode c fuel pool2 b key 0 = y0
    generalize columnCode c fuel pool2 b key 1 = y1
    generalize columnCode c fuel pool2 b key 2 = y2
    generalize columnCode c fuel pool2 b key 3 = y3
    intro s3 k0 k1 k2
    subst k0 k1 k2
    cases x0 <;> cases x1 <;> cases x2 <;> cases x3 <;> cases y3 <;>
      simp_all [bigEndian32]

theorem Set_column_cascade_witness :
    (0x0001000200030004 >>> 48 = 0x0001000200039999 >>> 48 →
      (Ordinal.Set flipCrypto 3 freshPool (List.replicate 16 0) 0x0001000200030004 [107]).map
        (List.take 4) =
      (Ordinal.Set flipCrypto 3 freshPool (List.replicate 16 9) 0x0001000200039999 [107]).map
        (List.take 4)) ∧
    (0x0001000200030004 >>> 32 = 0x0001000200039999 >>> 32 →
      (Ordinal.Set flipCrypto 3 freshPool (List.replicate 16 0) 0x0001000200030004 [107]).map
        (List.take 8) =
      (Ordinal.Set flipCrypto 3 freshPool (List.replicate 16 9) 0x0001000200039999 [107]).map
        (List.take 8)) ∧
    (0x0001000200030004 >>> 16 = 0x0001000200039999 >>> 16 →
      (Ordinal.Set flipCrypto 3 freshPool (List.replicate 16 0) 0x0001000200030004 [107]).map
        (List.take 12) =
      (Ordinal.Set flipCrypto 3 freshPool (List.replicate 16 9) 0x0001000200039999 [107]).map
        (List.take 12)) :=
  Set_column_cascade flipCrypto 3 freshPool freshPool (List.replicate 16 0) (List.replicate 16 9)
    [107] 0x0001000200030004 0x0001000200039999 (fun k _ => freshPool_length k)
    (fun k _ => freshPool_length k) (List.length_replicate _ _) (List.length_replicate _ _)
    (by decide) (by decide)

/-- C10: the 16 bytes written by `Ordinal.Set(value, key)` are a function of
`(value, key)` alone: two runs with the same value and key give the same result
whatever the scratch buffers taken from the pool held and whatever the receiving
ordinal held. -/
theorem Set_deterministic (c : Crypto) (fuel : Nat) (pool1 pool2 : Nat → List Nat)
    (b1 b2 : List Nat) (value : Nat) (key : List Nat)
    (hp1 : ∀ k, k < 4 → (pool1 k).length = 32768) (hp2 : ∀ k, k < 4 → (pool2 k).length = 32768)
    (hb1 : b1.length = 16) (hb2 : b2.length = 16) :
    Ordinal.Set c fuel pool1 b1 value key = Ordinal.Set c fuel pool2 b2 value key := by
  rw [Set_eq c fuel pool1 b1 value key hb1, Set_eq c fuel pool2 b2 value key hb2,
    columnCode_eq c fuel pool1 pool2 value value key 0 (hp1 0 (by omega)) (hp2 0 (by omega))
      ⟨rfl, rfl⟩,
    columnCode_eq c fuel pool1 pool2 value value key 1 (hp1 1 (by omega)) (hp2 1 (by omega))
      ⟨rfl, rfl⟩,
    columnCode_eq c fuel pool1 pool2 value value key 2 (hp1 2 (by omega)) (hp2 2 (by omega))
      ⟨rfl, rfl⟩,
    columnCode_eq c fuel pool1 pool2 value value key 3 (hp1 3 (by omega)) (hp2 3 (by omega))
      ⟨rfl, rfl⟩]

theorem Set_deterministic_witness :
    Ordinal.Set flipCrypto 2 freshPool (List.replicate 16 0) 77 [1, 2, 3] =
      Ordinal.Set flipCrypto 2 (fun k => List.replicate 32768 (k + 5)) (List.replicate 16 255) 77
        [1, 2, 3] :=
  Set_deterministic flipCrypto 2 freshPool (fun k => List.replicate 32768 (k + 5))
    (List.replicate 16 0) (List.replicate 16 255) 77 [1, 2, 3] (fun k _ => freshPool_length k)
    (fun _ _ => List.length_replicate _ _) (List.length_replicate _ _)
    (List.length_replicate _ _)

/-! ### The JSON form -/

theorem ext_getD (l1 l2 : List Nat) (hlen : l1.length = l2.length)
    (h : ∀ k, k < l1.length → l1.getD k 0 = l2.getD k 0) : l1 = l2 := by
  apply List.ext_getElem hlen
  intro k h1 h2
  have := h k h1
  rwa [getD_of_lt l1 k h1, getD_of_lt l2 k h2] at this

theorem copyLoop_spec (bb : List Nat) : ∀ (n i : Nat) (b : List Nat), i ≤ min bb.length 16 →
    (copyLoop bb n i b).1 = min (i + n) (min bb.length 16) ∧
    (copyLoop bb n i b).2.length = b.length ∧
    ∀ k, (copyLoop bb n i b).2.getD k 0 =
      if i ≤ k ∧ k < min (i + n) (min bb.length 16) ∧ k < b.length then bb.getD k 0
      else b.getD k 0 := by
  intro n
  induction n with
  | zero =>
    intro i b hi
    simp only [copyLoop]
    refine ⟨by omega, by trivial, fun k => ?_⟩
    rw [if_neg (by omega)]
  | succ n ih =>
    intro i b hi
    simp only [copyLoop]
    split
    · rename_i hc
      obtain ⟨h1, h2, h3⟩ := ih (i + 1) (b.set i (bb.getD i 0)) (by omega)
      refine ⟨by rw [h1]; omega, by rw [h2]; simp, fun k => ?_⟩
      rw [h3 k, getD_set_eq]
      simp only [List.length_set]
      by_cases hk : i = k
      · subst hk
        split_ifs <;> first | rfl | (exfalso; omega)
      · split_ifs <;> first | rfl | (exfalso; omega)
    · rename_i hc
      refine ⟨by simp only []; omega, by trivial, fun k => ?_⟩
      rw [if_neg (by omega)]

theorem zeroLoop_spec : ∀ (n i : Nat) (b : List Nat),
    (zeroLoop n i b).length = b.length ∧
    ∀ k, (zeroLoop n i b).getD k 0 =
      if i ≤ k ∧ k < min (i + n) 16 ∧ k < b.length then 0 else b.getD k 0 := by
  intro n
  induction n with
  | zero =>
    intro i b
    simp only [zeroLoop]
    refine ⟨by trivial, fun k => ?_⟩
    rw [if_neg (by omega)]
  | succ n ih =>
    intro i b
    simp only [zeroLoop]
    split
    · rename_i hc
      obtain ⟨h2, h3⟩ := ih (i + 1) (b.set i 0)
      refine ⟨by rw [h2]; simp, fun k => ?_⟩
      rw [h3 k, getD_set_eq]
      simp only [List.length_set]
      by_cases hk : i = k
      · subst hk
        split_ifs <;> first | rfl | (exfalso; omega)
      · split_ifs <;> first | rfl | (exfalso; omega)
    · rename_i hc
      refine ⟨by trivial, fun k => ?_⟩
      rw [if_neg (by omega)]

/-- The two loops of `Ordinal.UnmarshalJSON` leave the first 16 bytes of `bb`, padded
with zeros. -/
theorem copy_then_zero (bb b : List Nat) (hb : b.length = 16) :
    zeroLoop 16 (copyLoop bb 16 0 b).1 (copyLoop bb 16 0 b).2 =
      bb.take (min 16 bb.length) ++ List.replicate (16 - min 16 bb.length) 0 := by
  obtain ⟨h1, h2, h3⟩ := copyLoop_spec bb 16 0 b (Nat.zero_le _)
  obtain ⟨z2, z3⟩ := zeroLoop_spec 16 (copyLoop bb 16 0 b).1 (copyLoop bb 16 0 b).2
  apply ext_getD
  · rw [z2, h2, hb]
    simp only [List.length_append, List.length_take, List.length_replicate]
    omega
  · intro k hk
    rw [z2, h2, hb] at hk
    rw [z3 k, h1, h2, hb, h3 k, hb]
    simp only [List.getD_eq_getElem?_getD, List.getElem?_append, List.length_take,
      List.getElem?_take, List.getElem?_replicate]
    split_ifs <;> first | rfl | (exfalso; omega)

theorem zeroLoop_all (b : List Nat) (hb : b.length = 16) :
    zeroLoop 16 0 b = List.replicate 16 0 := by
  obtain ⟨z2, z3⟩ := zeroLoop_spec 16 0 b
  apply ext_getD
  · rw [z2, hb]; simp
  · intro k hk
    rw [z2, hb] at hk
    rw [z3 k, if_pos (by omega)]
    simp only [List.getD_eq_getElem?_getD, List.getElem?_replicate, if_pos hk, Option.getD_some]

theorem jsonStringBody_alnum : ∀ (s : List Nat), (∀ ch ∈ s, isAlnum ch = true) →
    jsonStringBody (s ++ [34]) = some s
  | [], _ => by simp [jsonStringBody]
  | ch :: s, h => by
    have hc : isAlnum ch = true := h ch (List.mem_cons_self _ _)
    have ih := jsonStringBody_alnum s (fun x hx => h x (List.mem_cons_of_mem _ hx))
    simp only [isAlnum, Bool.or_eq_true, Bool.and_eq_true, decide_eq_true_eq] at hc
    rw [List.cons_append, jsonStringBody.eq_def]
    dsimp only
    rw [if_neg (by omega), if_neg (by omega), if_neg (by omega), ih]
    rfl

theorem asciiJson_backspace (s : List Nat) (h : ∀ ch ∈ s, isAlnum ch = true) :
    asciiJson.unmarshalString ([34, 92, 98] ++ s ++ [34]) = some (8 :: s) := by
  simp only [asciiJson, List.cons_append, List.nil_append, List.head?_cons, List.tail_cons,
    if_true, jsonStringBody]
  rw [jsonStringBody_alnum s h]
  simp [jsonEscape]

/-- C8: for every 16-byte ordinal `o`, `Ordinal.UnmarshalJSON` applied to the bytes
returned by `Ordinal.MarshalJSON(o)` returns no error and sets the receiver to `o`,
whatever it held, provided that `Base62Decode` inverts `Base62Encode` at `o`,
that `Base62Encode(o)` is made of ASCII letters and digits, and that
`json.Unmarshal` reads a string literal made of the escape of a backspace
followed by letters and digits as the backspace followed by those. -/
theorem Ordinal_json_roundtrip (js : Json) (base62Encode base62Decode : List Nat → List Nat)
    (o b : List Nat) (ho : o.length = 16) (hb : b.length = 16)
    (hinv : base62Decode (base62Encode o) = o)
    (halnum : ∀ ch ∈ base62Encode o, isAlnum ch = true)
    (hjs : ∀ s, (∀ ch ∈ s, isAlnum ch = true) →
      js.unmarshalString ([34, 92, 98] ++ s ++ [34]) = some (8 :: s)) :
    Ordinal.UnmarshalJSON js base62Decode b (Ordinal.MarshalJSON base62Encode o) = (o, false) := by
  have hc : (8 :: base62Encode o).length > 0 ∧ (8 :: base62Encode o).getD 0 0 = 8 :=
    ⟨Nat.succ_pos _, rfl⟩
  unfold Ordinal.UnmarshalJSON Ordinal.MarshalJSON
  rw [if_neg (by simp), hjs _ halnum]
  dsimp only
  rw [if_pos hc, List.drop_succ_cons, List.drop_zero, hinv, copy_then_zero o b hb, ho]
  simp [List.take_of_length_le (Nat.le_of_eq ho)]

theorem Ordinal_json_roundtrip_witness :
    Ordinal.UnmarshalJSON asciiJson nibbleDecode (List.replicate 16 7)
      (Ordinal.MarshalJSON nibbleEncode [0, 17, 34, 51, 68, 85, 102, 119, 136, 153, 170, 187,
        204, 221, 238, 255]) =
      ([0, 17, 34, 51, 68, 85, 102, 119, 136, 153, 170, 187, 204, 221, 238, 255], false) :=
  Ordinal_json_roundtrip asciiJson nibbleEncode nibbleDecode
    [0, 17, 34, 51, 68, 85, 102, 119, 136, 153, 170, 187, 204, 221, 238, 255]
    (List.replicate 16 7) (by decide) (by decide) (by decide) (by decide) asciiJson_backspace

/-- C9: whenever a non-empty input of `Ordinal.UnmarshalJSON` decodes (as a string
that starts with a backspace followed by base-62 text, as a plain string, or as
a byte array) to a byte sequence `bb`, the call returns no error and the ordinal
becomes the first `min(16, len(bb))` bytes of `bb` followed by zero bytes up to
length 16, whatever the ordinal held before. -/
theorem UnmarshalJSON_pads_truncates (js : Json) (base62Decode : List Nat → List Nat)
    (b j bb : List Nat) (hb : b.length = 16) (hj : j ≠ [])
    (hd : ordinalDecoded js base62Decode j = some bb) :
    Ordinal.UnmarshalJSON js base62Decode b j =
      (bb.take (min 16 bb.length) ++ List.replicate (16 - min 16 bb.length) 0, false) := by
  have hjl : ¬ j.length = 0 := fun h => hj (List.length_eq_zero.mp h)
  unfold Ordinal.UnmarshalJSON
  rw [if_neg hjl]
  unfold ordinalDecoded at hd
  cases hs : js.unmarshalString j with
  | some str =>
    rw [hs] at hd
    simp only [Option.some.injEq] at hd
    have hbb : (if str.length > 0 ∧ str.getD 0 0 = 8 then base62Decode (List.drop 1 str)
        else str) = bb := by
      rw [← hd]
      cases str with
      | nil => simp
      | cons x xs => simp
    dsimp only
    rw [hbb, copy_then_zero bb b hb]
  | none =>
    rw [hs] at hd
    dsimp only at hd
    rw [hd]
    dsimp only
    rw [copy_then_zero bb b hb]

theorem UnmarshalJSON_pads_truncates_witness :
    Ordinal.UnmarshalJSON asciiJson nibbleDecode (List.replicate 16 7) [34, 65, 66, 34] =
      ([65, 66].take (min 16 [65, 66].length) ++
        List.replicate (16 - min 16 [65, 66].length) 0, false) :=
  UnmarshalJSON_pads_truncates asciiJson nibbleDecode (List.replicate 16 7) [34, 65, 66, 34]
    [65, 66] (by decide) (by decide) (by decide)

/-! ### A run in which the repaired alphabet is not increasing -/

theorem set_replicate_self (n k x : Nat) : (List.replicate n x).set k x = List.replicate n x := by
  apply List.ext_getElem?
  intro j
  rw [List.getElem?_set, List.length_replicate, List.getElem?_replicate]
  split_ifs <;> first | rfl | (exfalso; omega)

theorem flipEnc_words (t : List Nat)
    (ht : t = List.replicate 16 0 ∨ t = flipEnc (List.replicate 16 0)) :
    (flipEnc t = List.replicate 16 0 ∨ flipEnc t = flipEnc (List.replicate 16 0)) ∧
    add32 (leUint32 (flipEnc t) 0 &&& 0x7fffffff) 0 = 0 ∧
    add32 (leUint32 (flipEnc t) 4 &&& 0x7fffffff) 0 = 0 ∧
    add32 (leUint32 (flipEnc t) 8 &&& 0x7fffffff) 0 = 0 ∧
    add32 (leUint32 (flipEnc t) 12 &&& 0x7fffffff) 0 = 0 := by
  rcases ht with h | h <;> subst h <;> decide

theorem fillLoop_flip (L : Nat) : ∀ (n i : Nat) (t : List Nat),
    (t = List.replicate 16 0 ∨ t = flipEnc (List.replicate 16 0)) →
    (fillLoop flipEnc 0 n i t (List.replicate L 0)).2 = List.replicate L 0 := by
  intro n
  induction n with
  | zero => intro i t _; rfl
  | succ n ih =>
    intro i t ht
    obtain ⟨h1, w0, w1, w2, w3⟩ := flipEnc_words t ht
    simp only [fillLoop]
    rw [w0, w1, w2, w3, set_replicate_self, set_replicate_self, set_replicate_self,
      set_replicate_self]
    exact ih (i + 4) (flipEnc t) h1

theorem gapRepairLoop_zeros : ∀ (n i : Nat) (a : List Nat), 1 ≤ i → i + n ≤ a.length →
    (∀ k, i ≤ k → a.getD k 0 = 0) →
    a.getD (i - 1) 0 = (if (i - 1) % 2 = 1 then 2 else 0) →
    ∀ k, i ≤ k → k < i + n → (gapRepairLoop n i a).getD k 0 = if k % 2 = 1 then 2 else 0 := by
  intro n
  induction n with
  | zero => intro i a _ _ _ _ k h1 h2; omega
  | succ n ih =>
    intro i a hi hlen hz hp k hk1 hk2
    have hai := hz i (Nat.le_refl _)
    simp only [gapRepairLoop]
    rw [hai, hp]
    by_cases hpar : (i - 1) % 2 = 1
    · rw [if_pos hpar, if_neg (by decide)]
      rcases Nat.lt_or_ge i k with h | h
      · exact ih (i + 1) a (by omega) (by omega) (fun j hj => hz j (by omega))
          (by rw [Nat.add_sub_cancel, hai, if_neg (by omega)]) k (by omega) (by omega)
      · have hki : k = i := by omega
        subst hki
        rw [gapRepairLoop_below _ _ _ k (by omega), hai, if_neg (by omega)]
    · rw [if_neg hpar, if_pos (by decide)]
      have hset : (a.set i (add32 0 2)).getD i 0 = 2 := by
        rw [getD_set_eq, if_pos ⟨rfl, by omega⟩]
        rfl
      rcases Nat.lt_or_ge i k with h | h
      · exact ih (i + 1) _ (by omega) (by simp; omega)
          (fun j hj => by rw [getD_set_eq, if_neg (by omega)]; exact hz j (by omega))
          (by rw [Nat.add_sub_cancel, hset, if_pos (by omega)]) k (by omega) (by omega)
      · have hki : k = i := by omega
        subst hki
        rw [gapRepairLoop_below _ _ _ k (by omega), hset, if_pos (by omega)]

theorem gapRepair_zeros (k : Nat) (hk : k < 32768) :
    (gapRepair (List.replicate 32768 0)).getD k 0 = if k % 2 = 1 then 2 else 0 := by
  have hz : ∀ j, (List.replicate 32768 0).getD j 0 = 0 := by
    intro j
    simp only [List.getD_eq_getElem?_getD, List.getElem?_replicate]
    split_ifs <;> rfl
  rcases Nat.eq_zero_or_pos k with h | h
  · subst h
    unfold gapRepair
    rw [gapRepairLoop_below _ _ _ 0 (by omega), hz]
    rfl
  · exact gapRepairLoop_zeros 32767 1 _ (Nat.le_refl _) (by rw [List.length_replicate])
      (fun j _ => hz j) (by rw [hz]; rfl) k h (by omega)

/-- With `flipEnc` as the cipher the first alphabet passes the range check although
it is not increasing, and an even column value `cv` gets the code 0 or 2. -/
theorem ordinal16to32_flip_even (fuel : Nat) (pool : List Nat) (vm cv kk : Nat)
    (keyHash : List Nat) (hp : pool.length = 32768) (hcv : cv % 2 = 0) (hcv2 : cv ≤ 65535) :
    ordinal16to32 flipCrypto (fuel + 1) pool vm cv kk keyHash =
      some (if cv / 2 % 2 = 1 then 2 else 0) := by
  have hr : leUint32 (flipEnc (List.replicate 16 0)) 0 % (0x7fffffff + 2) = 0 := by decide
  have hfill : (fillLoop flipEnc 0 8192 0 (flipEnc (List.replicate 16 0)) pool).2 =
      List.replicate 32768 0 := by
    rw [fillLoop_congr flipEnc 0 8192 0 _ pool (List.replicate 32768 0)
      (by rw [hp, List.length_replicate]) (fun k hk => absurd hk (Nat.not_lt_zero k))
      (by omega)]
    exact fillLoop_flip 32768 8192 0 _ (Or.inr rfl)
  have hsort : ordinalParallelQuicksort (List.replicate 32768 0) = List.replicate 32768 0 :=
    List.perm_replicate.mp
      (quicksortFuel_spec _ _ (Nat.le_refl _) (by rw [List.length_replicate]; omega)).2
  have hs : cv >>> 1 = cv / 2 := by simp [Nat.shiftRight_eq_div_pow]
  have ha : cv &&& 1 = 0 := by rw [Nat.and_one_is_mod]; exact hcv
  unfold ordinal16to32
  simp only [flipCrypto, hr, ordinal16to32Loop]
  rw [hfill, hsort, gapRepair_zeros 32767 (by omega), gapRepair_zeros 0 (by omega),
    if_pos (by decide)]
  unfold lookup
  simp only [hs, ha]
  rw [if_neg (by omega), gapRepair_zeros (cv / 2) (by omega)]

theorem columnCode_flip_even (fuel value : Nat) (key : List Nat) (k : Nat)
    (hcv : columnLane value k % 2 = 0) :
    columnCode flipCrypto (fuel + 1) freshPool value key k =
      some (if columnLane value k / 2 % 2 = 1 then 2 else 0) :=
  ordinal16to32_flip_even fuel _ _ _ k _ (freshPool_length k) hcv (columnLane_le value k)

theorem gapRepairLoop_succ (n i : Nat) (a : List Nat) :
    gapRepairLoop (n + 1) i a =
      if sub32 (a.getD i 0) (a.getD (i - 1) 0) < 2 then
        gapRepairLoop n (i + 1) (a.set i (add32 (a.getD i 0) 2))
      else gapRepairLoop n (i + 1) a := rfl

/-- The defect of the gap repair in general: when the first three entries of a
sorted array lie within steps of at most 1, the repair lifts the second entry
above the third and leaves the third alone. -/
theorem gapRepair_overtakes (a : List Nat) (hlen : 3 ≤ a.length) (x y z : Nat)
    (h0 : a.getD 0 0 = x) (h1 : a.getD 1 0 = y) (h2 : a.getD 2 0 = z)
    (hxy : x ≤ y) (hyx : y ≤ x + 1) (hyz : y ≤ z) (hzy : z ≤ y + 1) (hz : z + 2 < 4294967296) :
    (gapRepair a).getD 1 0 = y + 2 ∧ (gapRepair a).getD 2 0 = z := by
  have e : gapRepair a = gapRepairLoop (32765 + 1 + 1) 1 a := rfl
  have hs1 : (a.set 1 (add32 y 2)).getD 1 0 = y + 2 := by
    rw [getD_set_eq, if_pos ⟨rfl, by omega⟩]
    unfold add32
    omega
  have hs2 : (a.set 1 (add32 y 2)).getD 2 0 = z := by
    rw [getD_set_eq, if_neg (by omega), h2]
  rw [e, gapRepairLoop_succ, Nat.sub_self, h0, h1, if_pos (by unfold sub32; omega),
    gapRepairLoop_succ, Nat.add_sub_cancel, hs1, hs2, if_neg (by unfold sub32; omega),
    gapRepairLoop_below _ _ _ 1 (by omega), gapRepairLoop_below _ _ _ 2 (by omega), hs1, hs2]
  exact ⟨rfl, rfl⟩

/-- C4, evaluated at the failing input: the array of 32768 zeros is sorted, and after the gap repair
it starts 0, 2, 0, so that `alphabet[2] < alphabet[1]`, while it passes the range
check (`alphabet[32767] = 2 > alphabet[0] = 0`). -/
theorem gapRepair_not_increasing :
    (List.replicate 32768 0).Sorted (· ≤ ·) ∧ (List.replicate 32768 0).length = 32768 ∧
    (gapRepair (List.replicate 32768 0)).getD 0 0 = 0 ∧
    (gapRepair (List.replicate 32768 0)).getD 1 0 = 2 ∧
    (gapRepair (List.replicate 32768 0)).getD 2 0 = 0 ∧
    (gapRepair (List.replicate 32768 0)).getD 32767 0 = 2 :=
  ⟨List.pairwise_replicate.mpr (Or.inr (Nat.le_refl 0)), List.length_replicate _ _,
    gapRepair_zeros 0 (by decide), gapRepair_zeros 1 (by decide), gapRepair_zeros 2 (by decide),
    gapRepair_zeros 32767 (by decide)⟩

/-- C1, evaluated at the failing input: with `flipEnc` as the cipher, `Set` returns for the values 0, 2
and 4 under the empty key, the ordinals of 0 and 4 are equal, and the ordinal of
4 is byte-lexicographically less than the ordinal of 2. -/
theorem Set_order_broken :
    Ordinal.Set flipCrypto 1 freshPool (List.replicate 16 0) 0 [] =
      some [0, 0, 0, 0, 0, 0, 0, 0, 0, 0, 0, 0, 0, 0, 0, 0] ∧
    Ordinal.Set flipCrypto 1 freshPool (List.replicate 16 0) 2 [] =
      some [0, 0, 0, 0, 0, 0, 0, 0, 0, 0, 0, 0, 0, 0, 0, 2] ∧
    Ordinal.Set flipCrypto 1 freshPool (List.replicate 16 0) 4 [] =
      some [0, 0, 0, 0, 0, 0, 0, 0, 0, 0, 0, 0, 0, 0, 0, 0] ∧
    bytesLess [0, 0, 0, 0, 0, 0, 0, 0, 0, 0, 0, 0, 0, 0, 0, 0]
      [0, 0, 0, 0, 0, 0, 0, 0, 0, 0, 0, 0, 0, 0, 0, 2] = true ∧
    bytesLess [0, 0, 0, 0, 0, 0, 0, 0, 0, 0, 0, 0, 0, 0, 0, 2]
      [0, 0, 0, 0, 0, 0, 0, 0, 0, 0, 0, 0, 0, 0, 0, 0] = false := by
  have a0 : columnCode flipCrypto 1 freshPool 0 [] 0 = some 0 :=
    columnCode_flip_even 0 0 [] 0 (by decide)
  have a1 : columnCode flipCrypto 1 freshPool 0 [] 1 = some 0 :=
    columnCode_flip_even 0 0 [] 1 (by decide)
  have a2 : columnCode flipCrypto 1 freshPool 0 [] 2 = some 0 :=
    columnCode_flip_even 0 0 [] 2 (by decide)
  have a3 : columnCode flipCrypto 1 freshPool 0 [] 3 = some 0 :=
    columnCode_flip_even 0 0 [] 3 (by decide)
  have b0 : columnCode flipCrypto 1 freshPool 2 [] 0 = some 0 :=
    columnCode_flip_even 0 2 [] 0 (by decide)
  have b1 : columnCode flipCrypto 1 freshPool 2 [] 1 = some 0 :=
    columnCode_flip_even 0 2 [] 1 (by decide)
  have b2 : columnCode flipCrypto 1 freshPool 2 [] 2 = some 0 :=
    columnCode_flip_even 0 2 [] 2 (by decide)
  have b3 : columnCode flipCrypto 1 freshPool 2 [] 3 = some 2 :=
    columnCode_flip_even 0 2 [] 3 (by decide)
  have c0 : columnCode flipCrypto 1 freshPool 4 [] 0 = some 0 :=
    columnCode_flip_even 0 4 [] 0 (by decide)
  have c1 : columnCode flipCrypto 1 freshPool 4 [] 1 = some 0 :=
    columnCode_flip_even 0 4 [] 1 (by decide)
  have c2 : columnCode flipCrypto 1 freshPool 4 [] 2 = some 0 :=
    columnCode_flip_even 0 4 [] 2 (by decide)
  have c3 : columnCode flipCrypto 1 freshPool 4 [] 3 = some 0 :=
    columnCode_flip_even 0 4 [] 3 (by decide)
  refine ⟨?_, ?_, ?_, by decide, by decide⟩
  · rw [Set_eq _ _ _ _ _ _ (List.length_replicate _ _), a0, a1, a2, a3]
    rfl
  · rw [Set_eq _ _ _ _ _ _ (List.length_replicate _ _), b0, b1, b2, b3]
    rfl
  · rw [Set_eq _ _ _ _ _ _ (List.length_replicate _ _), c0, c1, c2, c3]
    rfl

/-! ### Byte order of the packing -/

theorem bigEndian32_bytes (x : Nat) (hx : x < 4294967296) :
    ∃ b3 b2 b1 b0 : Nat, b3 < 256 ∧ b2 < 256 ∧ b1 < 256 ∧ b0 < 256 ∧
      x = b3 * 16777216 + b2 * 65536 + b1 * 256 + b0 ∧ bigEndian32 x = [b3, b2, b1, b0] := by
  have e24 : x >>> 24 = x / 256 / 256 / 256 := by
    rw [Nat.shiftRight_eq_div_pow, Nat.div_div_eq_div_mul, Nat.div_div_eq_div_mul]
  have e16 : x >>> 16 = x / 256 / 256 := by
    rw [Nat.shiftRight_eq_div_pow, Nat.div_div_eq_div_mul]
  have e8 : x >>> 8 = x / 256 := by
    rw [Nat.shiftRight_eq_div_pow]
  refine ⟨x / 256 / 256 / 256 % 256, x / 256 / 256 % 256, x / 256 % 256, x % 256,
    by omega, by omega, by omega, by omega, by omega, ?_⟩
  simp only [bigEndian32, e24, e16, e8]

theorem bytesLess_cons_lt (x y : Nat) (xs ys : List Nat) (h : x < y) :
    bytesLess (x :: xs) (y :: ys) = true := by
  simp [bytesLess, h]

theorem bytesLess_cons_gt (x y : Nat) (xs ys : List Nat) (h : y < x) :
    bytesLess (x :: xs) (y :: ys) = false := by
  have h1 : ¬ x < y := by omega
  have h2 : ¬ x = y := by omega
  simp [bytesLess, h1, h2]

theorem bytesLess_cons_eq (x : Nat) (xs ys : List Nat) :
    bytesLess (x :: xs) (x :: ys) = bytesLess xs ys := by
  simp [bytesLess]

theorem lexBool_lt (x y : Nat) (r : Bool) (h : x < y) :
    (decide (x < y) || (x == y && r)) = true := by
  simp [h]

theorem lexBool_gt (x y : Nat) (r : Bool) (h : y < x) :
    (decide (x < y) || (x == y && r)) = false := by
  have h1 : ¬ x < y := by omega
  have h2 : ¬ x = y := by omega
  simp [h1, h2]

theorem lexBool_eq (x : Nat) (r : Bool) : (decide (x < x) || (x == x && r)) = r := by
  simp

theorem bytesLess_bigEndian32 (x y : Nat) (hx : x < 4294967296) (hy : y < 4294967296)
    (t1 t2 : List Nat) :
    bytesLess (bigEndian32 x ++ t1) (bigEndian32 y ++ t2) =
      (decide (x < y) || (x == y && bytesLess t1 t2)) := by
  obtain ⟨b3, b2, b1, b0, hb3, hb2, hb1, hb0, hxe, hxb⟩ := bigEndian32_bytes x hx
  obtain ⟨c3, c2, c1, c0, hc3, hc2, hc1, hc0, hye, hyb⟩ := bigEndian32_bytes y hy
  rw [hxb, hyb]
  simp only [List.cons_append, List.nil_append]
  rcases Nat.lt_trichotomy b3 c3 with h3 | h3 | h3
  · rw [bytesLess_cons_lt _ _ _ _ h3, lexBool_lt x y _ (by omega)]
  · subst h3
    rw [bytesLess_cons_eq]
    rcases Nat.lt_trichotomy b2 c2 with h2 | h2 | h2
    · rw [bytesLess_cons_lt _ _ _ _ h2, lexBool_lt x y _ (by omega)]
    · subst h2
      rw [bytesLess_cons_eq]
      rcases Nat.lt_trichotomy b1 c1 with h1 | h1 | h1
      · rw [bytesLess_cons_lt _ _ _ _ h1, lexBool_lt x y _ (by omega)]
      · subst h1
        rw [bytesLess_cons_eq]
        rcases Nat.lt_trichotomy b0 c0 with h0 | h0 | h0
        · rw [bytesLess_cons_lt _ _ _ _ h0, lexBool_lt x y _ (by omega)]
        · subst h0
          have hxy : x = y := by omega
          subst hxy
          rw [bytesLess_cons_eq, lexBool_eq]
        · rw [bytesLess_cons_gt _ _ _ _ h0, lexBool_gt x y _ (by omega)]
      · rw [bytesLess_cons_gt _ _ _ _ h1, lexBool_gt x y _ (by omega)]
    · rw [bytesLess_cons_gt _ _ _ _ h2, lexBool_gt x y _ (by omega)]
  · rw [bytesLess_cons_gt _ _ _ _ h3, lexBool_gt x y _ (by omega)]

theorem bigEndian32_inj (x y : Nat) (hx : x < 4294967296) (hy : y < 4294967296)
    (t1 t2 : List Nat) (h : bigEndian32 x ++ t1 = bigEndian32 y ++ t2) : x = y ∧ t1 = t2 := by
  obtain ⟨b3, b2, b1, b0, hb3, hb2, hb1, hb0, hxe, hxb⟩ := bigEndian32_bytes x hx
  obtain ⟨c3, c2, c1, c0, hc3, hc2, hc1, hc0, hye, hyb⟩ := bigEndian32_bytes y hy
  rw [hxb, hyb] at h
  simp only [List.cons_append, List.nil_append, List.cons.injEq] at h
  obtain ⟨h3, h2, h1, h0, ht⟩ := h
  exact ⟨by omega, ht⟩

/-- C11: for any two 4-tuples of 32-bit column codes, the byte-wise lexicographic
comparison of their 16-byte big-endian packings, as `Ordinal.Set` writes them,
gives the same result as the lexicographic comparison of the tuples that
compares `r0` with `s0` first: less, equal and greater agree. -/
theorem packCodes_order (b1 b2 : List Nat) (hb1 : b1.length = 16) (hb2 : b2.length = 16)
    (r0 r1 r2 r3 s0 s1 s2 s3 : Nat)
    (hr0 : r0 < 4294967296) (hr1 : r1 < 4294967296) (hr2 : r2 < 4294967296)
    (hr3 : r3 < 4294967296) (hs0 : s0 < 4294967296) (hs1 : s1 < 4294967296)
    (hs2 : s2 < 4294967296) (hs3 : s3 < 4294967296) :
    bytesLess (packCodes b1 r0 r1 r2 r3) (packCodes b2 s0 s1 s2 s3) =
      tupleLess r0 r1 r2 r3 s0 s1 s2 s3 ∧
    bytesLess (packCodes b2 s0 s1 s2 s3) (packCodes b1 r0 r1 r2 r3) =
      tupleLess s0 s1 s2 s3 r0 r1 r2 r3 ∧
    (packCodes b1 r0 r1 r2 r3 = packCodes b2 s0 s1 s2 s3 ↔
      r0 = s0 ∧ r1 = s1 ∧ r2 = s2 ∧ r3 = s3) := by
  have hnil : ∀ v w : Nat, bytesLess (bigEndian32 v) (bigEndian32 w) =
      bytesLess (bigEndian32 v ++ []) (bigEndian32 w ++ []) := fun v w => by
    rw [List.append_nil, List.append_nil]
  have hend : bytesLess [] [] = false := rfl
  unfold packCodes
  rw [bePutUint32_chain b1 hb1, bePutUint32_chain b2 hb2]
  simp only [List.append_assoc]
  refine ⟨?_, ?_, ?_⟩
  · rw [bytesLess_bigEndian32 r0 s0 hr0 hs0, bytesLess_bigEndian32 r1 s1 hr1 hs1,
      bytesLess_bigEndian32 r2 s2 hr2 hs2, hnil, bytesLess_bigEndian32 r3 s3 hr3 hs3, hend]
    simp [tupleLess]
  · rw [bytesLess_bigEndian32 s0 r0 hs0 hr0, bytesLess_bigEndian32 s1 r1 hs1 hr1,
      bytesLess_bigEndian32 s2 r2 hs2 hr2, hnil, bytesLess_bigEndian32 s3 r3 hs3 hr3, hend]
    simp [tupleLess]
  · constructor
    · intro h
      obtain ⟨e0, h⟩ := bigEndian32_inj r0 s0 hr0 hs0 _ _ h
      obtain ⟨e1, h⟩ := bigEndian32_inj r1 s1 hr1 hs1 _ _ h
      obtain ⟨e2, h⟩ := bigEndian32_inj r2 s2 hr2 hs2 _ _ h
      rw [← List.append_nil (bigEndian32 r3), ← List.append_nil (bigEndian32 s3)] at h
      obtain ⟨e3, _⟩ := bigEndian32_inj r3 s3 hr3 hs3 _ _ h
      exact ⟨e0, e1, e2, e3⟩
    · rintro ⟨rfl, rfl, rfl, rfl⟩
      rfl

theorem packCodes_order_witness :
    bytesLess (packCodes (List.replicate 16 0) 1 70000 3 4)
        (packCodes (List.replicate 16 9) 1 70001 0 0) =
      tupleLess 1 70000 3 4 1 70001 0 0 ∧
    bytesLess (packCodes (List.replicate 16 9) 1 70001 0 0)
        (packCodes (List.replicate 16 0) 1 70000 3 4) =
      tupleLess 1 70001 0 0 1 70000 3 4 ∧
    (packCodes (List.replicate 16 0) 1 70000 3 4 = packCodes (List.replicate 16 9) 1 70001 0 0 ↔
      1 = 1 ∧ 70000 = 70001 ∧ 3 = 0 ∧ 4 = 0) :=
  packCodes_order (List.replicate 16 0) (List.replicate 16 9) (List.length_replicate _ _)
    (List.length_replicate _ _) 1 70000 3 4 1 70001 0 0 (by decide) (by decide) (by decide)
    (by decide) (by decide) (by decide) (by decide) (by decide)

/-- The packing is what `Ordinal.Set` returns. -/
theorem Set_eq_packCodes (c : Crypto) (fuel : Nat) (pool : Nat → List Nat) (b : List Nat)
    (value : Nat) (key : List Nat) (hb : b.length = 16) (o : List Nat)
    (h : Ordinal.Set c fuel pool b value key = some o) :
    ∃ r0 r1 r2 r3, columnCode c fuel pool value key 0 = some r0 ∧
      columnCode c fuel pool value key 1 = some r1 ∧
      columnCode c fuel pool value key 2 = some r2 ∧
      columnCode c fuel pool value key 3 = some r3 ∧ o = packCodes b r0 r1 r2 r3 := by
  rw [Set_eq c fuel pool b value key hb] at h
  split at h
  · rename_i r0 r1 r2 r3 h0 h1 h2 h3
    refine ⟨r0, r1, r2, r3, h0, h1, h2, h3, ?_⟩
    rw [packCodes, bePutUint32_chain b hb]
    exact (Option.some.inj h).symm
  · exact absurd h (by simp)

/-! ### The threshold -/

theorem partitionLoop_length (right : Nat) : ∀ (n i left : Nat) (a : List Nat),
    (partitionLoop right n i left a).1.length = a.length := by
  intro n
  induction n with
  | zero => intro i left a; rfl
  | succ n ih =>
    intro i left a
    simp only [partitionLoop]
    split
    · rw [ih]; simp
    · rw [ih]

theorem quicksortPartition_length (a : List Nat) : (quicksortPartition a).1.length = a.length := by
  simp [quicksortPartition, partitionLoop_length]

theorem partitionLoop_left_le (right : Nat) : ∀ (n i left : Nat) (a : List Nat),
    (partitionLoop right n i left a).2 ≤ left + n := by
  intro n
  induction n with
  | zero => intro i left a; exact Nat.le_refl _
  | succ n ih =>
    intro i left a
    simp only [partitionLoop]
    split
    · have := ih (i + 1) (left + 1) ((a.set left (a.getD i 0)).set i (a.getD left 0))
      omega
    · have := ih (i + 1) left a
      omega

theorem quicksortPartition_left_le (a : List Nat) : (quicksortPartition a).2 ≤ a.length := by
  have := partitionLoop_left_le (a.length - 1)
    ((a.set 1 (a.getD (a.length - 1) 0)).set (a.length - 1) (a.getD 1 0)).length 0 0
    ((a.set 1 (a.getD (a.length - 1) 0)).set (a.length - 1) (a.getD 1 0))
  simp only [List.length_set] at this
  simp only [quicksortPartition, List.length_set]
  omega

theorem quicksortSpawns_zero (threshold : Int) : ∀ (fuel : Nat) (a : List Nat),
    (a.length : Int) < threshold → quicksortSpawns threshold fuel a = 0 := by
  intro fuel
  induction fuel with
  | zero => intro a _; rfl
  | succ fuel ih =>
    intro a ha
    have hl := quicksortPartition_length a
    have h1 : ((quicksortPartition a).1.take (quicksortPartition a).2).length ≤ a.length := by
      rw [List.length_take]; omega
    have h2 : ((quicksortPartition a).1.drop ((quicksortPartition a).2 + 1)).length ≤
        a.length := by
      rw [List.length_drop]; omega
    have i1 := ih _ (show (((quicksortPartition a).1.take (quicksortPartition a).2).length : Int)
      < threshold by omega)
    have i2 := ih _ (show (((quicksortPartition a).1.drop
      ((quicksortPartition a).2 + 1)).length : Int) < threshold by omega)
    have h3 := quicksortPartition_left_le a
    simp only [quicksortSpawns, i1, i2]
    split_ifs <;> omega

/-- C12: the threshold computed from the CPU count `nc` is 1048576 when `nc ≤ 2`,
2048 when `nc ≥ 16` and the integer quotient `32768 / nc` otherwise; for
`nc ≤ 2` it exceeds the 32768 entries of the buffer, so the sort of a slice of
at most 32768 entries starts no goroutine. -/
theorem ordinalParallelQuicksortThreshold_cases (nc : Int) :
    (nc ≤ 2 → ordinalParallelQuicksortThreshold nc = 1048576) ∧
    (nc ≥ 16 → ordinalParallelQuicksortThreshold nc = 2048) ∧
    (2 < nc → nc < 16 → ordinalParallelQuicksortThreshold nc = 32768 / nc) ∧
    (nc ≤ 2 → 32768 < ordinalParallelQuicksortThreshold nc ∧
      ∀ (a : List Nat), a.length ≤ 32768 →
        quicksortSpawns (ordinalParallelQuicksortThreshold nc) a.length a = 0) := by
  refine ⟨fun h => ?_, fun h => ?_, fun h1 h2 => ?_, fun h => ?_⟩
  · simp [ordinalParallelQuicksortThreshold, h]
  · unfold ordinalParallelQuicksortThreshold
    rw [if_neg (by omega), if_pos h]
  · unfold ordinalParallelQuicksortThreshold
    rw [if_neg (by omega), if_neg (by omega)]
  · have ht : ordinalParallelQuicksortThreshold nc = 1048576 := by
      simp [ordinalParallelQuicksortThreshold, h]
    rw [ht]
    exact ⟨by decide, fun a ha => quicksortSpawns_zero _ _ a (by omega)⟩

theorem ordinalParallelQuicksortThreshold_cases_witness :
    ordinalParallelQuicksortThreshold 2 = 1048576 ∧
    ordinalParallelQuicksortThreshold 4 = 32768 / 4 ∧
    quicksortSpawns (ordinalParallelQuicksortThreshold 2) [3, 1, 2, 5, 4].length
      [3, 1, 2, 5, 4] = 0 :=
  ⟨(ordinalParallelQuicksortThreshold_cases 2).1 (by decide),
    (ordinalParallelQuicksortThreshold_cases 4).2.2.1 (by decide) (by decide),
    ((ordinalParallelQuicksortThreshold_cases 2).2.2.2 (by decide)).2 [3, 1, 2, 5, 4]
      (by decide)⟩

/-! ### The weight of a query result -/

theorem executeWeight_words (weightL weightH : Nat) :
    executeWeight weightL weightH = [0, weightH % 4294967296, 0, weightL % 4294967296] := by
  have h : ∀ v : Nat, v <<< 32 % 18446744073709551616 % 4294967296 = 0 := fun v => by
    rw [Nat.shiftLeft_eq]
    omega
  simp only [executeWeight, h]

/-- C13, evaluated at the failing input: for `weightH = 2^32` and `weightL = 2^32`
the high 32 bits of both are 1, and all four words of `Weight` are 0. -/
theorem executeWeight_drops_high_words :
    executeWeight 4294967296 4294967296 = [0, 0, 0, 0] ∧
    4294967296 / 4294967296 % 4294967296 = 1 := by
  rw [executeWeight_words]
  exact ⟨rfl, rfl⟩

/-! ### The code of a column value -/

theorem interpModulus_repaired (a : List Nat) (hlen : a.length = 32768)
    (hlast : (gapRepair a).getD 32767 0 < 4294967294) (h : Nat) (hh : h ≤ 32767) :
    interpModulus (gapRepair a) h ((gapRepair a).getD h 0) ≠ 0 := by
  unfold interpModulus
  split
  · rename_i h1
    rw [h1]
    unfold not32
    omega
  · have hd := gapRepair_diff a hlen (h + 1) (by omega) (by omega)
    simp only [Nat.add_sub_cancel] at hd
    unfold sub32 at *
    omega

theorem not32_eq (x : Nat) (hx : x < 4294967296) : not32 x = 4294967295 - x := by
  unfold not32
  rw [Nat.mod_eq_of_lt hx]

/-- C17: for an alphabet that left the gap repair and passed the range check, the
code that `ordinal16to32` returns for the column value `v`, with `half = v >> 1`
and `rv = alphabet[half]`, is `rv` when `v` is even, is
`rv + (rn mod ((alphabet[half+1] - rv) - 1)) + 1` in 32-bit arithmetic when `v` is
odd and `half < 32767` (and the same in the integers when
`rv + 2 ≤ alphabet[half+1] < 2^32`), and is `rv + (rn mod (0xFFFFFFFF - rv)) + 1`
without wrap-around when `v = 0xFFFF`; the complement `^rv` of the code equals
`0xFFFFFFFF - rv` for every 32-bit `rv`. -/
theorem lookup_formula (enc : List Nat → List Nat) (aesTmp a : List Nat) (vm v : Nat)
    (hlen : a.length = 32768)
    (hcheck : (gapRepair a).getD 32767 0 > (gapRepair a).getD 0 0 ∧
      (gapRepair a).getD 32767 0 < 0xfffffffe)
    (hv : v ≤ 0xffff) :
    (v % 2 = 0 → lookup enc aesTmp (gapRepair a) vm v = some ((gapRepair a).getD (v >>> 1) 0)) ∧
    (v % 2 = 1 → v >>> 1 < 32767 →
      lookup enc aesTmp (gapRepair a) vm v =
        some (add32 (add32 ((gapRepair a).getD (v >>> 1) 0)
          (leUint32 (enc (lePutUint64 aesTmp vm)) 0 %
            sub32 (sub32 ((gapRepair a).getD (v >>> 1 + 1) 0) ((gapRepair a).getD (v >>> 1) 0))
              1)) 1)) ∧
    (v % 2 = 1 → v >>> 1 < 32767 →
      (gapRepair a).getD (v >>> 1) 0 + 2 ≤ (gapRepair a).getD (v >>> 1 + 1) 0 →
      (gapRepair a).getD (v >>> 1 + 1) 0 < 4294967296 →
      lookup enc aesTmp (gapRepair a) vm v =
        some ((gapRepair a).getD (v >>> 1) 0 +
          leUint32 (enc (lePutUint64 aesTmp vm)) 0 %
            ((gapRepair a).getD (v >>> 1 + 1) 0 - (gapRepair a).getD (v >>> 1) 0 - 1) + 1)) ∧
    (v = 0xffff →
      lookup enc aesTmp (gapRepair a) vm v =
        some ((gapRepair a).getD 32767 0 +
          leUint32 (enc (lePutUint64 aesTmp vm)) 0 % (0xffffffff - (gapRepair a).getD 32767 0)
            + 1)) ∧
    (∀ rv, rv < 4294967296 → not32 rv = 0xffffffff - rv) := by
  have hs : v >>> 1 = v / 2 := by simp [Nat.shiftRight_eq_div_pow]
  have ha : v &&& 1 = v % 2 := Nat.and_one_is_mod v
  have hne := interpModulus_repaired a hlen hcheck.2 (v / 2) (by omega)
  have hodd : v % 2 = 1 → lookup enc aesTmp (gapRepair a) vm v =
      some (add32 (add32 ((gapRepair a).getD (v / 2) 0)
        (leUint32 (enc (lePutUint64 aesTmp vm)) 0 %
          interpModulus (gapRepair a) (v / 2) ((gapRepair a).getD (v / 2) 0))) 1) := by
    intro h1
    unfold lookup
    simp only [hs, ha]
    rw [if_pos (by omega)]
    unfold interpolate
    rw [if_neg hne]
  rw [hs]
  refine ⟨fun h0 => ?_, fun h1 hh => ?_, fun h1 hh hg hu => ?_, fun hmax => ?_,
    fun rv hrv => not32_eq rv hrv⟩
  · unfold lookup
    simp only [hs, ha]
    rw [if_neg (by omega)]
  · rw [hodd h1]
    unfold interpModulus
    rw [if_neg (by omega)]
  · rw [hodd h1]
    have hm : interpModulus (gapRepair a) (v / 2) ((gapRepair a).getD (v / 2) 0) =
        (gapRepair a).getD (v / 2 + 1) 0 - (gapRepair a).getD (v / 2) 0 - 1 := by
      unfold interpModulus sub32
      rw [if_neg (by omega)]
      omega
    rw [hm] at hne ⊢
    have hlt := Nat.mod_lt (leUint32 (enc (lePutUint64 aesTmp vm)) 0) (Nat.pos_of_ne_zero hne)
    unfold add32
    congr 1
    omega
  · have hv2 : v / 2 = 32767 := by omega
    rw [hodd (by omega), hv2]
    rw [hv2] at hne
    have hm : interpModulus (gapRepair a) 32767 ((gapRepair a).getD 32767 0) =
        4294967295 - (gapRepair a).getD 32767 0 := by
      unfold interpModulus not32
      rw [if_pos rfl]
      omega
    rw [hm] at hne ⊢
    have hlt := Nat.mod_lt (leUint32 (enc (lePutUint64 aesTmp vm)) 0) (Nat.pos_of_ne_zero hne)
    unfold add32
    congr 1
    omega

theorem lookup_formula_witness :
    lookup flipEnc (List.replicate 16 0) (gapRepair (List.replicate 32768 0)) 0 6 =
      some ((gapRepair (List.replicate 32768 0)).getD (6 >>> 1) 0) :=
  (lookup_formula flipEnc (List.replicate 16 0) (List.replicate 32768 0) 0 6
    (List.length_replicate _ _)
    ⟨by rw [gapRepair_zeros 32767 (by decide), gapRepair_zeros 0 (by decide)]; decide,
      by rw [gapRepair_zeros 32767 (by decide)]; decide⟩
    (by decide)).1 (by decide)

/-! ### The entries written by the fill -/

theorem streamBlock_shift (enc : List Nat → List Nat) (aesTmp : List Nat) :
    ∀ j, streamBlock enc (enc aesTmp) j = streamBlock enc aesTmp (j + 1) := by
  intro j
  induction j with
  | zero => rfl
  | succ j ih =>
    show enc (streamBlock enc (enc aesTmp) j) = enc (streamBlock enc aesTmp (j + 1))
    rw [ih]

theorem fillLoop_below (enc : List Nat → List Nat) (rbase : Nat) :
    ∀ (n i : Nat) (aesTmp alphabet : List Nat) (k : Nat), k < i →
      (fillLoop enc rbase n i aesTmp alphabet).2.getD k 0 = alphabet.getD k 0 := by
  intro n
  induction n with
  | zero => intro i aesTmp alphabet k _; rfl
  | succ n ih =>
    intro i aesTmp alphabet k hk
    simp only [fillLoop]
    rw [ih _ _ _ k (by omega), getD_set_eq, getD_set_eq, getD_set_eq, getD_set_eq,
      if_neg (by omega), if_neg (by omega), if_neg (by omega), if_neg (by omega)]

theorem fillLoop_register (enc : List Nat → List Nat) (rbase : Nat) :
    ∀ (n i : Nat) (aesTmp alphabet : List Nat),
      (fillLoop enc rbase (n + 1) i aesTmp alphabet).1 = streamBlock enc aesTmp n := by
  intro n
  induction n with
  | zero => intro i aesTmp alphabet; rfl
  | succ n ih =>
    intro i aesTmp alphabet
    rw [fillLoop, ih, streamBlock_shift]

/-- Entry `k` of the alphabet after the fill is word `k mod 4` of the block of round
`k / 4`, masked to 31 bits and offset by `rbase`. -/
theorem fillLoop_entry (enc : List Nat → List Nat) (rbase : Nat) :
    ∀ (n i : Nat) (aesTmp alphabet : List Nat), i + 4 * n ≤ alphabet.length →
      ∀ k, i ≤ k → k < i + 4 * n →
        (fillLoop enc rbase n i aesTmp alphabet).2.getD k 0 =
          add32 (leUint32 (streamBlock enc aesTmp ((k - i) / 4)) (4 * ((k - i) % 4)) &&&
            0x7fffffff) rbase := by
  intro n
  induction n with
  | zero => intro i aesTmp alphabet _ k h1 h2; omega
  | succ n ih =>
    intro i aesTmp alphabet hlen k hk1 hk2
    simp only [fillLoop]
    rcases Nat.lt_or_ge k (i + 4) with h | h
    · rw [fillLoop_below _ _ _ _ _ _ k h]
      have hd : (k - i) / 4 = 0 := by omega
      rw [hd]
      have hc : k = i ∨ k = i + 1 ∨ k = i + 2 ∨ k = i + 3 := by omega
      rcases hc with rfl | rfl | rfl | rfl
      · rw [getD_set_eq, if_neg (by omega), getD_set_eq, if_neg (by omega), getD_set_eq,
          if_neg (by omega), getD_set_eq, if_pos ⟨rfl, by omega⟩, Nat.sub_self]
        rfl
      · rw [getD_set_eq, if_neg (by omega), getD_set_eq, if_neg (by omega), getD_set_eq,
          if_pos ⟨rfl, by simp; omega⟩, Nat.add_sub_cancel_left]
        rfl
      · rw [getD_set_eq, if_neg (by omega), getD_set_eq,
          if_pos ⟨rfl, by simp; omega⟩, Nat.add_sub_cancel_left]
        rfl
      · rw [getD_set_eq, if_pos ⟨rfl, by simp; omega⟩, Nat.add_sub_cancel_left]
        rfl
    · rw [ih (i + 4) _ _ (by simp; omega) k h (by omega), streamBlock_shift]
      have h1 : (k - (i + 4)) / 4 + 1 = (k - i) / 4 := by omega
      have h2 : (k - (i + 4)) % 4 = (k - i) % 4 := by omega
      rw [h1, h2]

/-- C20: in `ordinal16to32`, `rbase` is at most `0x80000000`, and every alphabet entry
written by a fill equals `(w & 0x7FFFFFFF) + rbase` for its little-endian cipher
word `w` (word `k mod 4` of the block of round `k / 4`) without 32-bit
wrap-around, so it lies between `rbase` and `rbase + 0x7FFFFFFF` and does not
exceed `0xFFFFFFFF`. -/
theorem fill_entries_bounded (c : Crypto) (fuel : Nat) (pool : List Nat) (vm cv kk : Nat)
    (keyHash aesTmp alphabet : List Nat) (hlen : alphabet.length = 32768) :
    ordinalRbase c kk keyHash ≤ 0x80000000 ∧
    ordinal16to32 c fuel pool vm cv kk keyHash =
      ordinal16to32Loop (c.encrypt ((keyHash.drop (16 * kk)).take 16))
        (ordinalRbase c kk keyHash) vm cv fuel
        (c.encrypt ((keyHash.drop (16 * kk)).take 16) (List.replicate 16 0)) pool ∧
    ∀ k, k < 32768 →
      (fillLoop (c.encrypt ((keyHash.drop (16 * kk)).take 16)) (ordinalRbase c kk keyHash) 8192 0
          aesTmp alphabet).2.getD k 0 =
        (leUint32 (streamBlock (c.encrypt ((keyHash.drop (16 * kk)).take 16)) aesTmp (k / 4))
          (4 * (k % 4)) &&& 0x7fffffff) + ordinalRbase c kk keyHash ∧
      ordinalRbase c kk keyHash ≤
        (fillLoop (c.encrypt ((keyHash.drop (16 * kk)).take 16)) (ordinalRbase c kk keyHash)
          8192 0 aesTmp alphabet).2.getD k 0 ∧
      (fillLoop (c.encrypt ((keyHash.drop (16 * kk)).take 16)) (ordinalRbase c kk keyHash) 8192 0
          aesTmp alphabet).2.getD k 0 ≤ ordinalRbase c kk keyHash + 0x7fffffff ∧
      (fillLoop (c.encrypt ((keyHash.drop (16 * kk)).take 16)) (ordinalRbase c kk keyHash) 8192 0
          aesTmp alphabet).2.getD k 0 ≤ 0xffffffff := by
  have hr : ordinalRbase c kk keyHash ≤ 0x80000000 := by
    unfold ordinalRbase
    have := Nat.mod_lt (leUint32 (c.encrypt ((keyHash.drop (16 * kk)).take 16)
      (List.replicate 16 0)) 0) (show 0 < 0x7fffffff + 2 by decide)
    omega
  refine ⟨hr, rfl, fun k hk => ?_⟩
  have he := fillLoop_entry (c.encrypt ((keyHash.drop (16 * kk)).take 16))
    (ordinalRbase c kk keyHash) 8192 0 aesTmp alphabet (by omega) k (Nat.zero_le _) (by omega)
  rw [Nat.sub_zero] at he
  have hw : leUint32 (streamBlock (c.encrypt ((keyHash.drop (16 * kk)).take 16)) aesTmp (k / 4))
      (4 * (k % 4)) &&& 0x7fffffff ≤ 0x7fffffff := Nat.and_le_right
  rw [he]
  unfold add32
  omega

theorem fill_entries_bounded_witness :
    ordinalRbase flipCrypto 3 [] ≤ 0x80000000 ∧
    ordinal16to32 flipCrypto 1 (freshPool 3) 0 4 3 [] =
      ordinal16to32Loop (flipCrypto.encrypt ((([] : List Nat).drop (16 * 3)).take 16))
        (ordinalRbase flipCrypto 3 []) 0 4 1
        (flipCrypto.encrypt ((([] : List Nat).drop (16 * 3)).take 16) (List.replicate 16 0))
        (freshPool 3) ∧
    ∀ k, k < 32768 →
      (fillLoop (flipCrypto.encrypt ((([] : List Nat).drop (16 * 3)).take 16))
          (ordinalRbase flipCrypto 3 []) 8192 0 (List.replicate 16 0) (freshPool 3)).2.getD k 0 =
        (leUint32 (streamBlock (flipCrypto.encrypt ((([] : List Nat).drop (16 * 3)).take 16))
          (List.replicate 16 0) (k / 4)) (4 * (k % 4)) &&& 0x7fffffff) +
          ordinalRbase flipCrypto 3 [] ∧
      ordinalRbase flipCrypto 3 [] ≤
        (fillLoop (flipCrypto.encrypt ((([] : List Nat).drop (16 * 3)).take 16))
          (ordinalRbase flipCrypto 3 []) 8192 0 (List.replicate 16 0) (freshPool 3)).2.getD k 0 ∧
      (fillLoop (flipCrypto.encrypt ((([] : List Nat).drop (16 * 3)).take 16))
          (ordinalRbase flipCrypto 3 []) 8192 0 (List.replicate 16 0) (freshPool 3)).2.getD k 0 ≤
        ordinalRbase flipCrypto 3 [] + 0x7fffffff ∧
      (fillLoop (flipCrypto.encrypt ((([] : List Nat).drop (16 * 3)).take 16))
          (ordinalRbase flipCrypto 3 []) 8192 0 (List.replicate 16 0) (freshPool 3)).2.getD k 0 ≤
        0xffffffff :=
  fill_entries_bounded flipCrypto 1 (freshPool 3) 0 4 3 [] (List.replicate 16 0) (freshPool 3)
    (freshPool_length 3)

/-! ### The first conjunct of the range check -/

theorem gapRepairLoop_const (x : Nat) (hx : x < 4294967296) :
    ∀ (n i : Nat) (a : List Nat), 1 ≤ i → i + n ≤ a.length →
    (∀ k, i ≤ k → k < a.length → a.getD k 0 = x) →
    a.getD (i - 1) 0 = (if (i - 1) % 2 = 1 then add32 x 2 else x) →
    ∀ k, i ≤ k → k < i + n →
      (gapRepairLoop n i a).getD k 0 = if k % 2 = 1 then add32 x 2 else x := by
  intro n
  induction n with
  | zero => intro i a _ _ _ _ k h1 h2; omega
  | succ n ih =>
    intro i a hi hlen hz hp k hk1 hk2
    have hai := hz i (Nat.le_refl _) (by omega)
    rw [gapRepairLoop_succ, hai, hp]
    by_cases hpar : (i - 1) % 2 = 1
    · rw [if_pos hpar, if_neg (by unfold sub32 add32; omega)]
      rcases Nat.lt_or_ge i k with h | h
      · exact ih (i + 1) a (by omega) (by omega) (fun j hj hj2 => hz j (by omega) hj2)
          (by rw [Nat.add_sub_cancel, hai, if_neg (by omega)]) k (by omega) (by omega)
      · have hki : k = i := by omega
        subst hki
        rw [gapRepairLoop_below _ _ _ k (by omega), hai, if_neg (by omega)]
    · rw [if_neg hpar, if_pos (by unfold sub32; omega)]
      have hset : (a.set i (add32 x 2)).getD i 0 = add32 x 2 := by
        rw [getD_set_eq, if_pos ⟨rfl, by omega⟩]
      rcases Nat.lt_or_ge i k with h | h
      · exact ih (i + 1) _ (by omega) (by simp; omega)
          (fun j hj hj2 => by
            rw [getD_set_eq, if_neg (by omega)]
            exact hz j (by omega) (by simpa using hj2))
          (by rw [Nat.add_sub_cancel, hset, if_pos (by omega)]) k (by omega) (by omega)
      · have hki : k = i := by omega
        subst hki
        rw [gapRepairLoop_below _ _ _ k (by omega), hset, if_pos (by omega)]

theorem gapRepair_const (x : Nat) (hx : x < 4294967296) (a : List Nat) (hlen : a.length = 32768)
    (hall : ∀ k, k < 32768 → a.getD k 0 = x) (k : Nat) (hk : k < 32768) :
    (gapRepair a).getD k 0 = if k % 2 = 1 then add32 x 2 else x := by
  rcases Nat.eq_zero_or_pos k with h | h
  · subst h
    unfold gapRepair
    rw [gapRepairLoop_below _ _ _ 0 (by omega), hall 0 (by omega)]
    rfl
  · exact gapRepairLoop_const x hx 32767 1 a (Nat.le_refl _) (by omega)
      (fun j _ hj => hall j (by omega)) (by rw [hall 0 (by omega)]; rfl) k h (by omega)

theorem gapRepairLoop_entry : ∀ (n i : Nat) (a : List Nat) (k : Nat),
    (gapRepairLoop n i a).getD k 0 = a.getD k 0 ∨
      (gapRepairLoop n i a).getD k 0 = add32 (a.getD k 0) 2 := by
  intro n
  induction n with
  | zero => intro i a k; exact Or.inl rfl
  | succ n ih =>
    intro i a k
    rw [gapRepairLoop_succ]
    split
    · rcases Nat.lt_or_ge k (i + 1) with h | h
      · rw [gapRepairLoop_below _ _ _ k h, getD_set_eq]
        split
        · rename_i hc
          rw [hc.1]
          exact Or.inr rfl
        · exact Or.inl rfl
      · have := ih (i + 1) (a.set i (add32 (a.getD i 0) 2)) k
        rw [getD_set_eq, if_neg (by omega)] at this
        exact this
    · exact ih (i + 1) a k

theorem sorted_getD_le (s : List Nat) (hs : s.Sorted (· ≤ ·)) (i j : Nat) (hij : i ≤ j)
    (hj : j < s.length) : s.getD i 0 ≤ s.getD j 0 := by
  rw [getD_of_lt s i (by omega), getD_of_lt s j hj]
  exact List.Sorted.rel_get_of_le hs (a := ⟨i, by omega⟩) (b := ⟨j, hj⟩) hij

/-- C19, as amended: for every 32768-entry alphabet whose entries are at most
`0xFFFFFFFD`, after the sort and the gap repair `alphabet[32767] > alphabet[0]`
holds, so that the first conjunct of the range check does not cause a retry. -/
theorem first_conjunct_holds (a : List Nat) (hlen : a.length = 32768)
    (hmax : ∀ v ∈ a, v ≤ 0xfffffffd) :
    (gapRepair (ordinalParallelQuicksort a)).getD 32767 0 >
      (gapRepair (ordinalParallelQuicksort a)).getD 0 0 := by
  have hsp : (ordinalParallelQuicksort a).Sorted (· ≤ ·) ∧ (ordinalParallelQuicksort a).Perm a :=
    quicksortFuel_spec a.length a (Nat.le_refl _) (by omega)
  obtain ⟨hsorted, hperm⟩ := hsp
  have hslen : (ordinalParallelQuicksort a).length = 32768 := by
    rw [ordinalParallelQuicksort_length a (by omega), hlen]
  have hsmax : ∀ k, k < 32768 → (ordinalParallelQuicksort a).getD k 0 ≤ 0xfffffffd := by
    intro k hk
    rw [getD_of_lt _ k (by omega)]
    exact hmax _ (hperm.mem_iff.mp (List.getElem_mem _))
  have h0 : (gapRepair (ordinalParallelQuicksort a)).getD 0 0 =
      (ordinalParallelQuicksort a).getD 0 0 := gapRepairLoop_below _ _ _ 0 (by omega)
  have hl := hsmax 32767 (by omega)
  rcases Nat.lt_or_ge ((ordinalParallelQuicksort a).getD 0 0)
    ((ordinalParallelQuicksort a).getD 32767 0) with h | h
  · rw [h0]
    rcases gapRepairLoop_entry 32767 1 (ordinalParallelQuicksort a) 32767 with e | e
    · unfold gapRepair
      rw [e]
      exact h
    · unfold gapRepair
      rw [e]
      unfold add32
      omega
  · have hall : ∀ k, k < 32768 → (ordinalParallelQuicksort a).getD k 0 =
        (ordinalParallelQuicksort a).getD 0 0 := by
      intro k hk
      have h1 := sorted_getD_le _ hsorted 0 k (Nat.zero_le _) (by omega)
      have h2 := sorted_getD_le _ hsorted k 32767 (by omega) (by omega)
      omega
    have h00 := hsmax 0 (by omega)
    rw [gapRepair_const _ (by omega) _ hslen hall 32767 (by omega),
      gapRepair_const _ (by omega) _ hslen hall 0 (by omega)]
    rw [if_pos (by decide), if_neg (by decide)]
    unfold add32
    omega

theorem first_conjunct_holds_witness :
    (gapRepair (ordinalParallelQuicksort (List.replicate 32768 7))).getD 32767 0 >
      (gapRepair (ordinalParallelQuicksort (List.replicate 32768 7))).getD 0 0 :=
  first_conjunct_holds (List.replicate 32768 7) (List.length_replicate _ _)
    (fun v hv => by rw [List.eq_of_mem_replicate hv]; decide)

theorem wrapEnc_stream : ∀ j, streamBlock wrapEnc (wrapEnc (List.replicate 16 0)) j =
    [254, 255, 255, 127, 254, 255, 255, 127, 254, 255, 255, 127, 254, 255, 255, 127] := by
  intro j
  induction j with
  | zero => decide
  | succ j ih =>
    show wrapEnc (streamBlock wrapEnc (wrapEnc (List.replicate 16 0)) j) = _
    rw [ih]
    decide

theorem wrap_fill (pool : List Nat) (hp : pool.length = 32768) :
    (fillLoop wrapEnc 0x80000000 8192 0 (wrapEnc (List.replicate 16 0)) pool).2 =
      List.replicate 32768 0xfffffffe := by
  apply ext_getD
  · rw [fillLoop_length, hp, List.length_replicate]
  · intro k hk
    rw [fillLoop_length, hp] at hk
    rw [fillLoop_entry wrapEnc 0x80000000 8192 0 _ pool (by omega) k (Nat.zero_le _) (by omega),
      wrapEnc_stream, Nat.sub_zero]
    have hr : (List.replicate 32768 4294967294).getD k 0 = 4294967294 := by
      simp only [List.getD_eq_getElem?_getD, List.getElem?_replicate, if_pos hk,
        Option.getD_some]
    rw [hr]
    have hc : k % 4 = 0 ∨ k % 4 = 1 ∨ k % 4 = 2 ∨ k % 4 = 3 := by omega
    rcases hc with h | h | h | h <;> rw [h] <;> decide

/-- C19, the claim as stated fails: with `wrapEnc` as the cipher `rbase` is
`0x80000000` and the fill writes `0xFFFFFFFE` to every entry; after the sort and
the gap repair `alphabet[32767]` has wrapped around to 0 and is not above
`alphabet[0] = 0xFFFFFFFE`, while the second conjunct of the range check holds. -/
theorem first_conjunct_fails :
    ordinalRbase wrapCrypto 0 [] = 0x80000000 ∧
    (gapRepair (ordinalParallelQuicksort
      (fillLoop wrapEnc 0x80000000 8192 0 (wrapEnc (List.replicate 16 0))
        (freshPool 0)).2)).getD 32767 0 = 0 ∧
    (gapRepair (ordinalParallelQuicksort
      (fillLoop wrapEnc 0x80000000 8192 0 (wrapEnc (List.replicate 16 0))
        (freshPool 0)).2)).getD 0 0 = 0xfffffffe ∧
    ¬ ((gapRepair (ordinalParallelQuicksort
      (fillLoop wrapEnc 0x80000000 8192 0 (wrapEnc (List.replicate 16 0))
        (freshPool 0)).2)).getD 32767 0 >
      (gapRepair (ordinalParallelQuicksort
        (fillLoop wrapEnc 0x80000000 8192 0 (wrapEnc (List.replicate 16 0))
          (freshPool 0)).2)).getD 0 0) := by
  have hsort : ordinalParallelQuicksort (List.replicate 32768 0xfffffffe) =
      List.replicate 32768 0xfffffffe :=
    List.perm_replicate.mp
      (quicksortFuel_spec _ _ (Nat.le_refl _) (by rw [List.length_replicate]; omega)).2
  have hall : ∀ k, k < 32768 → (List.replicate 32768 0xfffffffe).getD k 0 = 0xfffffffe := by
    intro k hk
    simp only [List.getD_eq_getElem?_getD, List.getElem?_replicate, if_pos hk,
      Option.getD_some]
  have e1 := gapRepair_const 0xfffffffe (by decide) _ (List.length_replicate _ _) hall 32767
    (by decide)
  have e0 := gapRepair_const 0xfffffffe (by decide) _ (List.length_replicate _ _) hall 0
    (by decide)
  rw [wrap_fill _ (freshPool_length 0), hsort, e1, e0]
  refine ⟨by decide, by decide, by decide, by decide⟩

/-! ### The block encrypted for the interpolation -/

theorem ordinal16to32Loop_eq_bind (enc : List Nat → List Nat) (rbase vm cv : Nat) :
    ∀ (fuel : Nat) (aesTmp alphabet : List Nat),
      ordinal16to32Loop enc rbase vm cv fuel aesTmp alphabet =
        (lookupState enc rbase fuel aesTmp alphabet).bind
          (fun s => lookup enc s.1 s.2 vm cv) := by
  intro fuel
  induction fuel with
  | zero => intro aesTmp alphabet; rfl
  | succ fuel ih =>
    intro aesTmp alphabet
    rw [ordinal16to32Loop, lookupState]
    split
    · rw [Option.some_bind]
    · exact ih _ _

theorem fillLoop_register_eq (enc : List Nat → List Nat) (rbase n m : Nat) (h : n = m + 1)
    (i : Nat) (aesTmp alphabet : List Nat) :
    (fillLoop enc rbase n i aesTmp alphabet).1 = streamBlock enc aesTmp m := by
  subst h
  exact fillLoop_register enc rbase m i aesTmp alphabet

theorem streamBlock_length (enc : List Nat → List Nat)
    (henc : ∀ b, b.length = 16 → (enc b).length = 16) (t : List Nat) (ht : t.length = 16) :
    ∀ j, (streamBlock enc t j).length = 16 := by
  intro j
  induction j with
  | zero => exact henc t ht
  | succ j ih => exact henc _ ih

theorem lookupState_register (enc : List Nat → List Nat)
    (henc : ∀ b, b.length = 16 → (enc b).length = 16) (rbase : Nat) :
    ∀ (fuel : Nat) (aesTmp alphabet : List Nat) (s : List Nat × List Nat),
      aesTmp.length = 16 → lookupState enc rbase fuel aesTmp alphabet = some s →
        ∃ t0, t0.length = 16 ∧ s.1 = streamBlock enc t0 8191 := by
  intro fuel
  induction fuel with
  | zero => intro aesTmp alphabet s _ h; exact absurd h (by simp [lookupState])
  | succ fuel ih =>
    intro aesTmp alphabet s ht h
    have hreg := fillLoop_register_eq enc rbase 8192 8191 (by norm_num) 0 aesTmp alphabet
    rw [lookupState] at h
    split at h
    · refine ⟨aesTmp, ht, ?_⟩
      rw [← Option.some.inj h]
      dsimp only
      exact hreg
    · exact ih _ _ s (by rw [hreg]; exact streamBlock_length enc henc aesTmp ht 8191) h

theorem lePutUint64_eq (b : List Nat) (hb : b.length = 16) (v : Nat) :
    lePutUint64 b v = littleEndian64 v ++ b.drop 8 := by
  obtain ⟨x0, x1, x2, x3, x4, x5, x6, x7, x8, x9, x10, x11, x12, x13, x14, x15, rfl⟩ :=
    length_sixteen b hb
  rfl

/-- C18, as amended: in the odd-value lookup of `ordinal16to32`, the 16-byte block
that is encrypted to obtain `rn` consists of `valueMaskedToColumn` in
little-endian order in bytes 0..8 and, in bytes 8..16, of bytes 8..16 of the
register as the fill of the round that passed the range check left it, which
is the last cipher block of that fill, for every cipher on 16-byte blocks,
every column and every value. -/
theorem interpolationBlock_layout (enc : List Nat → List Nat)
    (henc : ∀ b, b.length = 16 → (enc b).length = 16) (rbase vm cv fuel : Nat)
    (aesTmp alphabet : List Nat) (ht : aesTmp.length = 16) :
    ordinal16to32Loop enc rbase vm cv fuel aesTmp alphabet =
      (lookupState enc rbase fuel aesTmp alphabet).bind (fun s => lookup enc s.1 s.2 vm cv) ∧
    (∀ s : List Nat × List Nat, lookupState enc rbase fuel aesTmp alphabet = some s →
      interpolationBlock enc rbase vm fuel aesTmp alphabet =
        some (littleEndian64 vm ++ s.1.drop 8) ∧
      (cv &&& 1 ≠ 0 → lookup enc s.1 s.2 vm cv =
        interpolate s.2 (cv >>> 1) (s.2.getD (cv >>> 1) 0)
          (leUint32 (enc (littleEndian64 vm ++ s.1.drop 8)) 0)) ∧
      ∃ t0, t0.length = 16 ∧ s.1 = streamBlock enc t0 8191) ∧
    (interpolationBlock enc rbase vm fuel aesTmp alphabet).isSome =
      (lookupState enc rbase fuel aesTmp alphabet).isSome := by
  refine ⟨ordinal16to32Loop_eq_bind enc rbase vm cv fuel aesTmp alphabet, fun s hs => ?_, ?_⟩
  · obtain ⟨t0, hl0, ht0⟩ := lookupState_register enc henc rbase fuel aesTmp alphabet s ht hs
    have hlen : s.1.length = 16 := by rw [ht0]; exact streamBlock_length enc henc t0 hl0 8191
    refine ⟨?_, fun h => ?_, t0, hl0, ht0⟩
    · unfold interpolationBlock
      rw [hs, Option.map_some', lePutUint64_eq _ hlen]
    · unfold lookup
      rw [if_pos h, lePutUint64_eq _ hlen]
  · unfold interpolationBlock
    rw [Option.isSome_map']

theorem flipEnc_length (b : List Nat) (hb : b.length = 16) : (flipEnc b).length = 16 := by
  simp [flipEnc, hb]

theorem flipEnc_twice (t : List Nat)
    (ht : t = List.replicate 16 0 ∨ t = flipEnc (List.replicate 16 0)) :
    flipEnc (flipEnc t) = t := by
  rcases ht with h | h <;> subst h <;> decide

theorem streamBlock_flip (t : List Nat)
    (ht : t = List.replicate 16 0 ∨ t = flipEnc (List.replicate 16 0)) :
    ∀ m, streamBlock flipEnc t (2 * m + 1) = t := by
  intro m
  induction m with
  | zero => exact flipEnc_twice t ht
  | succ m ih =>
    show flipEnc (flipEnc (streamBlock flipEnc t (2 * m + 1))) = t
    rw [ih]
    exact flipEnc_twice t ht

theorem fillLoop_flip_fresh (pool : List Nat) (hp : pool.length = 32768) :
    fillLoop flipEnc 0 8192 0 (flipEnc (List.replicate 16 0)) pool =
      (flipEnc (List.replicate 16 0), List.replicate 32768 0) := by
  have h1 : (fillLoop flipEnc 0 8192 0 (flipEnc (List.replicate 16 0)) pool).1 =
      flipEnc (List.replicate 16 0) := by
    rw [fillLoop_register_eq flipEnc 0 8192 8191 (by norm_num) 0 _ pool]
    exact streamBlock_flip _ (Or.inr rfl) 4095
  have h2 : (fillLoop flipEnc 0 8192 0 (flipEnc (List.replicate 16 0)) pool).2 =
      List.replicate 32768 0 := by
    rw [fillLoop_congr flipEnc 0 8192 0 _ pool (List.replicate 32768 0)
      (by rw [hp, List.length_replicate]) (fun k hk => absurd hk (Nat.not_lt_zero k))
      (by omega)]
    exact fillLoop_flip 32768 8192 0 _ (Or.inr rfl)
  exact Prod.ext h1 h2

theorem lookupState_flip (k : Nat) :
    lookupState flipEnc 0 1 (flipEnc (List.replicate 16 0)) (freshPool k) =
      some (flipEnc (List.replicate 16 0), gapRepair (List.replicate 32768 0)) := by
  have hsort : ordinalParallelQuicksort (List.replicate 32768 0) = List.replicate 32768 0 :=
    List.perm_replicate.mp
      (quicksortFuel_spec _ _ (Nat.le_refl _) (by rw [List.length_replicate]; omega)).2
  show lookupState flipEnc 0 (0 + 1) (flipEnc (List.replicate 16 0)) (freshPool k) = _
  rw [lookupState, fillLoop_flip_fresh _ (freshPool_length k)]
  simp only []
  rw [hsort, gapRepair_zeros 32767 (by decide), gapRepair_zeros 0 (by decide),
    if_pos (by decide)]

theorem interpolationBlock_layout_witness :
    interpolationBlock flipEnc 0 5 1 (flipEnc (List.replicate 16 0)) (freshPool 3) =
      some (littleEndian64 5 ++ (flipEnc (List.replicate 16 0)).drop 8) :=
  ((interpolationBlock_layout flipEnc flipEnc_length 0 5 7 1 (flipEnc (List.replicate 16 0))
    (freshPool 3) (flipEnc_length _ (List.length_replicate _ _))).2.1
      (flipEnc (List.replicate 16 0), gapRepair (List.replicate 32768 0))
      (lookupState_flip 3)).1

/-- C18, the claim as stated fails: with `flipEnc` as the cipher the lookup of column 3
is reached in the first round, and the block encrypted for the mask 5 is
`5, 0, ..., 0, 128`: its byte 15 is the byte 15 of the last block of the fill,
not zero. -/
theorem interpolationBlock_not_zero_padded :
    interpolationBlock (flipCrypto.encrypt []) (ordinalRbase flipCrypto 3 []) 5 1
        (flipCrypto.encrypt [] (List.replicate 16 0)) (freshPool 3) =
      some [5, 0, 0, 0, 0, 0, 0, 0, 0, 0, 0, 0, 0, 0, 0, 128] ∧
    ([5, 0, 0, 0, 0, 0, 0, 0, 0, 0, 0, 0, 0, 0, 0, 128] : List Nat).drop 8 ≠
      List.replicate 8 0 := by
  have hr : ordinalRbase flipCrypto 3 [] = 0 := by decide
  have hsort : ordinalParallelQuicksort (List.replicate 32768 0) = List.replicate 32768 0 :=
    List.perm_replicate.mp
      (quicksortFuel_spec _ _ (Nat.le_refl _) (by rw [List.length_replicate]; omega)).2
  refine ⟨?_, by decide⟩
  rw [hr]
  show Option.map (fun s => lePutUint64 s.1 5)
    (lookupState flipEnc 0 (0 + 1) (flipEnc (List.replicate 16 0)) (freshPool 3)) = _
  rw [lookupState, fillLoop_flip_fresh _ (freshPool_length 3)]
  simp only []
  rw [hsort, gapRepair_zeros 32767 (by decide), gapRepair_zeros 0 (by decide),
    if_pos (by decide)]
  decide

/-! ### `Blob.UnmarshalJSON` -/

/-- The panic of `Blob.UnmarshalJSON`: a non-empty input for which `json.Unmarshal`
returns an error or an empty string. -/
theorem Blob_UnmarshalJSON_panics (js : Json) (base64Decode : List Nat → List Nat × Bool)
    (j : List Nat) (hj : j ≠ [])
    (h : js.unmarshalString j = none ∨ js.unmarshalString j = some []) :
    Blob.UnmarshalJSON js base64Decode j = none := by
  have hjl : ¬ j.length = 0 := fun h => hj (List.length_eq_zero.mp h)
  unfold Blob.UnmarshalJSON
  rw [if_neg hjl]
  rcases h with h | h <;> rw [h] <;> rfl

/-- C14, evaluated at the failing inputs: on the JSON array `[1,2]` and on the empty
JSON string `""` the call `Blob.UnmarshalJSON` panics at `str[0]`. -/
theorem Blob_UnmarshalJSON_index_out_of_range :
    Blob.UnmarshalJSON asciiJson (fun s => (s, false)) [91, 49, 44, 50, 93] = none ∧
    Blob.UnmarshalJSON asciiJson (fun s => (s, false)) [34, 34] = none :=
  ⟨Blob_UnmarshalJSON_panics asciiJson _ _ (by decide) (Or.inl (by decide)),
    Blob_UnmarshalJSON_panics asciiJson _ _ (by decide) (Or.inr (by decide))⟩

/-! ### `ClientConfig.Save` -/

theorem foldl_least_mem (f : List Nat → List Nat → Bool) : ∀ (rest : List (List Nat))
    (n : List Nat), rest.foldl (fun m x => if f x m then x else m) n ∈ n :: rest
  | [], n => List.mem_cons_self _ _
  | x :: rest, n => by
    rw [List.foldl_cons]
    have := foldl_least_mem f rest (if f x n then x else n)
    rcases List.mem_cons.mp this with h | h
    · rw [h]
      split_ifs
      · exact List.mem_cons_of_mem _ (List.mem_cons_self _ _)
      · exact List.mem_cons_self _ _
    · exact List.mem_cons_of_mem _ (List.mem_cons_of_mem _ h)

theorem leastName_mem (names : List (List Nat)) (h : names ≠ []) : leastName names ∈ names := by
  cases names with
  | nil => exact absurd rfl h
  | cons n rest => exact foldl_least_mem bytesLess rest n

/-- With `haveDfl` set the loop of `ClientConfig.Save` clears `Default` in every owner it
visits and leaves the other objects alone, when no pointer is nil. -/
theorem saveLoop_true : ∀ (l : List (List Nat × Option Nat)) (heap : Nat → Bool)
    (names : List (List Nat)), (∀ e ∈ l, e.2 ≠ none) →
    ∃ heap1, saveLoop heap true names l = some (heap1, true, names ++ l.map Prod.fst) ∧
      (∀ q, some q ∈ l.map Prod.snd → heap1 q = false) ∧
      (∀ q, some q ∉ l.map Prod.snd → heap1 q = heap q)
  | [], heap, names, _ => ⟨heap, by simp [saveLoop], by simp, fun _ _ => rfl⟩
  | (n, none) :: rest, _, _, h => absurd rfl (h (n, none) (List.mem_cons_self _ _))
  | (n, some p) :: rest, heap, names, h => by
    have hrest : ∀ e ∈ rest, e.2 ≠ none := fun e he => h e (List.mem_cons_of_mem _ he)
    rw [saveLoop, if_pos rfl]
    by_cases hp : heap p = true
    · rw [if_pos hp]
      obtain ⟨heap1, h1, h2, h3⟩ := saveLoop_true rest (setDefault heap p false) (names ++ [n])
        hrest
      refine ⟨heap1, by rw [h1]; simp, fun q hq => ?_, fun q hq => ?_⟩
      · by_cases hm : some q ∈ rest.map Prod.snd
        · exact h2 q hm
        · have hqp : q = p := by
            have hq2 : some q = some p ∨ some q ∈ rest.map Prod.snd := List.mem_cons.mp hq
            rcases hq2 with e | e
            · exact Option.some.inj e
            · exact absurd e hm
          rw [h3 q hm, hqp]
          simp [setDefault]
      · have hm : some q ∉ rest.map Prod.snd := fun e => hq (List.mem_cons_of_mem _ e)
        have hqp : q ≠ p := fun e => hq (by rw [e]; exact List.mem_cons_self _ _)
        rw [h3 q hm]
        simp [setDefault, hqp]
    · rw [if_neg hp]
      obtain ⟨heap1, h1, h2, h3⟩ := saveLoop_true rest heap (names ++ [n]) hrest
      refine ⟨heap1, by rw [h1]; simp, fun q hq => ?_, fun q hq => ?_⟩
      · by_cases hm : some q ∈ rest.map Prod.snd
        · exact h2 q hm
        · have hqp : q = p := by
            have hq2 : some q = some p ∨ some q ∈ rest.map Prod.snd := List.mem_cons.mp hq
            rcases hq2 with e | e
            · exact Option.some.inj e
            · exact absurd e hm
          rw [h3 q hm, hqp]
          simpa using hp
      · have hm : some q ∉ rest.map Prod.snd := fun e => hq (List.mem_cons_of_mem _ e)
        exact h3 q hm

theorem countP_isDefault_zero (heap : Nat → Bool) (l : List (List Nat × Option Nat))
    (h : ∀ q, some q ∈ l.map Prod.snd → heap q = false) :
    l.countP (fun e => isDefault heap e.2) = 0 := by
  rw [List.countP_eq_zero]
  intro e he
  rcases e with ⟨n, o⟩
  cases o with
  | none => simp [isDefault]
  | some q =>
    have : heap q = false := h q (List.mem_map.mpr ⟨(n, some q), he, rfl⟩)
    simp [isDefault, this]

/-- From `haveDfl` unset the loop of `ClientConfig.Save` over distinct non-nil pointers
ends either with `haveDfl` set and one default owner, or with `haveDfl` unset and
no default owner. -/
theorem saveLoop_false : ∀ (l : List (List Nat × Option Nat)) (heap : Nat → Bool)
    (names : List (List Nat)), (∀ e ∈ l, e.2 ≠ none) → (l.map Prod.snd).Nodup →
    ∃ heap1 b, saveLoop heap false names l = some (heap1, b, names ++ l.map Prod.fst) ∧
      (∀ q, some q ∉ l.map Prod.snd → heap1 q = heap q) ∧
      ((b = true ∧ l.countP (fun e => isDefault heap1 e.2) = 1) ∨
        (b = false ∧ ∀ q, some q ∈ l.map Prod.snd → heap1 q = false))
  | [], heap, names, _, _ =>
    ⟨heap, false, by simp [saveLoop], fun _ _ => rfl, Or.inr ⟨rfl, by simp⟩⟩
  | (n, none) :: rest, _, _, h, _ => absurd rfl (h (n, none) (List.mem_cons_self _ _))
  | (n, some p) :: rest, heap, names, h, hnd => by
    have hrest : ∀ e ∈ rest, e.2 ≠ none := fun e he => h e (List.mem_cons_of_mem _ he)
    rw [List.map_cons, List.nodup_cons] at hnd
    obtain ⟨hpn, hnd2⟩ := hnd
    have hpn2 : some p ∉ rest.map Prod.snd := hpn
    rw [saveLoop, if_neg (by decide)]
    by_cases hp : heap p = true
    · rw [if_pos hp]
      obtain ⟨heap1, h1, h2, h3⟩ := saveLoop_true rest heap (names ++ [n]) hrest
      refine ⟨heap1, true, by rw [h1]; simp, fun q hq => ?_, Or.inl ⟨rfl, ?_⟩⟩
      · exact h3 q (fun e => hq (List.mem_cons_of_mem _ e))
      · have hh : isDefault heap1 (some p) = true := by
          show heap1 p = true
          rw [h3 p hpn2]
          exact hp
        rw [List.countP_cons, countP_isDefault_zero heap1 rest h2]
        simp [hh]
    · rw [if_neg hp]
      obtain ⟨heap1, b, h1, h3, h4⟩ := saveLoop_false rest heap (names ++ [n]) hrest hnd2
      have hh : heap1 p = false := by
        rw [h3 p hpn2]
        simpa using hp
      refine ⟨heap1, b, by rw [h1]; simp, fun q hq => ?_, ?_⟩
      · exact h3 q (fun e => hq (List.mem_cons_of_mem _ e))
      · rcases h4 with ⟨hb, hc⟩ | ⟨hb, hc⟩
        · refine Or.inl ⟨hb, ?_⟩
          rw [List.countP_cons, hc]
          simp [isDefault, hh]
        · refine Or.inr ⟨hb, fun q hq => ?_⟩
          have hq2 : some q = some p ∨ some q ∈ rest.map Prod.snd := List.mem_cons.mp hq
          rcases hq2 with e | e
          · rw [Option.some.inj e]
            exact hh
          · exact hc q e

theorem countP_pointer_one (heap : Nat → Bool) (p : Nat) :
    ∀ (l : List (List Nat × Option Nat)), (l.map Prod.snd).Nodup → some p ∈ l.map Prod.snd →
      (∀ q, some q ∈ l.map Prod.snd → heap q = false) →
      l.countP (fun e => isDefault (setDefault heap p true) e.2) = 1
  | [], _, h, _ => absurd h (by simp)
  | (n, o) :: rest, hnd, hmem, hz => by
    rw [List.map_cons, List.nodup_cons] at hnd
    obtain ⟨hon, hnd2⟩ := hnd
    have hz2 : ∀ q, some q ∈ rest.map Prod.snd → heap q = false :=
      fun q hq => hz q (List.mem_cons_of_mem _ hq)
    by_cases ho : o = some p
    · subst ho
      have hh : isDefault (setDefault heap p true) (some p) = true := by
        simp [isDefault, setDefault]
      have hzero : rest.countP (fun e => isDefault (setDefault heap p true) e.2) = 0 := by
        rw [List.countP_eq_zero]
        intro e he
        rcases e with ⟨m, o2⟩
        cases o2 with
        | none => simp [isDefault]
        | some q =>
          have hq : some q ∈ rest.map Prod.snd := List.mem_map.mpr ⟨(m, some q), he, rfl⟩
          have hqp : q ≠ p := fun e => hon (e ▸ hq)
          simp [isDefault, setDefault, hqp, hz2 q hq]
      rw [List.countP_cons, hzero]
      simp [hh]
    · have hmem2 : some p ∈ rest.map Prod.snd := by
        have hq2 : some p = o ∨ some p ∈ rest.map Prod.snd := List.mem_cons.mp hmem
        rcases hq2 with e | e
        · exact absurd e.symm ho
        · exact e
      have hh : ¬ isDefault (setDefault heap p true) o = true := by
        cases o with
        | none => simp [isDefault]
        | some q =>
          have hqp : q ≠ p := fun e => ho (by rw [e])
          have := hz q (List.mem_cons_self _ _)
          simp [isDefault, setDefault, hqp, this]
      rw [List.countP_cons, countP_pointer_one heap p rest hnd2 hmem2 hz2]
      simp [hh]

theorem ownerAt_mem (owners : List (List Nat × Option Nat)) (name : List Nat)
    (hmem : name ∈ owners.map Prod.fst) :
    ∃ e ∈ owners, ownerAt owners name = e.2 := by
  unfold ownerAt
  cases hf : owners.find? (fun e => decide (e.1 = name)) with
  | some e => exact ⟨e, List.mem_of_find?_eq_some hf, rfl⟩
  | none =>
    obtain ⟨e, he, hn⟩ := List.mem_map.mp hmem
    have := List.find?_eq_none.mp hf e he
    exact absurd hn (by simpa using this)

/-- The normalisation at the start of `ClientConfig.Save` does what its comment says
when the owners are distinct objects and none is nil: in whatever order the
map is iterated, it returns and exactly one entry has a default owner. -/
theorem saveNormalise_distinct_owners (heap : Nat → Bool)
    (owners : List (List Nat × Option Nat)) (hne : owners ≠ [])
    (hnil : ∀ e ∈ owners, e.2 ≠ none) (hnd : (owners.map Prod.snd).Nodup) :
    ∃ heap1, saveNormalise heap owners = some heap1 ∧ defaultCount heap1 owners = 1 := by
  have hlen : owners.length > 0 := List.length_pos.mpr hne
  obtain ⟨heap1, b, h1, _, h4⟩ := saveLoop_false owners heap [] hnil hnd
  unfold saveNormalise defaultCount
  rw [if_pos hlen, h1]
  rcases h4 with ⟨hb, hc⟩ | ⟨hb, hc⟩
  · subst hb
    exact ⟨heap1, rfl, hc⟩
  · subst hb
    have hmem : leastName ([] ++ owners.map Prod.fst) ∈ owners.map Prod.fst := by
      rw [List.nil_append]
      exact leastName_mem _ (fun h => hne (List.map_eq_nil_iff.mp h))
    obtain ⟨e, he, hoe⟩ := ownerAt_mem owners _ hmem
    rcases e with ⟨m, o⟩
    cases o with
    | none => exact absurd rfl (hnil (m, none) he)
    | some p =>
      refine ⟨setDefault heap1 p true, ?_, ?_⟩
      · simp only [Bool.not_false, if_true]
        rw [hoe]
      · exact countP_pointer_one heap1 p owners hnd
          (List.mem_map.mpr ⟨(m, some p), he, rfl⟩) hc

/-- The loop of `ClientConfig.Save` panics as soon as it meets a nil owner. -/
theorem saveNormalise_nil (heap : Nat → Bool) (n : List Nat)
    (rest : List (List Nat × Option Nat)) :
    saveNormalise heap ((n, none) :: rest) = none := by
  unfold saveNormalise
  rw [if_pos (by simp), saveLoop]

/-- C15, evaluated at the failing inputs: with the two names `a` and `b` on one owner
whose `Default` is set, the normalisation at the start of `ClientConfig.Save`
returns with no default owner at all, in both orders of the iteration; and with
a nil owner, as `null` is loaded from a configuration file, it panics. -/
theorem Save_default_owner_fails :
    (saveNormalise (fun _ => true) [([97], some 0), ([98], some 0)]).map
        (fun h => defaultCount h [([97], some 0), ([98], some 0)]) = some 0 ∧
    (saveNormalise (fun _ => true) [([98], some 0), ([97], some 0)]).map
        (fun h => defaultCount h [([98], some 0), ([97], some 0)]) = some 0 ∧
    saveNormalise (fun _ => false) [([120], none)] = none := by
  refine ⟨by decide, by decide, saveNormalise_nil _ _ _⟩

/-! ### `Query.Execute` -/

theorem mem_set_cases (l : List (List QueryResult)) (i : Nat) (x g : List QueryResult)
    (h : g ∈ l.set i x) : g = x ∨ g ∈ l := by
  rcases List.mem_or_eq_of_mem_set h with h1 | h1
  · exact Or.inr h1
  · exact Or.inl h1

theorem collateGroup_nonempty (n : Node) (maskingKey : List Nat) :
    ∀ (ts : List apiQueryResultTmp) (rn : Nat) (qr qr1 : List (List QueryResult)),
      (∀ g ∈ qr, g ≠ []) → collateGroup n maskingKey ts rn qr = some qr1 →
        ∀ g ∈ qr1, g ≠ []
  | [], _, qr, qr1, h, he => by
    rw [collateGroup] at he
    rw [← Option.some.inj he]
    exact h
  | t :: rest, rn, qr, qr1, h, he => by
    rw [collateGroup] at he
    cases hb : buildResult n maskingKey t with
    | none => rw [hb] at he; exact absurd he (by simp)
    | some res =>
      rw [hb] at he
      dsimp only at he
      split at he
      · refine collateGroup_nonempty n maskingKey rest _ _ qr1 (fun g hg => ?_) he
        rcases List.mem_append.mp hg with e | e
        · exact h g e
        · rw [List.mem_singleton.mp e]
          exact List.cons_ne_nil _ _
      · refine collateGroup_nonempty n maskingKey rest _ _ qr1 (fun g hg => ?_) he
        rcases mem_set_cases _ _ _ _ hg with e | e
        · rw [e]
          exact List.append_ne_nil_of_right_ne_nil _ (List.cons_ne_nil _ _)
        · exact h g e

theorem collateAll_nonempty (n : Node) (maskingKey : List Nat) :
    ∀ (gs : List (Nat × List apiQueryResultTmp)) (qr qr1 : List (List QueryResult)),
      (∀ g ∈ qr, g ≠ []) → collateAll n maskingKey gs qr = some qr1 → ∀ g ∈ qr1, g ≠ []
  | [], qr, qr1, h, he => by
    rw [collateAll] at he
    rw [← Option.some.inj he]
    exact h
  | g0 :: rest, qr, qr1, h, he => by
    rw [collateAll] at he
    cases hc : collateGroup n maskingKey g0.2 0 qr with
    | none => rw [hc] at he; exact absurd he (by simp)
    | some qr2 =>
      rw [hc] at he
      exact collateAll_nonempty n maskingKey rest qr2 qr1
        (collateGroup_nonempty n maskingKey g0.2 0 qr qr2 h hc) he

theorem sortMember_nonempty (n : Node) (m : Query)
    (hsort : ∀ (less : QueryResult → QueryResult → Bool) (l : List QueryResult),
      (n.sortSlice less l).Perm l)
    (qrr s : List QueryResult) (hq : qrr ≠ []) (h : sortMember n m qrr = some s) : s ≠ [] := by
  have hlen : ∀ less, (n.sortSlice less qrr).length = qrr.length :=
    fun less => (hsort less qrr).length_eq
  have hpos : 0 < qrr.length := List.length_pos.mpr hq
  have key : ∀ s0 : List QueryResult, s0.length = qrr.length →
      (match m.limit with
        | none => some s0
        | some l => if l > 0 ∧ (s0.length : Int) > l then some (s0.take l.toNat) else some s0)
        = some s → s ≠ [] := by
    intro s0 hs0 he
    cases hl : m.limit with
    | none =>
      rw [hl] at he
      rw [← Option.some.inj he]
      exact List.length_pos.mp (by omega)
    | some l =>
      rw [hl] at he
      dsimp only at he
      split at he
      · rename_i hc
        rw [← Option.some.inj he]
        apply List.length_pos.mp
        rw [List.length_take]
        omega
      · rw [← Option.some.inj he]
        exact List.length_pos.mp (by omega)
  unfold sortMember at h
  dsimp only at h
  split_ifs at h
  · exact key _ (hlen _) h
  · exact key _ (hlen _) h
  · exact key _ (hlen _) h

theorem sortMembers_nonempty (n : Node) (m : Query)
    (hsort : ∀ (less : QueryResult → QueryResult → Bool) (l : List QueryResult),
      (n.sortSlice less l).Perm l) :
    ∀ (qr qr1 : List (List QueryResult)), (∀ g ∈ qr, g ≠ []) →
      sortMembers n m qr = some qr1 → ∀ g ∈ qr1, g ≠ []
  | [], qr1, _, he => by
    rw [sortMembers] at he
    rw [← Option.some.inj he]
    exact fun g hg => absurd hg (List.not_mem_nil g)
  | qrr :: rest, qr1, h, he => by
    rw [sortMembers] at he
    cases h1 : sortMember n m qrr with
    | none => rw [h1] at he; exact absurd he (by simp)
    | some s =>
      rw [h1] at he
      dsimp only at he
      cases h2 : sortMembers n m rest with
      | none => rw [h2] at he; exact absurd he (by simp)
      | some r =>
        rw [h2] at he
        rw [← Option.some.inj he]
        intro g hg
        rcases List.mem_cons.mp hg with e | e
        · rw [e]
          exact sortMember_nonempty n m hsort qrr s (h qrr (List.mem_cons_self _ _)) h1
        · exact sortMembers_nonempty n m hsort rest r
            (fun g' hg' => h g' (List.mem_cons_of_mem _ hg')) h2 g e

/-- C16: whenever `Query.Execute` returns without error, every member slice of the
returned `QueryResults` contains at least one record, also after the truncation
by a positive `Limit`; `sort.Slice` is taken to permute its slice. -/
theorem Execute_members_nonempty (m : Query) (n : Node)
    (hsort1 : ∀ (less : QueryResult → QueryResult → Bool) (l : List QueryResult),
      (n.sortSlice less l).Perm l)
    (hsort2 : ∀ (less : List QueryResult → List QueryResult → Bool)
      (l : List (List QueryResult)), (n.sortSlice less l).Perm l)
    (qr : List (List QueryResult)) (h : Query.Execute m n = some qr) :
    ∀ g ∈ qr, 1 ≤ g.length := by
  unfold Query.Execute at h
  split at h
  · exact absurd h (by simp)
  · dsimp only at h
    split at h
    · exact absurd h (by simp)
    · rename_i qr0 hc
      split at h
      · exact absurd h (by simp)
      · rename_i qr1 hs
        have h0 : ∀ g ∈ qr0, g ≠ [] :=
          collateAll_nonempty n _ _ [] qr0 (fun g hg => absurd hg (List.not_mem_nil g)) hc
        have h1 := sortMembers_nonempty n m hsort1 qr0 qr1 h0 hs
        intro g hg
        rw [← Option.some.inj h] at hg
        exact List.length_pos.mpr (h1 g ((hsort2 lessSelectors qr1).mem_iff.mp hg))

theorem Execute_members_nonempty_witness :
    Query.Execute demoQuery demoNode = some demoResults ∧ ∀ g ∈ demoResults, 1 ≤ g.length :=
  ⟨rfl, Execute_members_nonempty demoQuery demoNode (fun _ l => List.Perm.refl l)
    (fun _ l => List.Perm.refl l) demoResults rfl⟩

/-! ### One alphabet for each key and column -/

theorem columnCode_eq_bind (c : Crypto) (fuel : Nat) (pool : Nat → List Nat) (value : Nat)
    (key : List Nat) (k : Nat) :
    columnCode c fuel pool value key k =
      (columnState c fuel (pool k) k (c.sum512 key)).bind
        (fun s => lookup (c.encrypt (((c.sum512 key).drop (16 * k)).take 16)) s.1 s.2
          (columnMask value k) (columnLane value k)) := by
  unfold columnCode ordinal16to32 columnState
  exact ordinal16to32Loop_eq_bind _ _ _ _ _ _ _

theorem lookupState_pool (enc : List Nat → List Nat) (rbase fuel : Nat)
    (aesTmp a1 a2 : List Nat) (h1 : a1.length = 32768) (h2 : a2.length = 32768) :
    lookupState enc rbase fuel aesTmp a1 = lookupState enc rbase fuel aesTmp a2 := by
  cases fuel with
  | zero => rfl
  | succ fuel =>
    simp only [lookupState]
    rw [fillLoop_congr enc rbase 8192 0 aesTmp a1 a2 (h1.trans h2.symm)
      (fun k hk => absurd hk (Nat.not_lt_zero k)) (by omega)]

/-- C21, as amended: for a fixed key and column `k`, every input is encoded in column
`k` from the same register and the same alphabet, whatever its lanes above
column `k` and whatever buffer the pool hands out: the state at the lookup is
computed from the key and the column alone, and the lanes above column `k`
enter through `valueMaskedToColumn`, an argument of the lookup, only. -/
theorem column_alphabet_shared (c : Crypto) (fuel : Nat) (pool1 pool2 : Nat → List Nat)
    (a b : Nat) (key : List Nat) (k : Nat) (h1 : (pool1 k).length = 32768)
    (h2 : (pool2 k).length = 32768) :
    columnCode c fuel pool1 a key k =
      (columnState c fuel (pool1 k) k (c.sum512 key)).bind
        (fun s => lookup (c.encrypt (((c.sum512 key).drop (16 * k)).take 16)) s.1 s.2
          (columnMask a k) (columnLane a k)) ∧
    columnCode c fuel pool2 b key k =
      (columnState c fuel (pool1 k) k (c.sum512 key)).bind
        (fun s => lookup (c.encrypt (((c.sum512 key).drop (16 * k)).take 16)) s.1 s.2
          (columnMask b k) (columnLane b k)) := by
  refine ⟨columnCode_eq_bind c fuel pool1 a key k, ?_⟩
  rw [columnCode_eq_bind c fuel pool2 b key k]
  unfold columnState
  rw [lookupState_pool _ _ _ _ (pool2 k) (pool1 k) h2 h1]

theorem column_alphabet_shared_witness :
    columnCode flipCrypto 1 freshPool 0x0001000000000000 [] 3 =
      (columnState flipCrypto 1 (freshPool 3) 3 (flipCrypto.sum512 [])).bind
        (fun s => lookup (flipCrypto.encrypt (((flipCrypto.sum512 []).drop (16 * 3)).take 16))
          s.1 s.2 (columnMask 0x0001000000000000 3) (columnLane 0x0001000000000000 3)) :=
  (column_alphabet_shared flipCrypto 1 freshPool freshPool 0 0x0001000000000000 [] 3
    (freshPool_length 3) (freshPool_length 3)).2

theorem columnState_flip (k : Nat) (key : List Nat) :
    columnState flipCrypto 1 (freshPool k) k (flipCrypto.sum512 key) =
      some (flipEnc (List.replicate 16 0), gapRepair (List.replicate 32768 0)) := by
  have hr : ordinalRbase flipCrypto k (flipCrypto.sum512 key) = 0 := by
    unfold ordinalRbase
    show leUint32 (flipEnc (List.replicate 16 0)) 0 % (0x7fffffff + 2) = 0
    decide
  have hsort : ordinalParallelQuicksort (List.replicate 32768 0) = List.replicate 32768 0 :=
    List.perm_replicate.mp
      (quicksortFuel_spec _ _ (Nat.le_refl _) (by rw [List.length_replicate]; omega)).2
  unfold columnState
  rw [hr]
  show lookupState flipEnc 0 (0 + 1) (flipEnc (List.replicate 16 0)) (freshPool k) = _
  rw [lookupState, fillLoop_flip_fresh _ (freshPool_length k)]
  simp only []
  rw [hsort, gapRepair_zeros 32767 (by decide), gapRepair_zeros 0 (by decide),
    if_pos (by decide)]

/-- C21, the claim as stated fails: under the empty key with `flipEnc` as the cipher,
the inputs 0 and `2^48` differ in lane 0, above column 3, and both are encoded
in column 3 from the same register and the same alphabet. -/
theorem column_alphabet_not_different :
    columnLane 0 0 ≠ columnLane 0x0001000000000000 0 ∧
    columnMask 0 3 ≠ columnMask 0x0001000000000000 3 ∧
    columnState flipCrypto 1 (freshPool 3) 3 (flipCrypto.sum512 []) =
      some (flipEnc (List.replicate 16 0), gapRepair (List.replicate 32768 0)) ∧
    columnCode flipCrypto 1 freshPool 0 [] 3 =
      lookup flipEnc (flipEnc (List.replicate 16 0)) (gapRepair (List.replicate 32768 0))
        (columnMask 0 3) (columnLane 0 3) ∧
    columnCode flipCrypto 1 freshPool 0x0001000000000000 [] 3 =
      lookup flipEnc (flipEnc (List.replicate 16 0)) (gapRepair (List.replicate 32768 0))
        (columnMask 0x0001000000000000 3) (columnLane 0x0001000000000000 3) := by
  have he : ∀ k, flipCrypto.encrypt k = flipEnc := fun _ => rfl
  refine ⟨by decide, by decide, columnState_flip 3 [], ?_, ?_⟩
  · rw [columnCode_eq_bind, columnState_flip 3 [], Option.some_bind, he]
  · rw [columnCode_eq_bind, columnState_flip 3 [], Option.some_bind, he]

/-! ### No division by zero -/

theorem lookupState_alphabet (enc : List Nat → List Nat) (rbase : Nat) :
    ∀ (fuel : Nat) (aesTmp alphabet : List Nat) (s : List Nat × List Nat),
      alphabet.length = 32768 → lookupState enc rbase fuel aesTmp alphabet = some s →
        ∃ a, a.length = 32768 ∧ s.2 = gapRepair a ∧
          (gapRepair a).getD 32767 0 > (gapRepair a).getD 0 0 ∧
          (gapRepair a).getD 32767 0 < 0xfffffffe := by
  intro fuel
  induction fuel with
  | zero => intro aesTmp alphabet s _ h; exact absurd h (by simp [lookupState])
  | succ fuel ih =>
    intro aesTmp alphabet s hlen h
    have hf : (fillLoop enc rbase 8192 0 aesTmp alphabet).2.length = 32768 := by
      rw [fillLoop_length, hlen]
    have hs : (ordinalParallelQuicksort (fillLoop enc rbase 8192 0 aesTmp alphabet).2).length
        = 32768 := by
      rw [ordinalParallelQuicksort_length _ (by omega), hf]
    rw [lookupState] at h
    split at h
    · rename_i hc
      refine ⟨_, hs, ?_, hc⟩
      rw [← Option.some.inj h]
    · exact ih _ _ s (by rw [gapRepair_length, hs]) h

theorem ordinal16to32Loop_isSome_iff (enc : List Nat → List Nat) (rbase vm cv fuel : Nat)
    (aesTmp alphabet : List Nat) (hlen : alphabet.length = 32768) (hcv : cv ≤ 65535) :
    (ordinal16to32Loop enc rbase vm cv fuel aesTmp alphabet).isSome =
      (lookupState enc rbase fuel aesTmp alphabet).isSome := by
  rw [ordinal16to32Loop_eq_bind]
  cases hs : lookupState enc rbase fuel aesTmp alphabet with
  | none => rfl
  | some s =>
    obtain ⟨a, ha, hsa, _, hlast⟩ := lookupState_alphabet enc rbase fuel aesTmp alphabet s hlen hs
    rw [Option.some_bind, hsa]
    exact lookup_isSome enc s.1 a ha hlast vm cv hcv

/-- C22: for every 32768-entry array, sorted or not, after the gap repair the wrapping
32-bit difference `alphabet[i] - alphabet[i-1]` is at least 2 for every `i` in
1..32767; so the modulus `(alphabet[half+1] - alphabet[half]) - 1` of an odd column
value with `half < 32767` is never zero, with the range check the modulus for
`half = 32767` is at least 2, the lookup returns a code, and `ordinal16to32`
returns one exactly when a round passes the range check: it never divides by
zero. -/
theorem never_divides_by_zero (a : List Nat) (hlen : a.length = 32768) :
    (∀ i, 1 ≤ i → i ≤ 32767 →
      2 ≤ sub32 ((gapRepair a).getD i 0) ((gapRepair a).getD (i - 1) 0)) ∧
    (∀ h, h < 32767 → interpModulus (gapRepair a) h ((gapRepair a).getD h 0) ≠ 0) ∧
    ((gapRepair a).getD 32767 0 > (gapRepair a).getD 0 0 ∧
        (gapRepair a).getD 32767 0 < 0xfffffffe →
      2 ≤ interpModulus (gapRepair a) 32767 ((gapRepair a).getD 32767 0) ∧
      ∀ (enc : List Nat → List Nat) (aesTmp : List Nat) (vm cv : Nat), cv ≤ 0xffff →
        (lookup enc aesTmp (gapRepair a) vm cv).isSome = true) ∧
    (∀ (enc : List Nat → List Nat) (rbase vm cv fuel : Nat) (aesTmp : List Nat), cv ≤ 0xffff →
      (ordinal16to32Loop enc rbase vm cv fuel aesTmp a).isSome =
        (lookupState enc rbase fuel aesTmp a).isSome) := by
  refine ⟨fun i h1 h2 => gapRepair_diff a hlen i h1 h2, fun h hh => ?_, fun hc => ⟨?_, ?_⟩,
    fun enc rbase vm cv fuel aesTmp hcv =>
      ordinal16to32Loop_isSome_iff enc rbase vm cv fuel aesTmp a hlen hcv⟩
  · have hd := gapRepair_diff a hlen (h + 1) (by omega) (by omega)
    simp only [Nat.add_sub_cancel] at hd
    unfold interpModulus
    rw [if_neg (by omega)]
    unfold sub32 at *
    omega
  · unfold interpModulus not32
    rw [if_pos rfl]
    omega
  · intro enc aesTmp vm cv hcv
    exact lookup_isSome enc aesTmp a hlen hc.2 vm cv hcv

theorem never_divides_by_zero_witness :
    2 ≤ sub32 ((gapRepair (List.replicate 32768 0)).getD 9 0)
      ((gapRepair (List.replicate 32768 0)).getD (9 - 1) 0) ∧
    interpModulus (gapRepair (List.replicate 32768 0)) 9
      ((gapRepair (List.replicate 32768 0)).getD 9 0) ≠ 0 :=
  ⟨(never_divides_by_zero (List.replicate 32768 0) (List.length_replicate _ _)).1 9
      (by decide) (by decide),
    (never_divides_by_zero (List.replicate 32768 0) (List.length_replicate _ _)).2.1 9
      (by decide)⟩

/-! ### The last column value -/

/-- C23: for the column value `0xFFFF` and any alphabet that passed the range check,
for every interpolation word `rn` the code returned is
`alphabet[32767] + rn mod (0xFFFFFFFF - alphabet[32767]) + 1` computed in the
integers: neither addition wraps around 32 bits, and the code is above
`alphabet[32767]` and at most `0xFFFFFFFF`. -/
theorem last_column_no_wrap (alphabet : List Nat)
    (hcheck : alphabet.getD 32767 0 > alphabet.getD 0 0 ∧ alphabet.getD 32767 0 < 0xfffffffe) :
    (∀ rn, interpolate alphabet 32767 (alphabet.getD 32767 0) rn =
        some (alphabet.getD 32767 0 + rn % (0xffffffff - alphabet.getD 32767 0) + 1) ∧
      alphabet.getD 32767 0 + rn % (0xffffffff - alphabet.getD 32767 0) < 0xffffffff ∧
      alphabet.getD 32767 0 <
        alphabet.getD 32767 0 + rn % (0xffffffff - alphabet.getD 32767 0) + 1 ∧
      alphabet.getD 32767 0 + rn % (0xffffffff - alphabet.getD 32767 0) + 1 ≤ 0xffffffff) ∧
    (∀ (enc : List Nat → List Nat) (aesTmp : List Nat) (vm : Nat),
      lookup enc aesTmp alphabet vm 0xffff =
        interpolate alphabet 32767 (alphabet.getD 32767 0)
          (leUint32 (enc (lePutUint64 aesTmp vm)) 0)) := by
  have hm : interpModulus alphabet 32767 (alphabet.getD 32767 0) =
      4294967295 - alphabet.getD 32767 0 := by
    unfold interpModulus not32
    rw [if_pos rfl]
    omega
  refine ⟨fun rn => ?_, fun enc aesTmp vm => ?_⟩
  · have hpos : 0 < 4294967295 - alphabet.getD 32767 0 := by omega
    have hlt := Nat.mod_lt rn hpos
    refine ⟨?_, by omega, by omega, by omega⟩
    unfold interpolate
    rw [hm, if_neg (by omega)]
    unfold add32
    congr 1
    omega
  · have hs : (0xffff : Nat) >>> 1 = 32767 := by decide
    have ha : (0xffff : Nat) &&& 1 = 1 := by decide
    unfold lookup
    simp only [hs, ha]
    rw [if_pos (by decide)]

theorem last_column_no_wrap_witness :
    interpolate tripleAlphabet 32767 (tripleAlphabet.getD 32767 0) 12345 =
      some (tripleAlphabet.getD 32767 0 + 12345 % (0xffffffff - tripleAlphabet.getD 32767 0)
        + 1) :=
  ((last_column_no_wrap tripleAlphabet
    ⟨by rw [tripleAlphabet_getD 32767 (by decide), tripleAlphabet_getD 0 (by decide)]; decide,
      by rw [tripleAlphabet_getD 32767 (by decide)]; decide⟩).1 12345).1

/-! ### Even column values -/

theorem lookup_even (enc : List Nat → List Nat) (aesTmp alphabet : List Nat) (vm cv : Nat)
    (hcv : cv % 2 = 0) :
    lookup enc aesTmp alphabet vm cv = some (alphabet.getD (cv >>> 1) 0) := by
  have ha : cv &&& 1 = 0 := by rw [Nat.and_one_is_mod]; exact hcv
  unfold lookup
  simp only [ha]
  rw [if_neg (by omega)]

theorem ordinal16to32_even (c : Crypto) (fuel : Nat) (a1 a2 : List Nat) (vm1 vm2 cv kk : Nat)
    (keyHash : List Nat) (h1 : a1.length = 32768) (h2 : a2.length = 32768) (hcv : cv % 2 = 0) :
    ordinal16to32 c fuel a1 vm1 cv kk keyHash = ordinal16to32 c fuel a2 vm2 cv kk keyHash := by
  rw [ordinal16to32_pool c fuel a1 a2 vm1 cv kk keyHash h1 h2]
  unfold ordinal16to32
  rw [ordinal16to32Loop_eq_bind, ordinal16to32Loop_eq_bind]
  congr 1
  funext s
  rw [lookup_even _ _ _ vm1 cv hcv, lookup_even _ _ _ vm2 cv hcv]

/-- C24: for every key, column `k` and even column value, the code that `ordinal16to32`
returns is the same for all values of `valueMaskedToColumn`; hence two 64-bit
values whose low 16-bit lane is the same even number have identical bytes 12..16
in their ordinals under the same key, whatever their higher lanes (and `Set`
returns for both or for neither). -/
theorem even_lane_leaks (c : Crypto) (fuel : Nat) (pool1 pool2 : Nat → List Nat)
    (b1 b2 : List Nat) (key : List Nat) (a b : Nat)
    (hp1 : ∀ k, k < 4 → (pool1 k).length = 32768) (hp2 : ∀ k, k < 4 → (pool2 k).length = 32768)
    (hb1 : b1.length = 16) (hb2 : b2.length = 16) (_ha : a < 2 ^ 64) (_hb : b < 2 ^ 64)
    (hlane : a &&& 0xffff = b &&& 0xffff) (heven : (a &&& 0xffff) % 2 = 0) :
    (∀ (vm1 vm2 kk : Nat) (keyHash : List Nat),
      ordinal16to32 c fuel (pool1 3) vm1 (a &&& 0xffff) kk keyHash =
        ordinal16to32 c fuel (pool2 3) vm2 (a &&& 0xffff) kk keyHash) ∧
    (Ordinal.Set c fuel pool1 b1 a key).map (List.drop 12) =
      (Ordinal.Set c fuel pool2 b2 b key).map (List.drop 12) := by
  have h13 := hp1 3 (by omega)
  have h23 := hp2 3 (by omega)
  refine ⟨fun vm1 vm2 kk keyHash =>
    ordinal16to32_even c fuel _ _ vm1 vm2 _ kk keyHash h13 h23 heven, ?_⟩
  have s0 := columnCode_isSome c fuel pool1 pool2 a b key 0 (hp1 0 (by omega)) (hp2 0 (by omega))
  have s1 := columnCode_isSome c fuel pool1 pool2 a b key 1 (hp1 1 (by omega)) (hp2 1 (by omega))
  have s2 := columnCode_isSome c fuel pool1 pool2 a b key 2 (hp1 2 (by omega)) (hp2 2 (by omega))
  have la : columnLane a 3 = a &&& 0xffff := by simp [columnLane]
  have lb : columnLane b 3 = a &&& 0xffff := by rw [hlane]; simp [columnLane]
  have k3 : columnCode c fuel pool1 a key 3 = columnCode c fuel pool2 b key 3 := by
    unfold columnCode
    rw [la, lb]
    exact ordinal16to32_even c fuel _ _ _ _ _ 3 _ h13 h23 heven
  rw [Set_eq c fuel pool1 b1 a key hb1, Set_eq c fuel pool2 b2 b key hb2]
  revert s0 s1 s2 k3
  generalize columnCode c fuel pool1 a key 0 = x0
  generalize columnCode c fuel pool1 a key 1 = x1
  generalize columnCode c fuel pool1 a key 2 = x2
  generalize columnCode c fuel pool1 a key 3 = x3
  generalize columnCode c fuel pool2 b key 0 = y0
  generalize columnCode c fuel pool2 b key 1 = y1
  generalize columnCode c fuel pool2 b key 2 = y2
  generalize columnCode c fuel pool2 b key 3 = y3
  intro s0 s1 s2 k3
  subst k3
  cases x0 <;> cases y0 <;> cases x1 <;> cases y1 <;> cases x2 <;> cases y2 <;> cases x3 <;>
    simp_all [bigEndian32]

theorem even_lane_leaks_witness :
    (Ordinal.Set flipCrypto 2 freshPool (List.replicate 16 0) 0x0001000200030004 [107]).map
        (List.drop 12) =
      (Ordinal.Set flipCrypto 2 freshPool (List.replicate 16 9) 0x0009000800070004 [107]).map
        (List.drop 12) :=
  (even_lane_leaks flipCrypto 2 freshPool freshPool (List.replicate 16 0) (List.replicate 16 9)
    [107] 0x0001000200030004 0x0009000800070004 (fun k _ => freshPool_length k)
    (fun k _ => freshPool_length k) (List.length_replicate _ _) (List.length_replicate _ _)
    (by decide) (by decide) (by decide) (by decide)).2

/-! ### `Blob.MarshalJSON` followed by `Blob.UnmarshalJSON` -/

/-- A blob that holds one carriage return is marshalled as the JSON string `"\t"`,
whatever the base64 encoder. -/
theorem Blob_MarshalJSON_cr (base64Encode : List Nat → List Nat) :
    Blob.MarshalJSON base64Encode [13] = [34, 92, 116, 34] := by
  simp [Blob.MarshalJSON, blobMarshalLoop]

/-- With any JSON decoder that reads the string `"\t"` as one tab, the blob `[13]`
comes back from `Blob.MarshalJSON` and `Blob.UnmarshalJSON` as `[9]`. -/
theorem Blob_roundtrip_cr (js : Json) (base64Encode : List Nat → List Nat)
    (base64Decode : List Nat → List Nat × Bool)
    (h : js.unmarshalString [34, 92, 116, 34] = some [9]) :
    Blob.UnmarshalJSON js base64Decode (Blob.MarshalJSON base64Encode [13]) =
      some ([9], false) := by
  rw [Blob_MarshalJSON_cr]
  unfold Blob.UnmarshalJSON
  rw [if_neg (by decide), h]
  simp

/-- C25, evaluated at the failing inputs: the blob `[13]` (one carriage return) is
marshalled as `"\t"` and unmarshalled without error as `[9]`, a different blob;
the empty blob is marshalled as `""`, on which `Blob.UnmarshalJSON` panics at
`str[0]`. -/
theorem Blob_json_roundtrip_fails :
    Blob.MarshalJSON (fun s => s) [13] = [34, 92, 116, 34] ∧
    Blob.UnmarshalJSON asciiJson (fun s => (s, false)) (Blob.MarshalJSON (fun s => s) [13]) =
      some ([9], false) ∧
    ([9] : List Nat) ≠ [13] ∧
    Blob.MarshalJSON (fun s => s) [] = [34, 34] ∧
    Blob.UnmarshalJSON asciiJson (fun s => (s, false)) (Blob.MarshalJSON (fun s => s) []) =
      none :=
  ⟨Blob_MarshalJSON_cr _, Blob_roundtrip_cr asciiJson _ _ (by decide), by decide, rfl,
    Blob_UnmarshalJSON_panics asciiJson _ _ (by decide) (Or.inr (by decide))⟩

/-! ### Errors of `Ordinal.UnmarshalJSON` -/

/-- C26: whenever `Ordinal.UnmarshalJSON` returns a non-nil error, the receiving ordinal
is unchanged; and it returns one exactly when the input is not empty and
`json.Unmarshal` fails for it both as a string and as a byte array. -/
theorem Ordinal_UnmarshalJSON_error_unchanged (js : Json) (base62Decode : List Nat → List Nat)
    (b j : List Nat) (h : (Ordinal.UnmarshalJSON js base62Decode b j).2 = true) :
    (Ordinal.UnmarshalJSON js base62Decode b j).1 = b ∧
    j ≠ [] ∧ js.unmarshalString j = none ∧ js.unmarshalBytes j = none := by
  unfold Ordinal.UnmarshalJSON at h ⊢
  by_cases hj : j.length = 0
  · rw [if_pos hj] at h
    exact absurd h (by simp)
  · rw [if_neg hj] at h ⊢
    have hne : j ≠ [] := fun hn => hj (by rw [hn]; rfl)
    cases hs : js.unmarshalString j with
    | some str => rw [hs] at h; exact absurd h (by simp)
    | none =>
      rw [hs] at h
      cases hb : js.unmarshalBytes j with
      | some bb => rw [hb] at h; exact absurd h (by simp)
      | none => exact ⟨rfl, hne, rfl, rfl⟩

theorem Ordinal_UnmarshalJSON_error_unchanged_witness :
    (Ordinal.UnmarshalJSON asciiJson nibbleDecode
        [1, 2, 3, 4, 5, 6, 7, 8, 9, 10, 11, 12, 13, 14, 15, 16] [91, 93]).2 = true ∧
    (Ordinal.UnmarshalJSON asciiJson nibbleDecode
        [1, 2, 3, 4, 5, 6, 7, 8, 9, 10, 11, 12, 13, 14, 15, 16] [91, 93]).1 =
      [1, 2, 3, 4, 5, 6, 7, 8, 9, 10, 11, 12, 13, 14, 15, 16] :=
  ⟨by decide, (Ordinal_UnmarshalJSON_error_unchanged asciiJson nibbleDecode
    [1, 2, 3, 4, 5, 6, 7, 8, 9, 10, 11, 12, 13, 14, 15, 16] [91, 93] (by decide)).1⟩

end LF
